import Mathlib

/-!
# Verification of the Tileset2D tile cache and refinement engine

Shallow embedding of `Tileset2D` (tileset.ts): the tile cache controller,
the tile-tree builder (`_rebuildTree` / `_getNearestAncestor`), the request
pruner (`_pruneRequests`), the eviction pass (`_resizeCache`), and the three
refinement strategies (`updateTileStateDefault`, `updateTileStateReplace`,
and the trivial `never` strategy).

The JS `Map<string, Tile2DHeader>` is modelled as an insertion-ordered
`List Tile`; tile identity is the tile coordinate (`getTileCacheKey` is
injective on coordinates, so the coordinate itself serves as the cache key).
JS object references between tiles (`parent`, `children`) are modelled as
coordinate keys looked up in the cache, as the spec's design notes suggest.
JS numbers holding tile coordinates are modelled as `Int` (with
`Math.floor(x / 2)` as `Int.fdiv x 2`); byte counts as `Nat`.

`Tile2DHeader` itself is not part of the sources, only its use sites are;
its state is modelled from the spec (load state machine
Unloaded/Loading/Loaded/Errored, `needs_reload`, content, byte length,
per-cycle flags, tree links).
-/

set_option linter.unusedVariables false

namespace Tileset

/-- A tile coordinate `{x, y, z}` (`z` is the zoom level). -/
structure TileIndex where
  x : Int
  y : Int
  z : Int
  deriving DecidableEq, Repr

/-- Modelled from the spec: `load_state ∈ {Unloaded, Loading, Loaded, Errored}`
for a `Tile2DHeader` (the header class is outside the given sources). -/
inductive LoadState where
  | unloaded
  | loading
  | loaded
  | errored
  deriving DecidableEq, Repr

/-- Modelled from the spec: the mutable per-tile state of a `Tile2DHeader`
(outside the given sources; only its fields used by `Tileset2D` are kept).
`parent` and `children` hold cache keys (coordinates) instead of object
references. `state` is the bit mask used by the refinement strategies
(`TILE_STATE_VISITED = 1`, `TILE_STATE_VISIBLE = 2`). -/
structure Tile where
  index : TileIndex
  zoom : Int
  loadState : LoadState
  needsReload : Bool
  hasContent : Bool
  byteLength : Nat
  isSelected : Bool
  isVisible : Bool
  state : Nat
  parent : Option TileIndex
  children : List TileIndex
  deriving DecidableEq, Repr

/-- `tile.isLoaded` accessor of the tile header. -/
def Tile.isLoaded (t : Tile) : Bool := t.loadState == .loaded

/-- `tile.isLoading` accessor of the tile header. -/
def Tile.isLoading (t : Tile) : Bool := t.loadState == .loading

/-- The cache, in insertion order (JS `Map` iteration order). -/
abbrev Cache := List Tile

/-- `this._cache.get(cacheKey)` — look a tile up by its coordinate key. -/
def lookupTile (c : Cache) (i : TileIndex) : Option Tile :=
  c.find? (fun t => t.index == i)

/-- Mutate the tile object stored under key `i` (JS object mutation:
the entry keeps its position in the map). -/
def updateTile (c : Cache) (i : TileIndex) (f : Tile → Tile) : Cache :=
  c.map (fun t => if t.index == i then f t else t)

/-- `this._cache.delete(cacheKey)`. -/
def deleteTile (c : Cache) (i : TileIndex) : Cache :=
  c.filter (fun t => !(t.index == i))

/-- `tile.state! |= TILE_STATE_VISIBLE` on the tile stored under `i`. -/
def markVisible (c : Cache) (i : TileIndex) : Cache :=
  updateTile c i (fun t => { t with state := t.state ||| 2 })

end Tileset

namespace Tileset

/-! ## Refinement strategies (file-level functions of tileset.ts) -/

/-- `getPlaceholderInAncestors`: walk up the `parent` links from `startTile`
until a tile with loaded content is found; mark it VISIBLE and return true,
or return false when the walk falls off the tree. The walk is fuelled: any
fuel larger than the length of the parent chain gives the JS behaviour
(callers pass `cache size + 1`, enough for the trees `_rebuildTree` builds,
whose parent links strictly decrease the zoom level). -/
def getPlaceholderInAncestors : Nat → Cache → TileIndex → Cache × Bool
  | 0, c, _ => (c, false)
  | fuel + 1, c, k =>
    match lookupTile c k with
    | none => (c, false)
    | some t =>
      if t.isLoaded || t.hasContent then (markVisible c k, true)
      else
        match t.parent with
        | some p => getPlaceholderInAncestors fuel c p
        | none => (c, false)

/-- `getPlaceholderInChildren`: fold over `tile.children`, marking every
loaded child VISIBLE and recursing into the unloaded ones. Fuelled by the
recursion depth (callers pass `cache size + 1`; in the trees `_rebuildTree`
builds, children strictly increase the zoom level so the depth is bounded
by the cache size and the fuel is never exhausted). -/
def getPlaceholderInChildren : Nat → Cache → TileIndex → Cache
  | 0, c, _ => c
  | fuel + 1, c, k =>
    match lookupTile c k with
    | none => c
    | some t =>
      t.children.foldl
        (fun c ck =>
          match lookupTile c ck with
          | none => c
          | some ch =>
            if ch.isLoaded || ch.hasContent then markVisible c ck
            else getPlaceholderInChildren fuel c ck)
        c

/-- Insert a tile into a zoom-sorted list, before the first tile of equal
or greater zoom. -/
def insertByZoom (t : Tile) : Cache → Cache
  | [] => [t]
  | u :: rest => if u.zoom < t.zoom then u :: insertByZoom t rest else t :: u :: rest

/-- `Array.from(allTiles).sort((t1, t2) => t1.zoom - t2.zoom)` — a stable
ascending sort by zoom level (insertion sort; stable sorts under the same
comparator compute the same list). -/
def sortByZoom : Cache → Cache
  | [] => []
  | t :: rest => insertByZoom t (sortByZoom rest)

/-- The per-tile body of the `best-available` marking loop: for a selected
tile look for a loaded ancestor placeholder, falling back to loaded
descendants. -/
def defaultStep (fuel : Nat) (c : Cache) (k : TileIndex) : Cache :=
  match lookupTile c k with
  | none => c
  | some t =>
    if t.isSelected then
      if (getPlaceholderInAncestors fuel c k).2 then (getPlaceholderInAncestors fuel c k).1
      else getPlaceholderInChildren fuel (getPlaceholderInAncestors fuel c k).1 k
    else c

/-- `updateTileStateDefault` (the `best-available` strategy), continued:
reset the state bits, run `defaultStep` over every tile in cache order, then
set `isVisible` from the VISIBLE bit. -/
def updateTileStateDefault (c0 : Cache) : Cache :=
  let c := c0.map (fun t => { t with state := 0 })
  let fuel := c.length + 1
  let keys := c.map (·.index)
  let c := keys.foldl (defaultStep fuel) c
  c.map (fun t => { t with isVisible := decide (t.state &&& 2 ≠ 0) })

/-- One iteration of the sorted loop of `updateTileStateReplace`, processing
the tile stored under `k`. -/
def replaceStep (fuel : Nat) (c : Cache) (k : TileIndex) : Cache :=
  match lookupTile c k with
  | none => c
  | some t =>
    if decide (t.state &&& 2 ≠ 0) || decide (t.state &&& 1 ≠ 0) then
      t.children.foldl
        (fun c ck => updateTile c ck (fun u => { u with state := 1 }))
        (updateTile c k (fun u => { u with isVisible := decide (t.state &&& 2 ≠ 0) }))
    else if t.isSelected then
      getPlaceholderInChildren fuel
        (updateTile c k (fun u => { u with isVisible := decide (t.state &&& 2 ≠ 0) })) k
    else updateTile c k (fun u => { u with isVisible := decide (t.state &&& 2 ≠ 0) })

/-- The ancestor-marking loop body of `no-overlap`: mark the nearest loaded
ancestor of every selected tile VISIBLE. -/
def replaceAncStep (fuel : Nat) (c : Cache) (k : TileIndex) : Cache :=
  match lookupTile c k with
  | none => c
  | some t => if t.isSelected then (getPlaceholderInAncestors fuel c k).1 else c

/-- `updateTileStateReplace` (the `no-overlap` strategy), continued: reset
the state bits, run `replaceAncStep` over every tile, then `replaceStep`
over all tiles in ascending zoom order. -/
def updateTileStateReplace (c0 : Cache) : Cache :=
  let c := c0.map (fun t => { t with state := 0 })
  let fuel := c.length + 1
  let keys := c.map (·.index)
  let c := keys.foldl (replaceAncStep fuel) c
  let sortedKeys := (sortByZoom c).map (·.index)
  sortedKeys.foldl (replaceStep fuel) c

end Tileset

namespace Tileset

/-! ## Tileset2D state and controller -/

/-- A JS number as supplied in configuration: finite (a rational), `NaN`,
`±Infinity`, or `undefined` (all the latter fail `Number.isFinite`). -/
inductive JSNum where
  | num (q : Rat)
  | nan
  | posInf
  | negInf
  | undef
  deriving DecidableEq, Repr

/-- `Number.isFinite`. -/
def JSNum.isFinite : JSNum → Bool
  | .num _ => true
  | _ => false

/-- A refinement strategy name from the `STRATEGIES` table
(`never`, `no-overlap`, `best-available`). The code also accepts an
arbitrary caller-supplied function; the claims concern the built-ins. -/
inductive Strategy where
  | never
  | noOverlap
  | bestAvailable
  deriving DecidableEq, Repr

/-- The options of `Tileset2D` relevant to the cache controller
(`getTileData`, callbacks and pass-through indexing options are external). -/
structure TilesetOpts where
  maxCacheSize : Option Nat
  maxCacheByteSize : Option Nat
  refinementStrategy : Strategy
  maxZoom : JSNum
  minZoom : JSNum
  maxRequests : Int
  deriving DecidableEq, Repr

/-- The mutable state of a `Tileset2D` instance. `Viewport` and `Matrix4`
enter the controller only through exact equality tests and as opaque inputs
to the external index generator, so both are modelled as `Nat` tokens.
`tilesList` is the sorted `_tiles` array, `selectedTiles` the
`_selectedTiles` array (as cache keys). -/
structure Tileset2D where
  opts : TilesetOpts
  cache : Cache
  dirty : Bool
  tilesList : List TileIndex
  cacheByteSize : Nat
  viewport : Option Nat
  selectedTiles : Option (List TileIndex)
  frameNumber : Nat
  modelMatrix : Nat
  maxZoom : Option Int
  minZoom : Option Int
  deriving DecidableEq, Repr

/-- The external index generator (`getTileIndices` of utils.ts, reached
through the overridable `getTileIndices` method): viewport, `_maxZoom`,
`_minZoom`, model matrix ↦ desired tile coordinates. -/
abbrev GetTileIndices := Nat → Option Int → Option Int → Nat → List TileIndex

/-- `setOptions`: non-finite `maxZoom` / `minZoom` leave the corresponding
internal bound untouched; finite values are floored (resp. ceiled). -/
def setOptions (s : Tileset2D) (opts : TilesetOpts) : Tileset2D :=
  { s with
    opts := opts
    maxZoom := match opts.maxZoom with
      | .num q => some ⌊q⌋
      | _ => s.maxZoom
    minZoom := match opts.minZoom with
      | .num q => some ⌈q⌉
      | _ => s.minZoom }

/-- Modelled from the spec: `Tile2DHeader.loadData` (header class outside
the sources) — (re)starts the asynchronous load, clearing `needsReload`. -/
def loadDataEffect (t : Tile) : Tile :=
  { t with loadState := .loading, needsReload := false }

/-- Modelled from the spec: `Tile2DHeader.abort` — cooperative cancellation
of a running load; a no-op once the load has settled. -/
def abortTile (t : Tile) : Tile :=
  if t.isLoading then { t with loadState := .unloaded } else t

/-- Modelled from the spec: `Tile2DHeader.setNeedsReload`. -/
def setNeedsReloadEffect (t : Tile) : Tile :=
  { t with needsReload := true }

/-- A freshly constructed `Tile2DHeader` for coordinate `i`, with its zoom
from `getTileZoom` (modelled from the spec for the header's initial state). -/
def newTile (i : TileIndex) : Tile :=
  { index := i, zoom := i.z, loadState := .unloaded, needsReload := false
    hasContent := false, byteLength := 0, isSelected := false
    isVisible := false, state := 0, parent := none, children := [] }

/-- `_getTile(index)` without `create`: look up; a hit flagged
`needsReload` re-triggers `loadData`. -/
def getTileLookup (c : Cache) (i : TileIndex) : Cache × Option Tile :=
  match lookupTile c i with
  | none => (c, none)
  | some t =>
    if t.needsReload then (updateTile c i loadDataEffect, some (loadDataEffect t))
    else (c, some t)

/-- `_getTile(index, true)`: get-or-create. A miss constructs a header,
inserts it (marking the cache dirty) and starts its load; a hit flagged
`needsReload` re-triggers its load. -/
def getTileCreate (c : Cache) (dirty : Bool) (i : TileIndex) : Cache × Bool :=
  match lookupTile c i with
  | none => (c ++ [loadDataEffect (newTile i)], true)
  | some t =>
    if t.needsReload then (updateTile c i loadDataEffect, dirty)
    else (c, dirty)

/-- `getParentIndex`: coordinate-to-parent transform
(`Math.floor(x/2)`, `Math.floor(y/2)`, `z - 1`). -/
def getParentIndex (i : TileIndex) : TileIndex :=
  ⟨i.x.fdiv 2, i.y.fdiv 2, i.z - 1⟩

/-- The loop of `_getNearestAncestor`: while the current index is above
`minZoom`, step to the parent coordinate and look it up (the lookup goes
through `_getTile`, so it re-triggers loads of reload-flagged hits).
The fuel equals the number of remaining loop iterations. -/
def nearestAncestorGo (minZoom : Int) : Nat → Cache → TileIndex → Cache × Option TileIndex
  | 0, c, _ => (c, none)
  | fuel + 1, c, i =>
    if i.z > minZoom then
      let p := getParentIndex i
      match getTileLookup c p with
      | (c', some _) => (c', some p)
      | (c', none) => nearestAncestorGo minZoom fuel c' p
    else (c, none)

/-- `_getNearestAncestor(tile)` — the key of the nearest resident ancestor
of coordinate `i`, searching down to `minZoom` (`this._minZoom ?? 0`). -/
def nearestAncestor (minZoom : Int) (c : Cache) (i : TileIndex) : Cache × Option TileIndex :=
  nearestAncestorGo minZoom (i.z - minZoom).toNat c i

/-- The loop body of `_rebuildTree()`: link the tile under `k` to its
nearest resident ancestor and register it in that ancestor's `children`. -/
def rebuildStep (minZoom : Int) (c : Cache) (k : TileIndex) : Cache :=
  match (nearestAncestor minZoom c k).2 with
  | some pk =>
    updateTile
      (updateTile (nearestAncestor minZoom c k).1 k (fun t => { t with parent := some pk }))
      pk (fun p => { p with children := p.children ++ [k] })
  | none => updateTile (nearestAncestor minZoom c k).1 k (fun t => { t with parent := none })

/-- `_rebuildTree()`, continued: run `rebuildStep` over every cached tile. -/
def rebuildTree (minZoom : Int) (c0 : Cache) : Cache :=
  let c := c0.map (fun t => { t with parent := none, children := ([] : List TileIndex) })
  (c.map (·.index)).foldl (rebuildStep minZoom) c

/-- Dispatch through the `STRATEGIES` table. -/
def runStrategy : Strategy → Cache → Cache
  | .never, c => c
  | .noOverlap, c => updateTileStateReplace c
  | .bestAvailable, c => updateTileStateDefault c

/-- The body of `updateTileStates()` on a cache and a selection: snapshot
the visibilities, reset `isSelected`/`isVisible`, flag the selected tiles
selected and visible, run the strategy, and report whether any tile's
visibility changed. -/
def updateTileStatesCore (strat : Strategy) (sel : List TileIndex) (c : Cache) :
    Cache × Bool :=
  let old := c.map (·.isVisible)
  let c := c.map (fun t => { t with isSelected := false, isVisible := false })
  let c := sel.foldl
    (fun c k => updateTile c k (fun t => { t with isSelected := true, isVisible := true })) c
  let c := runStrategy strat c
  (c, !(old == c.map (·.isVisible)))

/-- `updateTileStates()` on the tileset state. -/
def updateTileStates (s : Tileset2D) : Tileset2D × Bool :=
  let r := updateTileStatesCore s.opts.refinementStrategy (s.selectedTiles.getD []) s.cache
  ({ s with cache := r.1 }, r.2)

/-- The abort loop of `_pruneRequests`: while throttling is on, too many
loads are in flight and an abort candidate remains, abort the oldest
candidate. Returns the new cache and the aborted keys in order. -/
def pruneLoop (maxRequests : Int) : List TileIndex → Int → Cache → Cache × List TileIndex
  | [], _, c => (c, [])
  | k :: rest, count, c =>
    if maxRequests > 0 ∧ count > maxRequests then
      let c' := updateTile c k abortTile
      let r := pruneLoop maxRequests rest (count - 1) c'
      (r.1, k :: r.2)
    else (c, [])

/-- The abort candidates of `_pruneRequests`: tiles currently loading and
neither selected nor visible, in cache insertion order. -/
def abortCandidates (c : Cache) : List TileIndex :=
  (c.filter (fun t => t.isLoading && !t.isSelected && !t.isVisible)).map (·.index)

/-- The number of in-flight requests counted by `_pruneRequests`. -/
def ongoingCount (c : Cache) : Int :=
  ((c.filter (fun t => t.isLoading)).length : Int)

/-- `_pruneRequests()`. -/
def pruneRequests (maxRequests : Int) (c : Cache) : Cache × List TileIndex :=
  pruneLoop maxRequests (abortCandidates c) (ongoingCount c) c

/-- `n ≤ limit` where `none` denotes `Infinity`. -/
def leLim (n : Nat) : Option Nat → Bool
  | none => true
  | some m => n ≤ m

/-- JS truthiness of the configured `maxCacheByteSize`. -/
def byteTruthy : Option Nat → Bool
  | none => false
  | some b => b != 0

/-- `opts.maxCacheSize || (opts.maxCacheByteSize ? Infinity : 5 * sel.length)`
— the effective item limit (`none` = unbounded). -/
def effectiveMaxCacheSize (maxCacheSize maxCacheByteSize : Option Nat) (selCount : Nat) :
    Option Nat :=
  let fallback : Option Nat :=
    if byteTruthy maxCacheByteSize then none else some (5 * selCount)
  match maxCacheSize with
  | some n => if n ≠ 0 then some n else fallback
  | none => fallback

/-- `opts.maxCacheByteSize || Infinity` — the effective byte limit. -/
def effectiveMaxByteSize (maxCacheByteSize : Option Nat) : Option Nat :=
  if byteTruthy maxCacheByteSize then maxCacheByteSize else none

/-- The eviction scan of `_resizeCache`: walk the cache in insertion order,
delete every non-visible tile (debiting the byte total when a byte budget
is configured, and recording the unload callback), and stop as soon as both
limits are satisfied. Returns the surviving cache, the byte total, and the
tiles passed to `onTileUnload`, in order. -/
def evictScan (effMax byteLim : Option Nat) (debit : Bool) :
    Cache → Cache → Nat → Cache → Cache × Nat × Cache
  | kept, [], bytes, events => (kept, bytes, events)
  | kept, t :: rest, bytes, events =>
    if !t.isVisible then
      if leLim (kept.length + rest.length) effMax
          && leLim (bytes - (if debit then t.byteLength else 0)) byteLim then
        (kept ++ rest, bytes - (if debit then t.byteLength else 0), events ++ [t])
      else
        evictScan effMax byteLim debit kept rest
          (bytes - (if debit then t.byteLength else 0)) (events ++ [t])
    else
      if leLim ((kept ++ [t]).length + rest.length) effMax && leLim bytes byteLim then
        (kept ++ [t] ++ rest, bytes, events)
      else evictScan effMax byteLim debit (kept ++ [t]) rest bytes events

/-- The effective item-count limit of `_resizeCache`. -/
def effMaxOf (s : Tileset2D) : Option Nat :=
  effectiveMaxCacheSize s.opts.maxCacheSize s.opts.maxCacheByteSize
    (s.selectedTiles.getD []).length

/-- The effective byte limit of `_resizeCache`. -/
def byteLimOf (s : Tileset2D) : Option Nat :=
  effectiveMaxByteSize s.opts.maxCacheByteSize

/-- The `overflown` test of `_resizeCache`. -/
def resizeOverflown (s : Tileset2D) : Bool :=
  !leLim s.cache.length (effMaxOf s) || !leLim s.cacheByteSize (byteLimOf s)

/-- The eviction scan of `_resizeCache` run on the whole cache. -/
def resizeEvict (s : Tileset2D) : Cache × Nat × Cache :=
  evictScan (effMaxOf s) (byteLimOf s) (byteTruthy s.opts.maxCacheByteSize) [] s.cache
    s.cacheByteSize []

/-- `_resizeCache()`, continued: if either budget is exceeded, run the
eviction scan and rebuild the tree; whenever the dirty flag is (still or
newly) set, re-sort the `_tiles` array by zoom and clear the flag. Returns
the tiles passed to `onTileUnload`. -/
def resizeCache (s : Tileset2D) : Tileset2D × Cache :=
  if resizeOverflown s then
    let r := resizeEvict s
    let c := rebuildTree (s.minZoom.getD 0) r.1
    ({ s with cache := c, cacheByteSize := r.2.1
              tilesList := (sortByZoom c).map (·.index), dirty := false }, r.2.2)
  else if s.dirty then
    ({ s with tilesList := (sortByZoom s.cache).map (·.index), dirty := false }, [])
  else (s, [])

/-- `this.needsReload` — some selected tile is flagged for reload. -/
def needsReloadB (s : Tileset2D) : Bool :=
  match s.selectedTiles with
  | none => false
  | some sel => sel.any (fun k =>
      match lookupTile s.cache k with
      | some t => t.needsReload
      | none => false)

/-- The get-or-create fold of the selection phase over the generated
indices, threading the dirty flag. -/
def createTiles (c : Cache) (dirty : Bool) (indices : List TileIndex) : Cache × Bool :=
  indices.foldl (fun acc i => getTileCreate acc.1 acc.2 i) (c, dirty)

/-- The changed-viewport path of the selection phase: refresh the viewport
and matrix, get-or-create the tiles the index generator asks for, record
them as selected, and rebuild the tree if any tile was created. -/
def updateSelectChanged (gti : GetTileIndices) (s0 : Tileset2D) (viewport : Nat)
    (modelMatrix : Nat) : Tileset2D :=
  if (createTiles s0.cache s0.dirty (gti viewport s0.maxZoom s0.minZoom modelMatrix)).2 then
    { s0 with
      modelMatrix := modelMatrix
      viewport := some viewport
      cache := rebuildTree (s0.minZoom.getD 0)
        (createTiles s0.cache s0.dirty (gti viewport s0.maxZoom s0.minZoom modelMatrix)).1
      dirty := true
      selectedTiles := some (gti viewport s0.maxZoom s0.minZoom modelMatrix) }
  else
    { s0 with
      modelMatrix := modelMatrix
      viewport := some viewport
      cache := (createTiles s0.cache s0.dirty
        (gti viewport s0.maxZoom s0.minZoom modelMatrix)).1
      dirty := false
      selectedTiles := some (gti viewport s0.maxZoom s0.minZoom modelMatrix) }

/-- The selection phase of `update()` (steps 1–4): with changed inputs run
the changed-viewport path; with unchanged inputs, re-resolve the selection
only when a selected tile needs a reload. -/
def updateSelect (gti : GetTileIndices) (s0 : Tileset2D) (viewport : Nat)
    (modelMatrix : Nat) : Tileset2D :=
  if s0.viewport = none ∨ some viewport ≠ s0.viewport ∨ modelMatrix ≠ s0.modelMatrix then
    updateSelectChanged gti s0 viewport modelMatrix
  else if needsReloadB s0 then
    { s0 with
      cache := (s0.selectedTiles.getD []).foldl (fun c k => (getTileLookup c k).1) s0.cache
      selectedTiles := some (s0.selectedTiles.getD []) }
  else s0

/-- `update(viewport, {modelMatrix})`: selection, tile-state refresh,
request pruning, cache resize, frame counter. Returns the new state, the
returned frame number, and the tiles passed to `onTileUnload`. -/
def update (gti : GetTileIndices) (s0 : Tileset2D) (viewport : Nat)
    (modelMatrix : Nat) : Tileset2D × Nat × Cache :=
  let s1 := updateSelect gti s0 viewport modelMatrix
  let r2 := updateTileStates s1
  let s3 := { r2.1 with cache := (pruneRequests r2.1.opts.maxRequests r2.1.cache).1 }
  let r4 := if s3.dirty then resizeCache s3 else (s3, [])
  let s5 := if r2.2 then { r4.1 with frameNumber := r4.1.frameNumber + 1 } else r4.1
  (s5, s5.frameNumber, r4.2)

/-- `reloadAll()`: drop every cached tile outside the current selection
(without unload callback or abort); flag the selected ones for reload.
If there is no selection, the whole cache is dropped. -/
def reloadAll (s : Tileset2D) : Tileset2D :=
  let keys := s.cache.map (·.index)
  let c := keys.foldl
    (fun c k =>
      match s.selectedTiles with
      | none => deleteTile c k
      | some sel => if k ∈ sel then updateTile c k setNeedsReloadEffect else deleteTile c k)
    s.cache
  { s with cache := c }

/-- An external load completing for the tile under `k` with `bytes` bytes of
content: the header becomes loaded (modelled from the spec), and the
controller's `onTileLoad` wrapper grows the byte total and resizes the
cache when a byte budget is configured. -/
def applyTileLoad (s : Tileset2D) (k : TileIndex) (bytes : Nat) : Tileset2D :=
  match lookupTile s.cache k with
  | none => s
  | some _ =>
    let c := updateTile s.cache k
      (fun t => { t with loadState := .loaded, hasContent := true, byteLength := bytes })
    let s := { s with cache := c }
    if byteTruthy s.opts.maxCacheByteSize then
      (resizeCache { s with cacheByteSize := s.cacheByteSize + bytes }).1
    else s

/-- The state after the constructor ran with options `opts`. -/
def initialTileset (opts : TilesetOpts) : Tileset2D :=
  setOptions
    { opts := opts, cache := [], dirty := false, tilesList := [], cacheByteSize := 0
      viewport := none, selectedTiles := none, frameNumber := 0, modelMatrix := 0
      maxZoom := none, minZoom := none }
    opts

end Tileset

namespace Tileset

/-! ## Basic cache lemmas -/

/-- The key list of a cache. -/
def keysOf (c : Cache) : List TileIndex := c.map (·.index)

theorem lookupTile_mem {c : Cache} {i : TileIndex} {t : Tile}
    (h : lookupTile c i = some t) : t ∈ c ∧ t.index = i := by
  refine ⟨List.mem_of_find?_eq_some h, ?_⟩
  have := List.find?_some h
  simpa using this

theorem lookupTile_isSome_iff {c : Cache} {i : TileIndex} :
    (lookupTile c i).isSome = true ↔ i ∈ keysOf c := by
  induction c with
  | nil => simp [lookupTile, keysOf]
  | cons t rest ih =>
    simp only [lookupTile, keysOf] at ih ⊢
    by_cases h : t.index = i
    · simp [List.find?, h]
    · have hne : (t.index == i) = false := by simpa using h
      simp only [List.find?, hne, List.map_cons, List.mem_cons, ih]
      constructor
      · exact fun hm => Or.inr hm
      · rintro (rfl | hm)
        · exact absurd rfl h
        · exact hm

theorem lookupTile_eq_none_iff {c : Cache} {i : TileIndex} :
    lookupTile c i = none ↔ i ∉ keysOf c := by
  rw [← lookupTile_isSome_iff]
  cases lookupTile c i <;> simp

theorem mem_lookupTile {c : Cache} {t : Tile} (hnd : (keysOf c).Nodup)
    (ht : t ∈ c) : lookupTile c t.index = some t := by
  induction c with
  | nil => cases ht
  | cons u rest ih =>
    rcases List.mem_cons.mp ht with rfl | hm
    · simp [lookupTile, List.find?]
    · have hnd' : (keysOf rest).Nodup := (List.nodup_cons.mp hnd).2
      have hni : u.index ∉ keysOf rest := (List.nodup_cons.mp hnd).1
      have : t.index ≠ u.index := by
        intro he
        exact hni (he ▸ List.mem_map_of_mem (·.index) hm)
      have hne : (u.index == t.index) = false := by
        simpa using fun he => this he.symm
      simp only [lookupTile, List.find?, hne]
      exact ih hnd' hm

/-- `updateTile` with an index-preserving mutation: lookup after update. -/
theorem lookupTile_updateTile {c : Cache} {k i : TileIndex} {f : Tile → Tile}
    (hf : ∀ t, (f t).index = t.index) :
    lookupTile (updateTile c k f) i
      = if k = i then (lookupTile c i).map f else lookupTile c i := by
  unfold lookupTile updateTile
  rw [List.find?_map]
  have hpred : ((fun t : Tile => t.index == i) ∘ (fun t => if t.index == k then f t else t))
      = (fun t : Tile => t.index == i) := by
    funext t
    by_cases h : t.index = k <;> simp [Function.comp, h, hf]
  rw [hpred]
  rcases hfind : List.find? (fun t : Tile => t.index == i) c with _ | t
  · simp
  · have hti : t.index = i := by simpa using List.find?_some hfind
    by_cases hki : k = i
    · subst hki
      simp [hti]
    · have hne : (t.index == k) = false := by
        simp only [hti, beq_eq_false_iff_ne, ne_eq]
        exact fun h => hki h.symm
      simp only [hne, hki, if_false]
      simp [hki]
      exact fun h => absurd h (by simpa using hne)

theorem keysOf_updateTile {c : Cache} {k : TileIndex} {f : Tile → Tile}
    (hf : ∀ t, (f t).index = t.index) :
    keysOf (updateTile c k f) = keysOf c := by
  simp only [keysOf, updateTile, List.map_map]
  refine List.map_congr_left fun t _ => ?_
  by_cases h : t.index = k <;> simp [h, hf]

theorem mem_updateTile {c : Cache} {k : TileIndex} {f : Tile → Tile} {u : Tile}
    (hu : u ∈ updateTile c k f) :
    ∃ t ∈ c, u = if t.index = k then f t else t := by
  simp only [updateTile, List.mem_map] at hu
  obtain ⟨t, ht, he⟩ := hu
  exact ⟨t, ht, by by_cases h : t.index = k <;> simp [h] at he ⊢ <;> simp [he.symm]⟩

end Tileset

namespace Tileset

/-! ## C9: setOptions and non-finite zoom bounds -/

/-- Options with non-finite zoom bounds, for concrete instances. -/
def optsNanZoom : TilesetOpts :=
  { maxCacheSize := none, maxCacheByteSize := none, refinementStrategy := .never
    maxZoom := .nan, minZoom := .posInf, maxRequests := 0 }

/-- Options with finite, fractional zoom bounds, for concrete instances. -/
def optsFiniteZoom : TilesetOpts :=
  { maxCacheSize := none, maxCacheByteSize := none, refinementStrategy := .never
    maxZoom := .num (7 / 2), minZoom := .num (3 / 2), maxRequests := 0 }

/-- C9: `setOptions` silently ignores a non-finite `maxZoom` (resp. `minZoom`):
no error is raised (the function is total) and the internal bound is left
unchanged; a finite value updates the bound (to its floor resp. ceiling). -/
theorem setOptions_zoom_bounds (s : Tileset2D) (opts : TilesetOpts) :
    (opts.maxZoom.isFinite = false → (setOptions s opts).maxZoom = s.maxZoom)
    ∧ (∀ q, opts.maxZoom = JSNum.num q → (setOptions s opts).maxZoom = some ⌊q⌋)
    ∧ (opts.minZoom.isFinite = false → (setOptions s opts).minZoom = s.minZoom)
    ∧ (∀ q, opts.minZoom = JSNum.num q → (setOptions s opts).minZoom = some ⌈q⌉) := by
  refine ⟨fun h => ?_, fun q hq => ?_, fun h => ?_, fun q hq => ?_⟩
  · cases hm : opts.maxZoom <;> simp [setOptions, hm] <;> simp [hm, JSNum.isFinite] at h
  · simp [setOptions, hq]
  · cases hm : opts.minZoom <;> simp [setOptions, hm] <;> simp [hm, JSNum.isFinite] at h
  · simp [setOptions, hq]

/-- Witness for C9 at concrete inputs: a `NaN` `maxZoom` leaves the bound
untouched; `maxZoom = 7/2` sets it to `3`. -/
theorem setOptions_zoom_bounds_witness :
    (setOptions (initialTileset optsNanZoom) optsNanZoom).maxZoom
        = (initialTileset optsNanZoom).maxZoom
    ∧ (setOptions (initialTileset optsNanZoom) optsFiniteZoom).maxZoom = some 3
    ∧ (setOptions (initialTileset optsNanZoom) optsFiniteZoom).minZoom = some 2 := by
  refine ⟨(setOptions_zoom_bounds _ _).1 rfl, ?_, ?_⟩
  · rw [(setOptions_zoom_bounds (initialTileset optsNanZoom) optsFiniteZoom).2.1 (7 / 2) rfl]
    norm_num
  · rw [(setOptions_zoom_bounds (initialTileset optsNanZoom) optsFiniteZoom).2.2.2 (3 / 2) rfl]
    norm_num [Int.ceil_eq_iff]

/-! ## C10: reloadAll -/

theorem setNeedsReloadEffect_index (t : Tile) : (setNeedsReloadEffect t).index = t.index := rfl

theorem deleteFold_eq_nil {ks : List TileIndex} :
    ∀ {c : Cache}, (∀ t ∈ c, t.index ∈ ks) → ks.foldl deleteTile c = [] := by
  induction ks with
  | nil =>
    intro c h
    cases c with
    | nil => rfl
    | cons t rest => exact absurd (h t (by simp)) (by simp)
  | cons k rest ih =>
    intro c h
    rw [List.foldl_cons]
    refine ih fun t ht => ?_
    have htc : t ∈ c := List.mem_of_mem_filter ht
    have hne : t.index ≠ k := by
      have := List.of_mem_filter ht
      simpa using this
    rcases List.mem_cons.mp (h t htc) with he | hm
    · exact absurd he hne
    · exact hm

/-- The per-element effect of the `reloadAll` loop for a selection `sel`,
given that the loop visits the key list `ks`. -/
def reloadResolve (sel ks : List TileIndex) (t : Tile) : Option Tile :=
  if t.index ∈ ks then
    (if t.index ∈ sel then some (setNeedsReloadEffect t) else none)
  else some t

theorem reloadFold_eq_filterMap {sel : List TileIndex} :
    ∀ (ks : List TileIndex) (c : Cache),
      ks.foldl
        (fun c k => if k ∈ sel then updateTile c k setNeedsReloadEffect else deleteTile c k) c
      = c.filterMap (reloadResolve sel ks) := by
  intro ks
  induction ks with
  | nil =>
    intro c
    have : reloadResolve sel [] = some ∘ id := by
      funext t
      simp [reloadResolve]
    simp [this, List.filterMap_eq_map]
  | cons k rest ih =>
    intro c
    rw [List.foldl_cons]
    by_cases hk : k ∈ sel
    · rw [if_pos hk, ih, updateTile, List.filterMap_map]
      refine List.filterMap_congr fun t _ => ?_
      by_cases ht : t.index = k
      · have hb : (t.index == k) = true := by simpa using ht
        simp only [Function.comp, hb, if_pos rfl]
        simp [reloadResolve, setNeedsReloadEffect, ht, hk]
      · have hb : (t.index == k) = false := by simpa using ht
        simp only [Function.comp, hb]
        simp [reloadResolve, ht]
    · rw [if_neg hk, ih, deleteTile, List.filterMap_filter]
      refine List.filterMap_congr fun t _ => ?_
      by_cases ht : t.index = k
      · have hb : (t.index == k) = true := by simpa using ht
        simp [hb, reloadResolve, ht, hk]
      · have hb : (t.index == k) = false := by simpa using ht
        simp [hb, reloadResolve, ht]

/-- C10: `reloadAll()` drops exactly the cached tiles outside the current
selection (no unload callback and no abort appears anywhere in its code
path, so survivors and removed tiles keep their load state), flags every
selected resident tile `needsReload`, and with a `null` selection empties
the cache. -/
theorem reloadAll_spec (s : Tileset2D) :
    (s.selectedTiles = none → (reloadAll s).cache = [])
    ∧ (∀ sel, s.selectedTiles = some sel →
        (reloadAll s).cache
          = (s.cache.filter (fun t => decide (t.index ∈ sel))).map setNeedsReloadEffect) := by
  constructor
  · intro hsel
    show (s.cache.map (·.index)).foldl _ s.cache = []
    simp only [hsel]
    exact deleteFold_eq_nil fun t ht => List.mem_map_of_mem (·.index) ht
  · intro sel hsel
    show (s.cache.map (·.index)).foldl _ s.cache = _
    simp only [hsel]
    rw [reloadFold_eq_filterMap]
    rw [← List.filterMap_eq_map setNeedsReloadEffect, List.filterMap_filter]
    refine List.filterMap_congr fun t ht => ?_
    have hks : t.index ∈ s.cache.map (·.index) := List.mem_map_of_mem (·.index) ht
    by_cases hts : t.index ∈ sel <;> simp [reloadResolve, hks, hts, Function.comp]

end Tileset

namespace Tileset

/-- Concrete keys for small scenarios. -/
def iA : TileIndex := ⟨0, 0, 1⟩

/-- Second concrete key. -/
def iB : TileIndex := ⟨1, 0, 1⟩

/-- A small resident state: two tiles, the first selected. -/
def tsTwoTiles : Tileset2D :=
  { opts := optsNanZoom, cache := [newTile iA, loadDataEffect (newTile iB)]
    dirty := false, tilesList := [], cacheByteSize := 0, viewport := some 1
    selectedTiles := some [iA], frameNumber := 0, modelMatrix := 0
    maxZoom := none, minZoom := none }

/-- Witness for C10: on a two-tile cache with `iA` selected, `reloadAll`
keeps exactly the selected tile, flagged for reload; with a `null`
selection it empties the cache. -/
theorem reloadAll_spec_witness :
    (reloadAll tsTwoTiles).cache = [setNeedsReloadEffect (newTile iA)]
    ∧ (reloadAll { tsTwoTiles with selectedTiles := none }).cache = [] := by
  constructor
  · rw [(reloadAll_spec tsTwoTiles).2 [iA] rfl]
    rfl
  · exact (reloadAll_spec { tsTwoTiles with selectedTiles := none }).1 rfl

/-! ## C8: the `never` strategy -/

theorem selectFold_eq (sel : List TileIndex) :
    ∀ c : Cache,
      sel.foldl
        (fun c k =>
          updateTile c k (fun t => { t with isSelected := true, isVisible := true })) c
      = c.map
          (fun t =>
            if t.index ∈ sel then { t with isSelected := true, isVisible := true } else t) := by
  induction sel with
  | nil =>
    intro c
    simp
  | cons k rest ih =>
    intro c
    rw [List.foldl_cons, ih, updateTile, List.map_map]
    refine List.map_congr_left fun t _ => ?_
    by_cases h1 : t.index = k
    · have hb : (t.index == k) = true := by simpa using h1
      by_cases h2 : t.index ∈ rest <;> simp [Function.comp, hb, h1, h2]
    · have hb : (t.index == k) = false := by simpa using h1
      by_cases h2 : t.index ∈ rest <;> simp [Function.comp, hb, h1, h2]

theorem updateTileStatesCore_never (c : Cache) (sel : List TileIndex) :
    ∀ t ∈ (updateTileStatesCore .never sel c).1,
      t.isVisible = t.isSelected ∧ (t.isSelected = true ↔ t.index ∈ sel) := by
  intro t ht
  have hrun : ∀ d : Cache, runStrategy .never d = d := fun _ => rfl
  unfold updateTileStatesCore at ht
  simp only [hrun] at ht
  rw [selectFold_eq] at ht
  rw [List.map_map] at ht
  obtain ⟨u, hu, he⟩ := List.mem_map.mp ht
  by_cases h : u.index ∈ sel
  · simp only [Function.comp, h, if_pos] at he
    subst he
    simp [h]
  · simp only [Function.comp, h, if_neg, if_false] at he
    subst he
    simp [h]

/-- C8: with refinement strategy `never`, after `updateTileStates` runs
every resident tile satisfies `isVisible = isSelected`, and `isSelected`
holds exactly for the tiles of the current selection. -/
theorem never_visible_iff_selected (s : Tileset2D)
    (hstrat : s.opts.refinementStrategy = .never) :
    ∀ t ∈ (updateTileStates s).1.cache,
      t.isVisible = t.isSelected
        ∧ (t.isSelected = true ↔ t.index ∈ s.selectedTiles.getD []) := by
  intro t ht
  have : (updateTileStates s).1.cache
      = (updateTileStatesCore .never (s.selectedTiles.getD []) s.cache).1 := by
    simp [updateTileStates, hstrat]
  rw [this] at ht
  exact updateTileStatesCore_never s.cache (s.selectedTiles.getD []) t ht

/-- Witness for C8 on a concrete two-tile state with one selected tile. -/
theorem never_visible_iff_selected_witness :
    ((updateTileStates tsTwoTiles).1.cache.all
      (fun t => t.isVisible == t.isSelected)) = true := by
  rw [List.all_eq_true]
  intro t ht
  have h := (never_visible_iff_selected tsTwoTiles rfl t ht).1
  simp [h]

end Tileset

namespace Tileset

/-! ## C6: pruneRequests -/

theorem abortTile_index (t : Tile) : (abortTile t).index = t.index := by
  unfold abortTile
  by_cases h : t.isLoading = true <;> simp [h]

/-- The number of candidates the abort loop consumes. -/
def abortCount (m count : Int) (len : Nat) : Nat :=
  if m ≤ 0 then 0 else min len (count - m).toNat

theorem pruneLoop_aborted (m : Int) :
    ∀ (cands : List TileIndex) (count : Int) (c : Cache),
      (pruneLoop m cands count c).2 = cands.take (abortCount m count cands.length) := by
  intro cands
  induction cands with
  | nil => intro count c; simp [pruneLoop]
  | cons k rest ih =>
    intro count c
    unfold pruneLoop
    by_cases h : m > 0 ∧ count > m
    · rw [if_pos h]
      simp only [ih]
      have h1 : abortCount m count (k :: rest).length
          = abortCount m (count - 1) rest.length + 1 := by
        unfold abortCount
        rw [if_neg (by omega), if_neg (by omega)]
        have : (count - m).toNat = (count - 1 - m).toNat + 1 := by omega
        rw [this, List.length_cons]
        omega
      rw [h1, List.take_succ_cons]
    · rw [if_neg h]
      have : abortCount m count (k :: rest).length = 0 := by
        unfold abortCount
        by_cases hm : m ≤ 0
        · rw [if_pos hm]
        · rw [if_neg hm]
          have : (count - m).toNat = 0 := by omega
          simp [this]
      simp only [List.length_cons] at this
      simp [this]

theorem pruneLoop_preserve (m : Int) :
    ∀ (cands : List TileIndex) (count : Int) (c : Cache) (i : TileIndex),
      i ∉ (pruneLoop m cands count c).2 →
      lookupTile (pruneLoop m cands count c).1 i = lookupTile c i := by
  intro cands
  induction cands with
  | nil => intro count c i _; simp [pruneLoop]
  | cons k rest ih =>
    intro count c i hni
    unfold pruneLoop at hni ⊢
    by_cases h : m > 0 ∧ count > m
    · rw [if_pos h] at hni ⊢
      simp only [List.mem_cons] at hni
      push_neg at hni
      rw [ih (count - 1) _ i hni.2]
      rw [lookupTile_updateTile abortTile_index, if_neg (fun he => hni.1 he.symm)]
    · rw [if_neg h]
  
/-- C6: `_pruneRequests` aborts exactly the longest needed prefix of the
abort candidates (the `Loading`, unselected, invisible tiles in cache
insertion order): nothing when `maxRequests ≤ 0`, and otherwise one
candidate per excess in-flight request until the loading count reaches
`maxRequests` or the candidates run out; every aborted tile was loading,
unselected and invisible, and every other tile is left untouched. -/
theorem pruneRequests_spec (m : Int) (c : Cache) (hnd : (keysOf c).Nodup) :
    (pruneRequests m c).2
        = (abortCandidates c).take
            (abortCount m (ongoingCount c) (abortCandidates c).length)
    ∧ (m ≤ 0 → (pruneRequests m c).2 = [])
    ∧ (∀ i ∈ (pruneRequests m c).2,
        ∃ t ∈ c, t.index = i ∧ t.isLoading = true ∧ t.isSelected = false
          ∧ t.isVisible = false)
    ∧ (∀ t ∈ c, t.index ∉ (pruneRequests m c).2 →
        lookupTile (pruneRequests m c).1 t.index = some t)
    ∧ (0 < m →
        ongoingCount c - ((pruneRequests m c).2.length : Int) ≤ m
          ∨ (pruneRequests m c).2 = abortCandidates c) := by
  have h1 := pruneLoop_aborted m (abortCandidates c) (ongoingCount c) c
  refine ⟨h1, ?_, ?_, ?_, ?_⟩
  · intro hm
    rw [show (pruneRequests m c).2 = _ from h1]
    unfold abortCount
    rw [if_pos hm]
    simp
  · intro i hi
    rw [show (pruneRequests m c).2 = _ from h1] at hi
    have hi' : i ∈ abortCandidates c := List.mem_of_mem_take hi
    unfold abortCandidates at hi'
    obtain ⟨t, ht, he⟩ := List.mem_map.mp hi'
    have htc := List.mem_of_mem_filter ht
    have hp := List.of_mem_filter ht
    simp only [Bool.and_eq_true, Bool.not_eq_true'] at hp
    exact ⟨t, htc, he, hp.1.1, hp.1.2, hp.2⟩
  · intro t ht hni
    show lookupTile (pruneLoop m (abortCandidates c) (ongoingCount c) c).1 t.index = some t
    rw [pruneLoop_preserve m _ _ _ _ hni]
    exact mem_lookupTile hnd ht
  · intro hm
    rw [show (pruneRequests m c).2 = _ from h1]
    set len := (abortCandidates c).length with hlen
    set count := ongoingCount c with hcount
    unfold abortCount
    rw [if_neg (by omega)]
    by_cases hc : (count - m).toNat ≤ len
    · left
      rw [List.length_take]
      have : min len (count - m).toNat = (count - m).toNat := by omega
      rw [this]
      omega
    · right
      have : min len (count - m).toNat = len := by omega
      rw [this, hlen, List.take_length]

/-- A loading, unselected, invisible tile at `iA`. -/
def tLoadA : Tile := loadDataEffect (newTile iA)

/-- A loading, unselected, invisible tile at `iB`. -/
def tLoadB : Tile := loadDataEffect (newTile iB)

/-- Witness for C6: with `maxRequests = 1` and two unselected invisible
loading tiles, exactly the earlier-inserted one is aborted and the other
one is still loading afterwards. -/
theorem pruneRequests_spec_witness :
    (pruneRequests 1 [tLoadA, tLoadB]).2 = [iA]
    ∧ lookupTile (pruneRequests 1 [tLoadA, tLoadB]).1 iB = some tLoadB
    ∧ tLoadB.isLoading = true := by
  have h := pruneRequests_spec 1 [tLoadA, tLoadB] (by decide)
  refine ⟨?_, ?_, by decide⟩
  · rw [h.1]
    decide
  · have hb : tLoadB.index = iB := by decide
    rw [← hb]
    refine h.2.2.2.1 tLoadB (by simp) ?_
    rw [h.1]
    decide

end Tileset

namespace Tileset

/-! ## Strategy-invariant projections -/

/-- Everything the refinement strategies never modify: they write only
`state` and `isVisible`. -/
def Tile.persist (t : Tile) :
    TileIndex × Int × LoadState × Bool × Bool × Nat × Bool × Option TileIndex
      × List TileIndex :=
  (t.index, t.zoom, t.loadState, t.needsReload, t.hasContent, t.byteLength,
    t.isSelected, t.parent, t.children)

theorem persist_index {t u : Tile} (h : t.persist = u.persist) : t.index = u.index := by
  simpa [Tile.persist] using congrArg Prod.fst h

theorem keysOf_eq_of_persist_eq {c c' : Cache}
    (h : c.map Tile.persist = c'.map Tile.persist) : keysOf c = keysOf c' := by
  have : keysOf c = (c.map Tile.persist).map (·.1) := by
    simp [keysOf, List.map_map, Tile.persist, Function.comp]
  rw [this, h]
  simp [keysOf, List.map_map, Tile.persist, Function.comp]

theorem lookup_persist_congr {c c' : Cache}
    (h : c.map Tile.persist = c'.map Tile.persist) (i : TileIndex) :
    (lookupTile c i).map Tile.persist = (lookupTile c' i).map Tile.persist := by
  induction c generalizing c' with
  | nil =>
    cases c' with
    | nil => rfl
    | cons u rest => simp at h
  | cons t rest ih =>
    cases c' with
    | nil => simp at h
    | cons u rest' =>
      simp only [List.map_cons, List.cons.injEq] at h
      have hidx : t.index = u.index := persist_index h.1
      simp only [lookupTile, List.find?]
      by_cases hi : t.index = i
      · have h1 : (t.index == i) = true := by simpa using hi
        have h2 : (u.index == i) = true := by simpa using (hidx ▸ hi)
        simp [h1, h2, h.1]
      · have h1 : (t.index == i) = false := by simpa using hi
        have h2 : (u.index == i) = false := by simpa using (hidx ▸ hi)
        simp only [h1, h2]
        exact ih h.2

theorem persist_updateTile {c : Cache} {k : TileIndex} {f : Tile → Tile}
    (hf : ∀ t, (f t).persist = t.persist) :
    (updateTile c k f).map Tile.persist = c.map Tile.persist := by
  simp only [updateTile, List.map_map]
  refine List.map_congr_left fun t _ => ?_
  by_cases h : t.index = k <;> simp [Function.comp, h, hf]

theorem persist_markVisible (c : Cache) (k : TileIndex) :
    (markVisible c k).map Tile.persist = c.map Tile.persist :=
  persist_updateTile (fun t => rfl)

/-! ## C4: under `best-available`, only loaded tiles get the VISIBLE bit -/

/-- Invariant of the `best-available` marking phase: any tile carrying the
VISIBLE bit has loaded content. -/
def VisOnlyLoaded (c : Cache) : Prop :=
  ∀ t ∈ c, t.state &&& 2 ≠ 0 → (t.isLoaded || t.hasContent) = true

theorem visOnlyLoaded_markVisible {c : Cache} {k : TileIndex}
    (hnd : (keysOf c).Nodup) (h : VisOnlyLoaded c)
    (hl : ∀ t, lookupTile c k = some t → (t.isLoaded || t.hasContent) = true) :
    VisOnlyLoaded (markVisible c k) := by
  intro u hu hstate
  obtain ⟨t, ht, he⟩ := mem_updateTile hu
  by_cases hk : t.index = k
  · rw [if_pos hk] at he
    have hlk : lookupTile c k = some t := hk ▸ mem_lookupTile hnd ht
    have := hl t hlk
    simpa [he] using this
  · rw [if_neg hk] at he
    exact he ▸ h t ht (he ▸ hstate)


/-- One iteration of the `for (const child of tile.children)` loop of
`getPlaceholderInChildren`, as a named function for reasoning. -/
def gpicStep (fuel : Nat) (c : Cache) (ck : TileIndex) : Cache :=
  match lookupTile c ck with
  | none => c
  | some ch =>
    if ch.isLoaded || ch.hasContent then markVisible c ck
    else getPlaceholderInChildren fuel c ck

theorem gpic_zero (c : Cache) (k : TileIndex) : getPlaceholderInChildren 0 c k = c := by
  simp [getPlaceholderInChildren]

theorem gpic_succ (fuel : Nat) (c : Cache) (k : TileIndex) :
    getPlaceholderInChildren (fuel + 1) c k
      = (match lookupTile c k with
        | none => c
        | some t => t.children.foldl (gpicStep fuel) c) := rfl

theorem gpa_pres (fuel : Nat) :
    ∀ (c : Cache) (k : TileIndex), (keysOf c).Nodup → VisOnlyLoaded c →
      (getPlaceholderInAncestors fuel c k).1.map Tile.persist = c.map Tile.persist
      ∧ VisOnlyLoaded (getPlaceholderInAncestors fuel c k).1 := by
  induction fuel with
  | zero => exact fun c k _ h => ⟨rfl, h⟩
  | succ f ih =>
    intro c k hnd h
    rcases hlk : lookupTile c k with _ | t
    · have he : getPlaceholderInAncestors (f + 1) c k = (c, false) := by
        simp [getPlaceholderInAncestors, hlk]
      rw [he]
      exact ⟨rfl, h⟩
    · by_cases hld : (t.isLoaded || t.hasContent) = true
      · have he : getPlaceholderInAncestors (f + 1) c k = (markVisible c k, true) := by
          simp [getPlaceholderInAncestors, hlk, hld]
        rw [he]
        refine ⟨persist_markVisible c k, ?_⟩
        refine visOnlyLoaded_markVisible hnd h fun u hu => ?_
        rw [hlk] at hu
        injection hu with he'
        exact he' ▸ hld
      · rcases hp : t.parent with _ | p
        · have he : getPlaceholderInAncestors (f + 1) c k = (c, false) := by
            simp [getPlaceholderInAncestors, hlk, hld, hp]
          rw [he]
          exact ⟨rfl, h⟩
        · have he : getPlaceholderInAncestors (f + 1) c k
              = getPlaceholderInAncestors f c p := by
            simp [getPlaceholderInAncestors, hlk, hld, hp]
          rw [he]
          exact ih c p hnd h

theorem foldl_pres {α : Type} (P : Cache → Prop) (f : Cache → α → Cache)
    (h : ∀ c a, P c → P (f c a)) :
    ∀ (l : List α) (c : Cache), P c → P (l.foldl f c) := by
  intro l
  induction l with
  | nil => exact fun c hc => hc
  | cons a rest ih =>
    intro c hc
    rw [List.foldl_cons]
    exact ih _ (h c a hc)

theorem gpicStep_pres (fuel : Nat) (cref : Cache) (hndref : (keysOf cref).Nodup)
    (hA : ∀ (c : Cache) (k : TileIndex), (keysOf c).Nodup → VisOnlyLoaded c →
      (getPlaceholderInChildren fuel c k).map Tile.persist = c.map Tile.persist
      ∧ VisOnlyLoaded (getPlaceholderInChildren fuel c k)) :
    ∀ (c : Cache) (ck : TileIndex),
      (c.map Tile.persist = cref.map Tile.persist ∧ VisOnlyLoaded c) →
      ((gpicStep fuel c ck).map Tile.persist = cref.map Tile.persist
        ∧ VisOnlyLoaded (gpicStep fuel c ck)) := by
  intro c ck hP
  obtain ⟨hpers, hinv⟩ := hP
  have hnd : (keysOf c).Nodup := by
    rw [keysOf_eq_of_persist_eq hpers]
    exact hndref
  unfold gpicStep
  split
  next => exact ⟨hpers, hinv⟩
  next ch hlk =>
    by_cases hld : (ch.isLoaded || ch.hasContent) = true
    · rw [if_pos hld]
      refine ⟨(persist_markVisible c ck).trans hpers, ?_⟩
      refine visOnlyLoaded_markVisible hnd hinv fun u hu => ?_
      rw [hlk] at hu
      injection hu with he'
      exact he' ▸ hld
    · rw [if_neg hld]
      obtain ⟨h1, h2⟩ := hA c ck hnd hinv
      exact ⟨h1.trans hpers, h2⟩

theorem gpic_pres (fuel : Nat) :
    ∀ (c : Cache) (k : TileIndex), (keysOf c).Nodup → VisOnlyLoaded c →
      (getPlaceholderInChildren fuel c k).map Tile.persist = c.map Tile.persist
      ∧ VisOnlyLoaded (getPlaceholderInChildren fuel c k) := by
  induction fuel with
  | zero =>
    intro c k _ h
    rw [gpic_zero]
    exact ⟨rfl, h⟩
  | succ f ih =>
    intro c k hnd h
    rw [gpic_succ]
    rcases hlk : lookupTile c k with _ | t
    · exact ⟨rfl, h⟩
    · exact foldl_pres
        (fun x => x.map Tile.persist = c.map Tile.persist ∧ VisOnlyLoaded x)
        (gpicStep f) (gpicStep_pres f c hnd ih) t.children c ⟨rfl, h⟩

theorem defaultStep_pres (fuel : Nat) (c1 : Cache)
    (hnd1 : (keysOf c1).Nodup) :
    ∀ (c : Cache) (k : TileIndex),
      (c.map Tile.persist = c1.map Tile.persist ∧ VisOnlyLoaded c) →
      ((defaultStep fuel c k).map Tile.persist = c1.map Tile.persist
        ∧ VisOnlyLoaded (defaultStep fuel c k)) := by
  intro c k hP
  obtain ⟨hpers, hinv⟩ := hP
  have hndc : (keysOf c).Nodup := by
    rw [keysOf_eq_of_persist_eq hpers]
    exact hnd1
  unfold defaultStep
  split
  next => exact ⟨hpers, hinv⟩
  next t hlk =>
    by_cases hsel : t.isSelected = true
    · rw [if_pos hsel]
      obtain ⟨hp1, hv1⟩ := gpa_pres fuel c k hndc hinv
      by_cases hr : (getPlaceholderInAncestors fuel c k).2 = true
      · simp only [hr, if_true]
        exact ⟨hp1.trans hpers, hv1⟩
      · simp only [hr, if_false]
        have hnd' : (keysOf (getPlaceholderInAncestors fuel c k).1).Nodup := by
          rw [keysOf_eq_of_persist_eq hp1]
          exact hndc
        obtain ⟨hp2, hv2⟩ := gpic_pres fuel (getPlaceholderInAncestors fuel c k).1 k hnd' hv1
        exact ⟨(hp2.trans hp1).trans hpers, hv2⟩
    · rw [if_neg hsel]
      exact ⟨hpers, hinv⟩

/-- `updateTileStateDefault` never changes the persistent tile fields, and
grants visibility only to tiles with loaded content. -/
theorem updateTileStateDefault_spec (c0 : Cache) (hnd : (keysOf c0).Nodup) :
    (updateTileStateDefault c0).map Tile.persist = c0.map Tile.persist
    ∧ ∀ t ∈ updateTileStateDefault c0,
        t.isVisible = true → (t.isLoaded || t.hasContent) = true := by
  unfold updateTileStateDefault
  set c1 := c0.map (fun t => { t with state := 0 }) with hc1
  have hreset : c1.map Tile.persist = c0.map Tile.persist := by
    rw [hc1]
    simp only [List.map_map]
    exact List.map_congr_left fun t _ => rfl
  have hnd1 : (keysOf c1).Nodup := by
    rw [keysOf_eq_of_persist_eq hreset]
    exact hnd
  have hInv1 : VisOnlyLoaded c1 := by
    intro t ht hstate
    obtain ⟨u, hu, he⟩ := List.mem_map.mp ht
    exfalso
    apply hstate
    rw [← he]
    simp
  have hfold := foldl_pres
    (fun c => c.map Tile.persist = c1.map Tile.persist ∧ VisOnlyLoaded c)
    (defaultStep (c1.length + 1))
    (defaultStep_pres (c1.length + 1) c1 hnd1)
    (c1.map (·.index)) c1 ⟨rfl, hInv1⟩
  constructor
  · rw [List.map_map]
    have : (Tile.persist ∘ fun t => { t with isVisible := decide (t.state &&& 2 ≠ 0) })
        = Tile.persist := by
      funext t
      rfl
    rw [this]
    exact hfold.1.trans hreset
  · intro t ht hvis
    obtain ⟨u, hu, he⟩ := List.mem_map.mp ht
    have hstate : u.state &&& 2 ≠ 0 := by
      have : t.isVisible = decide (u.state &&& 2 ≠ 0) := by rw [← he]
      rw [hvis] at this
      exact of_decide_eq_true this.symm
    have hload := hfold.2 u hu hstate
    have : t.isLoaded = u.isLoaded ∧ t.hasContent = u.hasContent := by
      rw [← he]
      exact ⟨rfl, rfl⟩
    rw [this.1, this.2]
    exact hload

/-- One `parent`-link step between resident tiles. -/
def parentLink (c : Cache) (k p : TileIndex) : Prop :=
  ∃ t, lookupTile c k = some t ∧ t.parent = some p

/-- One `children`-link step between resident tiles. -/
def childLink (c : Cache) (k ck : TileIndex) : Prop :=
  ∃ t, lookupTile c k = some t ∧ ck ∈ t.children

/-- The branch of `root`: `root` itself, its ancestor chain along `parent`
links, and its descendant subtree along `children` links. -/
def InBranch (c : Cache) (root u : TileIndex) : Prop :=
  Relation.ReflTransGen (parentLink c) root u ∨ Relation.ReflTransGen (childLink c) root u

/-- C4: under the `best-available` strategy, if no tile on a selected
tile's branch (itself, its ancestor chain, its descendant subtree) has
loaded content, then after the strategy runs no tile of that branch is
visible. -/
theorem bestAvailable_unloaded_branch (c : Cache) (root : TileIndex)
    (hnd : (keysOf c).Nodup)
    (hsel : ∃ t, lookupTile c root = some t ∧ t.isSelected = true)
    (hunloaded : ∀ k u, InBranch c root k → lookupTile c k = some u →
      (u.isLoaded || u.hasContent) = false) :
    ∀ k u, InBranch c root k → lookupTile (updateTileStateDefault c) k = some u →
      u.isVisible = false := by
  intro k u hbranch hlk
  by_contra hvis
  have hvis' : u.isVisible = true := by
    cases h : u.isVisible
    · exact absurd h hvis
    · rfl
  obtain ⟨hpers, hloaded⟩ := updateTileStateDefault_spec c hnd
  have hload := hloaded u (lookupTile_mem hlk).1 hvis'
  have hcong := lookup_persist_congr hpers k
  rw [hlk] at hcong
  rcases hl0 : lookupTile c k with _ | u0
  · rw [hl0] at hcong
    simp only [Option.map_some', Option.map_none'] at hcong
    exact Option.noConfusion hcong
  · rw [hl0] at hcong
    simp only [Option.map_some'] at hcong
    injection hcong with hp
    have hls : u.loadState = u0.loadState ∧ u.hasContent = u0.hasContent := by
      unfold Tile.persist at hp
      exact ⟨congrArg (fun x => x.2.2.1) hp, congrArg (fun x => x.2.2.2.2.1) hp⟩
    have : (u0.isLoaded || u0.hasContent) = true := by
      rw [← hload]
      simp [Tile.isLoaded, hls.1, hls.2]
    rw [hunloaded k u0 hbranch hl0] at this
    exact absurd this (by simp)

/-- A selected, still-loading tile with no relatives, for the C4 witness. -/
def w4tile : Tile := { loadDataEffect (newTile iA) with isSelected := true }

/-- Witness for C4 on a one-tile cache whose only (selected) tile is still
loading: after `best-available` runs it is not visible. -/
theorem bestAvailable_unloaded_branch_witness :
    (lookupTile (updateTileStateDefault [w4tile]) iA).map (·.isVisible) = some false := by
  have h := bestAvailable_unloaded_branch [w4tile] iA (by decide)
    ⟨w4tile, by decide, by decide⟩
    (fun k u _ hl => by
      have hm := (lookupTile_mem hl).1
      have : u = w4tile := by simpa using hm
      rw [this]
      decide)
  rcases hl : lookupTile (updateTileStateDefault [w4tile]) iA with _ | u
  · exact absurd hl (by decide)
  · simp only [Option.map_some']
    rw [h iA u (Or.inl Relation.ReflTransGen.refl) hl]

/-! ## C1: the tile tree built by `_rebuildTree` -/

/-- The tree-link view of a tile: its key, parent link and children list. -/
def Tile.linkFields (t : Tile) : TileIndex × Option TileIndex × List TileIndex :=
  (t.index, t.parent, t.children)

theorem proj_updateTile {β : Type} (π : Tile → β) {c : Cache} {k : TileIndex}
    {f : Tile → Tile} (hf : ∀ t, π (f t) = π t) :
    (updateTile c k f).map π = c.map π := by
  simp only [updateTile, List.map_map]
  refine List.map_congr_left fun t _ => ?_
  by_cases h : t.index = k <;> simp [Function.comp, h, hf]

theorem keysOf_eq_of_linkFields_eq {c c' : Cache}
    (h : c.map Tile.linkFields = c'.map Tile.linkFields) : keysOf c = keysOf c' := by
  have h1 : keysOf c = (c.map Tile.linkFields).map (·.1) := by
    simp [keysOf, List.map_map, Tile.linkFields, Function.comp]
  have h2 : keysOf c' = (c'.map Tile.linkFields).map (·.1) := by
    simp [keysOf, List.map_map, Tile.linkFields, Function.comp]
  rw [h1, h2, h]

theorem linkFields_mem_transfer {c c' : Cache}
    (h : c.map Tile.linkFields = c'.map Tile.linkFields) :
    ∀ t ∈ c', ∃ u ∈ c, u.index = t.index ∧ u.parent = t.parent
      ∧ u.children = t.children := by
  intro t ht
  have hm : Tile.linkFields t ∈ c'.map Tile.linkFields :=
    List.mem_map_of_mem Tile.linkFields ht
  rw [← h] at hm
  obtain ⟨u, hu, he⟩ := List.mem_map.mp hm
  exact ⟨u, hu, congrArg (·.1) he, congrArg (·.2.1) he, congrArg (·.2.2) he⟩

theorem getTileLookup_eq_none {c : Cache} {i : TileIndex}
    (hl : lookupTile c i = none) : getTileLookup c i = (c, none) := by
  unfold getTileLookup
  rw [hl]

theorem getTileLookup_eq_some_reload {c : Cache} {i : TileIndex} {t : Tile}
    (hl : lookupTile c i = some t) (hnr : t.needsReload = true) :
    getTileLookup c i = (updateTile c i loadDataEffect, some (loadDataEffect t)) := by
  unfold getTileLookup
  rw [hl]
  simp [hnr]

theorem getTileLookup_eq_some {c : Cache} {i : TileIndex} {t : Tile}
    (hl : lookupTile c i = some t) (hnr : t.needsReload = false) :
    getTileLookup c i = (c, some t) := by
  unfold getTileLookup
  rw [hl]
  simp [hnr]

/-- The membership-only core of `_getNearestAncestor`'s loop: the returned
ancestor key depends only on which keys are resident. -/
def naKeysGo (mz : Int) : Nat → List TileIndex → TileIndex → Option TileIndex
  | 0, _, _ => none
  | fuel + 1, keys, i =>
    if i.z > mz then
      let p := getParentIndex i
      if p ∈ keys then some p else naKeysGo mz fuel keys p
    else none

/-- `_getNearestAncestor` as a pure function of the resident key set. -/
def naKeys (mz : Int) (keys : List TileIndex) (i : TileIndex) : Option TileIndex :=
  naKeysGo mz (i.z - mz).toNat keys i

theorem naGo_spec (mz : Int) :
    ∀ (fuel : Nat) (c : Cache) (i : TileIndex),
      ((nearestAncestorGo mz fuel c i).1).map Tile.linkFields = c.map Tile.linkFields
      ∧ (nearestAncestorGo mz fuel c i).2 = naKeysGo mz fuel (keysOf c) i := by
  intro fuel
  induction fuel with
  | zero => exact fun c i => ⟨rfl, rfl⟩
  | succ f ih =>
    intro c i
    by_cases hz : i.z > mz
    · rcases hl : lookupTile c (getParentIndex i) with _ | t
      · have heq : nearestAncestorGo mz (f + 1) c i
            = nearestAncestorGo mz f c (getParentIndex i) := by
          simp only [nearestAncestorGo, if_pos hz, getTileLookup_eq_none hl]
        have hmem : getParentIndex i ∉ keysOf c := lookupTile_eq_none_iff.mp hl
        have hkeq : naKeysGo mz (f + 1) (keysOf c) i
            = naKeysGo mz f (keysOf c) (getParentIndex i) := by
          simp only [naKeysGo, if_pos hz, if_neg hmem]
        rw [heq, hkeq]
        exact ih c (getParentIndex i)
      · have hmem : getParentIndex i ∈ keysOf c := by
          rw [← lookupTile_isSome_iff, hl]
          rfl
        have hkeq : naKeysGo mz (f + 1) (keysOf c) i = some (getParentIndex i) := by
          simp only [naKeysGo, if_pos hz, if_pos hmem]
        by_cases hnr : t.needsReload = true
        · have heq : nearestAncestorGo mz (f + 1) c i
              = (updateTile c (getParentIndex i) loadDataEffect, some (getParentIndex i)) := by
            simp only [nearestAncestorGo, if_pos hz, getTileLookup_eq_some_reload hl hnr]
          rw [heq, hkeq]
          exact ⟨proj_updateTile Tile.linkFields fun t => rfl, rfl⟩
        · have heq : nearestAncestorGo mz (f + 1) c i = (c, some (getParentIndex i)) := by
            simp only [nearestAncestorGo, if_pos hz,
              getTileLookup_eq_some hl (by simpa using hnr)]
          rw [heq, hkeq]
          exact ⟨rfl, rfl⟩
    · have heq : nearestAncestorGo mz (f + 1) c i = (c, none) := by
        simp only [nearestAncestorGo, if_neg hz]
      have hkeq : naKeysGo mz (f + 1) (keysOf c) i = none := by
        simp only [naKeysGo, if_neg hz]
      rw [heq, hkeq]
      exact ⟨rfl, rfl⟩

theorem nearestAncestor_spec (mz : Int) (c : Cache) (i : TileIndex) :
    ((nearestAncestor mz c i).1).map Tile.linkFields = c.map Tile.linkFields
    ∧ (nearestAncestor mz c i).2 = naKeys mz (keysOf c) i :=
  naGo_spec mz (i.z - mz).toNat c i

theorem getParentIndex_z (i : TileIndex) : (getParentIndex i).z = i.z - 1 := rfl

theorem naKeysGo_lt (mz : Int) :
    ∀ (fuel : Nat) (keys : List TileIndex) (i p : TileIndex),
      naKeysGo mz fuel keys i = some p → p ∈ keys ∧ p.z < i.z := by
  intro fuel
  induction fuel with
  | zero => intro keys i p h; exact absurd h (by simp [naKeysGo])
  | succ f ih =>
    intro keys i p h
    by_cases hz : i.z > mz
    · by_cases hmem : getParentIndex i ∈ keys
      · simp only [naKeysGo, if_pos hz, if_pos hmem] at h
        injection h with he
        subst he
        exact ⟨hmem, by rw [getParentIndex_z]; omega⟩
      · simp only [naKeysGo, if_pos hz, if_neg hmem] at h
        obtain ⟨h1, h2⟩ := ih keys (getParentIndex i) p h
        rw [getParentIndex_z] at h2
        exact ⟨h1, by omega⟩
    · simp only [naKeysGo, if_neg hz] at h
      exact Option.noConfusion h

/-- The tree shape `_rebuildTree`'s loop establishes after it has processed
the keys in `done`, over the resident key list `K`. -/
def TreeSpec (mz : Int) (K done : List TileIndex) (c : Cache) : Prop :=
  (∀ t ∈ c, t.parent = if t.index ∈ done then naKeys mz K t.index else none)
  ∧ (∀ t ∈ c, t.children = done.filter (fun k => naKeys mz K k == some t.index))

theorem rebuildStep_spec (mz : Int) (K : List TileIndex) :
    ∀ (done : List TileIndex) (k : TileIndex) (c : Cache),
      keysOf c = K → k ∉ done →
      TreeSpec mz K done c →
      keysOf (rebuildStep mz c k) = K
      ∧ TreeSpec mz K (done ++ [k]) (rebuildStep mz c k) := by
  intro done k c hK hkd hspec
  obtain ⟨hpar, hch⟩ := hspec
  obtain ⟨hlf, hsnd⟩ := nearestAncestor_spec mz c k
  rw [hK] at hsnd
  have hK1 : keysOf (nearestAncestor mz c k).1 = K := by
    rw [keysOf_eq_of_linkFields_eq hlf, hK]
  have hpar1 : ∀ t ∈ (nearestAncestor mz c k).1,
      t.parent = if t.index ∈ done then naKeys mz K t.index else none := by
    intro t ht
    obtain ⟨u, hu, hei, hep, _⟩ := linkFields_mem_transfer hlf.symm t ht
    rw [← hep, ← hei]
    exact hpar u hu
  have hch1 : ∀ t ∈ (nearestAncestor mz c k).1,
      t.children = done.filter (fun j => naKeys mz K j == some t.index) := by
    intro t ht
    obtain ⟨u, hu, hei, _, hec⟩ := linkFields_mem_transfer hlf.symm t ht
    rw [← hec, ← hei]
    exact hch u hu
  have hfilter : ∀ (i : TileIndex),
      (done ++ [k]).filter (fun j => naKeys mz K j == some i)
      = done.filter (fun j => naKeys mz K j == some i)
        ++ (if naKeys mz K k == some i then [k] else []) := by
    intro i
    rw [List.filter_append]
    congr 1
    by_cases h : (naKeys mz K k == some i) = true <;> simp [List.filter, h]
  rcases hna : (nearestAncestor mz c k).2 with _ | pk
  · have hnaK : naKeys mz K k = none := by rw [← hsnd, hna]
    have hstep : rebuildStep mz c k
        = updateTile (nearestAncestor mz c k).1 k (fun t => { t with parent := none }) := by
      unfold rebuildStep
      rw [hna]
    rw [hstep]
    refine ⟨?_, ?_, ?_⟩
    · have heq := @keysOf_updateTile (nearestAncestor mz c k).1 k
        (fun t => { t with parent := (none : Option TileIndex) }) (fun t => rfl)
      rw [heq, hK1]
    · intro t ht
      obtain ⟨u, hu, he⟩ := mem_updateTile ht
      by_cases hik : u.index = k
      · rw [if_pos hik] at he
        subst he
        simp only [hik, List.mem_append, List.mem_singleton, or_true, if_true]
        exact hnaK.symm
      · rw [if_neg hik] at he
        subst he
        rw [hpar1 t hu]
        by_cases hmem : t.index ∈ done
        · rw [if_pos hmem, if_pos (by simp [List.mem_append, hmem])]
        · rw [if_neg hmem, if_neg (by simp [List.mem_append, hmem, hik])]
    · intro t ht
      obtain ⟨u, hu, he⟩ := mem_updateTile ht
      have hcc : t.children = u.children ∧ t.index = u.index := by
        by_cases hik : u.index = k
        · rw [if_pos hik] at he
          subst he
          exact ⟨rfl, rfl⟩
        · rw [if_neg hik] at he
          subst he
          exact ⟨rfl, rfl⟩
      rw [hcc.1, hcc.2, hch1 u hu, hfilter]
      rw [show (naKeys mz K k == some u.index) = false by rw [hnaK]; rfl]
      simp
  · have hnaK : naKeys mz K k = some pk := by rw [← hsnd, hna]
    have hstep : rebuildStep mz c k
        = updateTile
            (updateTile (nearestAncestor mz c k).1 k (fun t => { t with parent := some pk }))
            pk (fun p => { p with children := p.children ++ [k] }) := by
      unfold rebuildStep
      rw [hna]
    rw [hstep]
    have hpar2 : ∀ t ∈ updateTile (nearestAncestor mz c k).1 k
        (fun t => { t with parent := some pk }),
        t.parent = if t.index ∈ done ++ [k] then naKeys mz K t.index else none := by
      intro t ht
      obtain ⟨u, hu, he⟩ := mem_updateTile ht
      by_cases hik : u.index = k
      · rw [if_pos hik] at he
        subst he
        simp only [hik, List.mem_append, List.mem_singleton, or_true, if_true]
        exact hnaK.symm
      · rw [if_neg hik] at he
        subst he
        rw [hpar1 t hu]
        by_cases hmem : t.index ∈ done
        · rw [if_pos hmem, if_pos (by simp [List.mem_append, hmem])]
        · rw [if_neg hmem, if_neg (by simp [List.mem_append, hmem, hik])]
    have hch2 : ∀ t ∈ updateTile (nearestAncestor mz c k).1 k
        (fun t => { t with parent := some pk }),
        t.children = done.filter (fun j => naKeys mz K j == some t.index) := by
      intro t ht
      obtain ⟨u, hu, he⟩ := mem_updateTile ht
      have hcc : t.children = u.children ∧ t.index = u.index := by
        by_cases hik : u.index = k
        · rw [if_pos hik] at he
          subst he
          exact ⟨rfl, rfl⟩
        · rw [if_neg hik] at he
          subst he
          exact ⟨rfl, rfl⟩
      rw [hcc.1, hcc.2]
      exact hch1 u hu
    refine ⟨?_, ?_, ?_⟩
    · have heq2 := @keysOf_updateTile
        (updateTile (nearestAncestor mz c k).1 k (fun t => { t with parent := some pk })) pk
        (fun p => { p with children := p.children ++ [k] }) (fun t => rfl)
      have heq1 := @keysOf_updateTile (nearestAncestor mz c k).1 k
        (fun t => { t with parent := some pk }) (fun t => rfl)
      rw [heq2, heq1, hK1]
    · intro t ht
      obtain ⟨u, hu, he⟩ := mem_updateTile ht
      have hcc : t.parent = u.parent ∧ t.index = u.index := by
        by_cases hik : u.index = pk
        · rw [if_pos hik] at he
          subst he
          exact ⟨rfl, rfl⟩
        · rw [if_neg hik] at he
          subst he
          exact ⟨rfl, rfl⟩
      rw [hcc.1, hcc.2]
      exact hpar2 u hu
    · intro t ht
      obtain ⟨u, hu, he⟩ := mem_updateTile ht
      by_cases hik : u.index = pk
      · rw [if_pos hik] at he
        subst he
        have hbeq : (naKeys mz K k == some pk) = true := by
          rw [hnaK]
          simp
        rw [show ({ u with children := u.children ++ [k] } : Tile).children
            = u.children ++ [k] from rfl]
        rw [show ({ u with children := u.children ++ [k] } : Tile).index = u.index from rfl]
        rw [hch2 u hu, hfilter, hik, hbeq]
        simp
      · rw [if_neg hik] at he
        subst he
        rw [hch2 t hu, hfilter]
        have hbeq : (naKeys mz K k == some t.index) = false := by
          rw [hnaK]
          simpa using fun he' => hik he'.symm
        rw [hbeq]
        simp

theorem naKeys_lt {mz : Int} {keys : List TileIndex} {i p : TileIndex}
    (h : naKeys mz keys i = some p) : p ∈ keys ∧ p.z < i.z :=
  naKeysGo_lt mz (i.z - mz).toNat keys i p h

theorem rebuildFold (mz : Int) (K : List TileIndex) (hndK : K.Nodup) :
    ∀ (rest done : List TileIndex) (c : Cache),
      done ++ rest = K → keysOf c = K → TreeSpec mz K done c →
      keysOf (rest.foldl (rebuildStep mz) c) = K
      ∧ TreeSpec mz K (done ++ rest) (rest.foldl (rebuildStep mz) c) := by
  intro rest
  induction rest with
  | nil =>
    intro done c happ hK hspec
    simp only [List.foldl_nil, List.append_nil]
    exact ⟨hK, hspec⟩
  | cons k rest' ih =>
    intro done c happ hK hspec
    have hkd : k ∉ done := by
      have hnd2 : (done ++ k :: rest').Nodup := happ ▸ hndK
      have := (List.nodup_append.mp hnd2).2.2
      intro hkdone
      exact this hkdone (by simp)
    obtain ⟨hK', hspec'⟩ := rebuildStep_spec mz K done k c hK hkd hspec
    have happ' : (done ++ [k]) ++ rest' = K := by simpa using happ
    obtain ⟨hK'', hspec''⟩ := ih (done ++ [k]) (rebuildStep mz c k) happ' hK' hspec'
    rw [List.foldl_cons]
    refine ⟨hK'', ?_⟩
    have : done ++ k :: rest' = (done ++ [k]) ++ rest' := by simp
    rw [this]
    exact hspec''

theorem rebuildTree_spec (mz : Int) (c0 : Cache) (hnd : (keysOf c0).Nodup) :
    keysOf (rebuildTree mz c0) = keysOf c0
    ∧ TreeSpec mz (keysOf c0) (keysOf c0) (rebuildTree mz c0) := by
  have hK1 : (c0.map (fun t =>
      { t with parent := none, children := ([] : List TileIndex) })).map (·.index)
      = keysOf c0 := by
    simp only [keysOf, List.map_map]
    exact List.map_congr_left fun t _ => rfl
  have hdef : rebuildTree mz c0
      = ((c0.map (fun t => { t with parent := none, children := ([] : List TileIndex) })).map
          (·.index)).foldl (rebuildStep mz)
          (c0.map (fun t => { t with parent := none, children := ([] : List TileIndex) })) :=
    rfl
  have hspec1 : TreeSpec mz (keysOf c0) []
      (c0.map (fun t => { t with parent := none, children := ([] : List TileIndex) })) := by
    constructor
    · intro t ht
      obtain ⟨u, hu, he⟩ := List.mem_map.mp ht
      simp [← he]
    · intro t ht
      obtain ⟨u, hu, he⟩ := List.mem_map.mp ht
      simp [← he]
  have hres := rebuildFold mz (keysOf c0) hnd (keysOf c0) [] _ (by simp) hK1 hspec1
  rw [hdef, hK1]
  simpa using hres

/-- C1 (amended): after `_rebuildTree`, every resident tile whose `parent`
link is set points at a resident tile of strictly smaller level — its
nearest resident ancestor, which need not be at `level − 1` — and the tile
is registered in that parent's `children` collection. -/
theorem rebuildTree_tree_invariant (mz : Int) (c0 : Cache)
    (hnd : (keysOf c0).Nodup) :
    ∀ t ∈ rebuildTree mz c0, ∀ pk, t.parent = some pk →
      ∃ p ∈ rebuildTree mz c0, p.index = pk ∧ pk.z < t.index.z
        ∧ t.index ∈ p.children := by
  obtain ⟨hkeys, hpar, hch⟩ := rebuildTree_spec mz c0 hnd
  intro t ht pk hp
  have htk : t.index ∈ keysOf c0 := by
    rw [← hkeys]
    exact List.mem_map_of_mem (·.index) ht
  have hpe := hpar t ht
  rw [if_pos htk] at hpe
  have hna : naKeys mz (keysOf c0) t.index = some pk := by rw [← hpe, hp]
  obtain ⟨hpkK, hlt⟩ := naKeys_lt hna
  have hpkK' : pk ∈ keysOf (rebuildTree mz c0) := by rw [hkeys]; exact hpkK
  obtain ⟨p, hpmem, hpidx⟩ := List.mem_map.mp hpkK'
  refine ⟨p, hpmem, hpidx, hlt, ?_⟩
  rw [hch p hpmem, List.mem_filter]
  refine ⟨htk, ?_⟩
  rw [hpidx, hna]
  simp

/-- C1 counterexample against the claim as stated: with only levels 0 and 2
resident, the rebuilt tree links the level-2 tile to the level-0 tile, whose
level is 0, not `2 − 1`. -/
theorem rebuildTree_level_counterexample :
    ((lookupTile (rebuildTree 0 [newTile ⟨0, 0, 0⟩, newTile ⟨0, 0, 2⟩]) ⟨0, 0, 2⟩).map
        (·.parent)) = some (some ⟨0, 0, 0⟩)
    ∧ (⟨0, 0, 0⟩ : TileIndex).z ≠ (⟨0, 0, 2⟩ : TileIndex).z - 1 :=
  ⟨by decide, by decide⟩

/-- The two-tile cache for the C1 witness. -/
def cW1 : Cache := [newTile ⟨0, 0, 0⟩, newTile ⟨0, 0, 1⟩]

/-- Witness for C1 (amended) on a concrete two-tile cache: the level-1 tile
gets the level-0 tile as parent, and is listed among its children. -/
theorem rebuildTree_tree_invariant_witness :
    ((lookupTile (rebuildTree 0 cW1) ⟨0, 0, 1⟩).map (·.parent)) = some (some ⟨0, 0, 0⟩)
    ∧ ((lookupTile (rebuildTree 0 cW1) ⟨0, 0, 0⟩).map
        (fun p => decide ((⟨0, 0, 1⟩ : TileIndex) ∈ p.children))) = some true := by
  refine ⟨by decide, ?_⟩
  rcases hl : lookupTile (rebuildTree 0 cW1) ⟨0, 0, 1⟩ with _ | t
  · exact absurd hl (by decide)
  · have hm := (lookupTile_mem hl).1
    have hidx : t.index = ⟨0, 0, 1⟩ := (lookupTile_mem hl).2
    have h2 : (lookupTile (rebuildTree 0 cW1) ⟨0, 0, 1⟩).map (·.parent)
        = some (some ⟨0, 0, 0⟩) := by decide
    rw [hl, Option.map_some'] at h2
    injection h2 with hp
    obtain ⟨p, hpmem, hpidx, hplt, hpch⟩ :=
      rebuildTree_tree_invariant 0 cW1 (by decide) t hm ⟨0, 0, 0⟩ hp
    have hndr : (keysOf (rebuildTree 0 cW1)).Nodup := by decide
    have hlp : lookupTile (rebuildTree 0 cW1) ⟨0, 0, 0⟩ = some p := by
      rw [← hpidx]
      exact mem_lookupTile hndr hpmem
    rw [hlp, Option.map_some']
    rw [hidx] at hpch
    simp [hpch]

/-! ## C3: the eviction scan destroys only invisible tiles -/

theorem proj_mem_transfer {β : Type} (π : Tile → β) {c c' : Cache}
    (h : c.map π = c'.map π) : ∀ t ∈ c', ∃ u ∈ c, π u = π t := by
  intro t ht
  have hm : π t ∈ c'.map π := List.mem_map_of_mem π ht
  rw [← h] at hm
  exact List.mem_map.mp hm

/-- The per-tile visibility view. -/
def Tile.ivFields (t : Tile) : TileIndex × Bool := (t.index, t.isVisible)

theorem keysOf_eq_of_ivFields_eq {c c' : Cache}
    (h : c.map Tile.ivFields = c'.map Tile.ivFields) : keysOf c = keysOf c' := by
  have h1 : keysOf c = (c.map Tile.ivFields).map (·.1) := by
    simp [keysOf, List.map_map, Tile.ivFields, Function.comp]
  have h2 : keysOf c' = (c'.map Tile.ivFields).map (·.1) := by
    simp [keysOf, List.map_map, Tile.ivFields, Function.comp]
  rw [h1, h2, h]

theorem naGo_iv (mz : Int) :
    ∀ (fuel : Nat) (c : Cache) (i : TileIndex),
      ((nearestAncestorGo mz fuel c i).1).map Tile.ivFields = c.map Tile.ivFields := by
  intro fuel
  induction fuel with
  | zero => exact fun c i => rfl
  | succ f ih =>
    intro c i
    by_cases hz : i.z > mz
    · rcases hl : lookupTile c (getParentIndex i) with _ | t
      · have heq : nearestAncestorGo mz (f + 1) c i
            = nearestAncestorGo mz f c (getParentIndex i) := by
          simp only [nearestAncestorGo, if_pos hz, getTileLookup_eq_none hl]
        rw [heq]
        exact ih c (getParentIndex i)
      · by_cases hnr : t.needsReload = true
        · have heq : nearestAncestorGo mz (f + 1) c i
              = (updateTile c (getParentIndex i) loadDataEffect,
                  some (getParentIndex i)) := by
            simp only [nearestAncestorGo, if_pos hz, getTileLookup_eq_some_reload hl hnr]
          rw [heq]
          exact proj_updateTile Tile.ivFields fun t => rfl
        · have heq : nearestAncestorGo mz (f + 1) c i = (c, some (getParentIndex i)) := by
            simp only [nearestAncestorGo, if_pos hz,
              getTileLookup_eq_some hl (by simpa using hnr)]
          rw [heq]
    · have heq : nearestAncestorGo mz (f + 1) c i = (c, none) := by
        simp only [nearestAncestorGo, if_neg hz]
      rw [heq]

theorem rebuildStep_iv (mz : Int) (c : Cache) (k : TileIndex) :
    (rebuildStep mz c k).map Tile.ivFields = c.map Tile.ivFields := by
  have hna := naGo_iv mz (k.z - mz).toNat c k
  rcases hr : (nearestAncestor mz c k).2 with _ | pk
  · have hstep : rebuildStep mz c k
        = updateTile (nearestAncestor mz c k).1 k (fun t => { t with parent := none }) := by
      unfold rebuildStep
      rw [hr]
    rw [hstep]
    rw [@proj_updateTile _ Tile.ivFields (nearestAncestor mz c k).1 k
      (fun t => { t with parent := none }) (fun t => rfl)]
    exact hna
  · have hstep : rebuildStep mz c k
        = updateTile
            (updateTile (nearestAncestor mz c k).1 k (fun t => { t with parent := some pk }))
            pk (fun p => { p with children := p.children ++ [k] }) := by
      unfold rebuildStep
      rw [hr]
    rw [hstep]
    rw [@proj_updateTile _ Tile.ivFields
      (updateTile (nearestAncestor mz c k).1 k (fun t => { t with parent := some pk })) pk
      (fun p => { p with children := p.children ++ [k] }) (fun t => rfl)]
    rw [@proj_updateTile _ Tile.ivFields (nearestAncestor mz c k).1 k
      (fun t => { t with parent := some pk }) (fun t => rfl)]
    exact hna

theorem rebuildTree_iv (mz : Int) (c0 : Cache) :
    (rebuildTree mz c0).map Tile.ivFields = c0.map Tile.ivFields := by
  have hdef : rebuildTree mz c0
      = ((c0.map (fun t => { t with parent := none, children := ([] : List TileIndex) })).map
          (·.index)).foldl (rebuildStep mz)
          (c0.map (fun t => { t with parent := none, children := ([] : List TileIndex) })) :=
    rfl
  rw [hdef]
  have hclear : (c0.map (fun t =>
      { t with parent := none, children := ([] : List TileIndex) })).map Tile.ivFields
      = c0.map Tile.ivFields := by
    simp only [List.map_map]
    exact List.map_congr_left fun t _ => rfl
  have := foldl_pres (fun x => x.map Tile.ivFields = c0.map Tile.ivFields)
    (rebuildStep mz)
    (fun c k hc => by
      show (rebuildStep mz c k).map Tile.ivFields = c0.map Tile.ivFields
      rw [rebuildStep_iv]
      exact hc)
    ((c0.map (fun t => { t with parent := none, children := ([] : List TileIndex) })).map
      (·.index))
    (c0.map (fun t => { t with parent := none, children := ([] : List TileIndex) }))
    hclear
  exact this

theorem evictScan_cons_invisible {effMax byteLim : Option Nat} {debit : Bool}
    {t : Tile} (hvis : t.isVisible = false) (kept rest : Cache) (bytes : Nat)
    (events : Cache) :
    evictScan effMax byteLim debit kept (t :: rest) bytes events
      = if leLim (kept.length + rest.length) effMax
            && leLim (bytes - (if debit then t.byteLength else 0)) byteLim then
          (kept ++ rest, bytes - (if debit then t.byteLength else 0), events ++ [t])
        else
          evictScan effMax byteLim debit kept rest
            (bytes - (if debit then t.byteLength else 0)) (events ++ [t]) := by
  simp [evictScan, hvis]

theorem evictScan_cons_visible {effMax byteLim : Option Nat} {debit : Bool}
    {t : Tile} (hvis : t.isVisible = true) (kept rest : Cache) (bytes : Nat)
    (events : Cache) :
    evictScan effMax byteLim debit kept (t :: rest) bytes events
      = if leLim ((kept ++ [t]).length + rest.length) effMax && leLim bytes byteLim then
          (kept ++ [t] ++ rest, bytes, events)
        else evictScan effMax byteLim debit (kept ++ [t]) rest bytes events := by
  simp [evictScan, hvis]

theorem evictScan_events (effMax byteLim : Option Nat) (debit : Bool) :
    ∀ (rest kept : Cache) (bytes : Nat) (events : Cache),
      ∀ t ∈ (evictScan effMax byteLim debit kept rest bytes events).2.2,
        t ∈ events ∨ (t ∈ rest ∧ t.isVisible = false) := by
  intro rest
  induction rest with
  | nil =>
    intro kept bytes events t ht
    exact Or.inl ht
  | cons u rest' ih =>
    intro kept bytes events t ht
    by_cases hvis : u.isVisible = true
    · rw [evictScan_cons_visible hvis] at ht
      by_cases hbr : (leLim ((kept ++ [u]).length + rest'.length) effMax
          && leLim bytes byteLim) = true
      · rw [if_pos hbr] at ht
        exact Or.inl ht
      · rw [if_neg hbr] at ht
        rcases ih _ _ _ t ht with h | ⟨h1, h2⟩
        · exact Or.inl h
        · exact Or.inr ⟨by simp [h1], h2⟩
    · have hvis' : u.isVisible = false := by
        cases h : u.isVisible
        · rfl
        · exact absurd h hvis
      rw [evictScan_cons_invisible hvis'] at ht
      by_cases hbr : (leLim (kept.length + rest'.length) effMax
          && leLim (bytes - (if debit then u.byteLength else 0)) byteLim) = true
      · rw [if_pos hbr] at ht
        rcases List.mem_append.mp ht with h | h
        · exact Or.inl h
        · have : t = u := by simpa using h
          exact Or.inr ⟨by simp [this], this ▸ hvis'⟩
      · rw [if_neg hbr] at ht
        rcases ih _ _ _ t ht with h | ⟨h1, h2⟩
        · rcases List.mem_append.mp h with h' | h'
          · exact Or.inl h'
          · have : t = u := by simpa using h'
            exact Or.inr ⟨by simp [this], this ▸ hvis'⟩
        · exact Or.inr ⟨by simp [h1], h2⟩

theorem evictScan_keeps (effMax byteLim : Option Nat) (debit : Bool) :
    ∀ (rest kept : Cache) (bytes : Nat) (events : Cache),
      ∀ t, (t ∈ kept ∨ (t ∈ rest ∧ t.isVisible = true)) →
        t ∈ (evictScan effMax byteLim debit kept rest bytes events).1 := by
  intro rest
  induction rest with
  | nil =>
    intro kept bytes events t ht
    rcases ht with h | ⟨h, _⟩
    · exact h
    · exact absurd h (by simp)
  | cons u rest' ih =>
    intro kept bytes events t ht
    by_cases hvis : u.isVisible = true
    · rw [evictScan_cons_visible hvis]
      by_cases hbr : (leLim ((kept ++ [u]).length + rest'.length) effMax
          && leLim bytes byteLim) = true
      · rw [if_pos hbr]
        rcases ht with h | ⟨h, hv⟩
        · simp [h]
        · rcases List.mem_cons.mp h with rfl | h'
          · simp
          · simp [h']
      · rw [if_neg hbr]
        refine ih _ _ _ t ?_
        rcases ht with h | ⟨h, hv⟩
        · exact Or.inl (by simp [h])
        · rcases List.mem_cons.mp h with rfl | h'
          · exact Or.inl (by simp)
          · exact Or.inr ⟨h', hv⟩
    · have hvis' : u.isVisible = false := by
        cases h : u.isVisible
        · rfl
        · exact absurd h hvis
      rw [evictScan_cons_invisible hvis']
      by_cases hbr : (leLim (kept.length + rest'.length) effMax
          && leLim (bytes - (if debit then u.byteLength else 0)) byteLim) = true
      · rw [if_pos hbr]
        rcases ht with h | ⟨h, hv⟩
        · simp [h]
        · rcases List.mem_cons.mp h with rfl | h'
          · rw [hvis'] at hv
            exact absurd hv (by simp)
          · simp [h']
      · rw [if_neg hbr]
        refine ih _ _ _ t ?_
        rcases ht with h | ⟨h, hv⟩
        · exact Or.inl h
        · rcases List.mem_cons.mp h with rfl | h'
          · rw [hvis'] at hv
            exact absurd hv (by simp)
          · exact Or.inr ⟨h', hv⟩

theorem evictScan_perm (effMax byteLim : Option Nat) (debit : Bool) :
    ∀ (rest kept : Cache) (bytes : Nat) (events : Cache),
      (kept ++ rest ++ events).Perm
        ((evictScan effMax byteLim debit kept rest bytes events).1
          ++ (evictScan effMax byteLim debit kept rest bytes events).2.2) := by
  intro rest
  induction rest with
  | nil =>
    intro kept bytes events
    simp [evictScan]
  | cons u rest' ih =>
    intro kept bytes events
    by_cases hvis : u.isVisible = true
    · rw [evictScan_cons_visible hvis]
      by_cases hbr : (leLim ((kept ++ [u]).length + rest'.length) effMax
          && leLim bytes byteLim) = true
      · rw [if_pos hbr]
        simp
      · rw [if_neg hbr]
        refine List.Perm.trans ?_ (ih (kept ++ [u]) bytes events)
        simp
    · have hvis' : u.isVisible = false := by
        cases h : u.isVisible
        · rfl
        · exact absurd h hvis
      rw [evictScan_cons_invisible hvis']
      have hperm : (kept ++ u :: rest' ++ events).Perm
          (kept ++ rest' ++ (events ++ [u])) := by
        have h1 : (kept ++ u :: rest' ++ events).Perm
            (kept ++ (rest' ++ [u]) ++ events) :=
          List.Perm.append_right events
            (List.Perm.append_left kept (@List.perm_append_comm _ [u] rest'))
        have h2 : kept ++ (rest' ++ [u]) ++ events
            = (kept ++ rest') ++ ([u] ++ events) := by simp
        have h3 : ((kept ++ rest') ++ ([u] ++ events)).Perm
            ((kept ++ rest') ++ (events ++ [u])) :=
          List.Perm.append_left _ List.perm_append_comm
        exact (h2 ▸ h1).trans h3
      by_cases hbr : (leLim (kept.length + rest'.length) effMax
          && leLim (bytes - (if debit then u.byteLength else 0)) byteLim) = true
      · rw [if_pos hbr]
        exact hperm
      · rw [if_neg hbr]
        exact List.Perm.trans hperm
          (ih kept (bytes - (if debit then u.byteLength else 0)) (events ++ [u]))

/-- C3 (amended): the eviction scan of `_resizeCache` removes only tiles
with `is_visible = false` (a tile may be removed while `is_selected` is
true); every visible tile survives, and `onTileUnload` is invoked exactly
once for each removed tile and for no other tile (the event keys and the
surviving keys partition the original cache keys). -/
theorem resizeCache_spec (s : Tileset2D) (hnd : (keysOf s.cache).Nodup) :
    (∀ t ∈ (resizeCache s).2, t.isVisible = false)
    ∧ (∀ t ∈ s.cache, t.isVisible = true →
        ∃ u ∈ (resizeCache s).1.cache, u.index = t.index ∧ u.isVisible = t.isVisible)
    ∧ (keysOf s.cache).Perm
        (keysOf (resizeCache s).1.cache ++ keysOf (resizeCache s).2) := by
  by_cases hov : resizeOverflown s = true
  · have heq : resizeCache s
        = ({ s with
              cache := rebuildTree (s.minZoom.getD 0) (resizeEvict s).1,
              cacheByteSize := (resizeEvict s).2.1,
              tilesList := (sortByZoom (rebuildTree (s.minZoom.getD 0)
                (resizeEvict s).1)).map (·.index),
              dirty := false }, (resizeEvict s).2.2) := by
      simp only [resizeCache, hov, if_true]
    have hiv := rebuildTree_iv (s.minZoom.getD 0) (resizeEvict s).1
    refine ⟨?_, ?_, ?_⟩
    · intro t ht
      rw [heq] at ht
      rcases evictScan_events (effMaxOf s) (byteLimOf s)
          (byteTruthy s.opts.maxCacheByteSize) s.cache [] s.cacheByteSize [] t ht with
        h | ⟨_, h⟩
      · exact absurd h (by simp)
      · exact h
    · intro t ht hvis
      have hk : t ∈ (resizeEvict s).1 :=
        evictScan_keeps (effMaxOf s) (byteLimOf s) (byteTruthy s.opts.maxCacheByteSize)
          s.cache [] s.cacheByteSize [] t (Or.inr ⟨ht, hvis⟩)
      obtain ⟨u, hu, hiveq⟩ := proj_mem_transfer Tile.ivFields hiv t hk
      refine ⟨u, ?_, ?_, ?_⟩
      · rw [heq]
        exact hu
      · exact congrArg (·.1) hiveq
      · exact congrArg (·.2) hiveq
    · rw [heq]
      have hkeys : keysOf (rebuildTree (s.minZoom.getD 0) (resizeEvict s).1)
          = keysOf (resizeEvict s).1 := keysOf_eq_of_ivFields_eq hiv
      show (keysOf s.cache).Perm
        (keysOf (rebuildTree (s.minZoom.getD 0) (resizeEvict s).1)
          ++ keysOf (resizeEvict s).2.2)
      rw [hkeys]
      have hperm := evictScan_perm (effMaxOf s) (byteLimOf s)
        (byteTruthy s.opts.maxCacheByteSize) s.cache [] s.cacheByteSize []
      have hperm' := hperm.map (·.index)
      simp only [List.map_append] at hperm'
      simpa [keysOf, resizeEvict] using hperm'
  · have heq : resizeCache s
        = (if s.dirty then
            ({ s with tilesList := (sortByZoom s.cache).map (·.index), dirty := false }, [])
          else (s, [])) := by
      simp [resizeCache, hov]
    by_cases hd : s.dirty = true
    · rw [heq, if_pos hd]
      exact ⟨fun t ht => absurd ht (by simp), fun t ht hvis => ⟨t, ht, rfl, rfl⟩,
        by simp [keysOf]⟩
    · rw [heq, if_neg hd]
      exact ⟨fun t ht => absurd ht (by simp), fun t ht hvis => ⟨t, ht, rfl, rfl⟩,
        by simp [keysOf]⟩

/-- A visible tile at `iA`. -/
def tVis : Tile := { newTile iA with isVisible := true }

/-- A selected but invisible tile at `iB`. -/
def tSel : Tile := { newTile iB with isSelected := true }

/-- An over-budget state: two tiles, limit 1; the second tile is selected
but not visible. -/
def tsEvict : Tileset2D :=
  { opts := { maxCacheSize := some 1, maxCacheByteSize := none
              refinementStrategy := .never, maxZoom := .undef, minZoom := .undef
              maxRequests := 0 }
    cache := [tVis, tSel], dirty := true, tilesList := [], cacheByteSize := 0
    viewport := some 1, selectedTiles := some [], frameNumber := 0, modelMatrix := 0
    maxZoom := none, minZoom := none }

/-- C3 counterexample against the claim as stated: the eviction scan
destroys a resident tile whose `is_selected` flag is true (`_resizeCache`
only checks `isVisible`). -/
theorem resizeCache_selected_counterexample :
    (resizeCache tsEvict).2.map (fun t => (t.index, t.isSelected, t.isVisible))
      = [(iB, true, false)] := by decide

/-- Witness for C3 (amended) on the concrete over-budget state: every
unloaded tile was invisible and the visible tile survives. -/
theorem resizeCache_spec_witness :
    ((resizeCache tsEvict).2.all fun t => !t.isVisible) = true
    ∧ (lookupTile (resizeCache tsEvict).1.cache iA).isSome = true := by
  have h := resizeCache_spec tsEvict (by decide)
  constructor
  · rw [List.all_eq_true]
    intro t ht
    simp [h.1 t ht]
  · obtain ⟨u, hu, hui, _⟩ := h.2.1 tVis (by simp [tsEvict]) (by decide)
    rw [lookupTile_isSome_iff]
    have : u.index ∈ keysOf (resizeCache tsEvict).1.cache :=
      List.mem_map_of_mem (·.index) hu
    rw [hui] at this
    exact this

/-! ## C2: cache budgets after an update -/

theorem evictScan_post (effMax byteLim : Option Nat) (debit : Bool) :
    ∀ (rest kept : Cache) (bytes : Nat) (events : Cache),
      (∀ t ∈ kept, t.isVisible = true) →
      ((leLim (evictScan effMax byteLim debit kept rest bytes events).1.length effMax = true
        ∧ leLim (evictScan effMax byteLim debit kept rest bytes events).2.1 byteLim = true)
        ∨ (∀ t ∈ (evictScan effMax byteLim debit kept rest bytes events).1,
            t.isVisible = true)) := by
  intro rest
  induction rest with
  | nil =>
    intro kept bytes events hkept
    exact Or.inr hkept
  | cons u rest' ih =>
    intro kept bytes events hkept
    by_cases hvis : u.isVisible = true
    · rw [evictScan_cons_visible hvis]
      by_cases hbr : (leLim ((kept ++ [u]).length + rest'.length) effMax
          && leLim bytes byteLim) = true
      · rw [if_pos hbr]
        rw [Bool.and_eq_true] at hbr
        refine Or.inl ⟨?_, hbr.2⟩
        have : (kept ++ [u] ++ rest').length = (kept ++ [u]).length + rest'.length := by
          simp
          omega
        rw [this]
        exact hbr.1
      · rw [if_neg hbr]
        refine ih (kept ++ [u]) bytes events ?_
        intro t ht
        rcases List.mem_append.mp ht with h | h
        · exact hkept t h
        · have : t = u := by simpa using h
          exact this ▸ hvis
    · have hvis' : u.isVisible = false := by
        cases h : u.isVisible
        · rfl
        · exact absurd h hvis
      rw [evictScan_cons_invisible hvis']
      by_cases hbr : (leLim (kept.length + rest'.length) effMax
          && leLim (bytes - (if debit then u.byteLength else 0)) byteLim) = true
      · rw [if_pos hbr]
        rw [Bool.and_eq_true] at hbr
        refine Or.inl ⟨?_, hbr.2⟩
        have : (kept ++ rest').length = kept.length + rest'.length := by simp
        rw [this]
        exact hbr.1
      · rw [if_neg hbr]
        exact ih kept _ _ hkept

theorem gpa_persist (fuel : Nat) :
    ∀ (c : Cache) (k : TileIndex),
      (getPlaceholderInAncestors fuel c k).1.map Tile.persist = c.map Tile.persist := by
  induction fuel with
  | zero => exact fun c k => rfl
  | succ f ih =>
    intro c k
    rcases hlk : lookupTile c k with _ | t
    · have he : getPlaceholderInAncestors (f + 1) c k = (c, false) := by
        simp [getPlaceholderInAncestors, hlk]
      rw [he]
    · by_cases hld : (t.isLoaded || t.hasContent) = true
      · have he : getPlaceholderInAncestors (f + 1) c k = (markVisible c k, true) := by
          simp [getPlaceholderInAncestors, hlk, hld]
        rw [he]
        exact persist_markVisible c k
      · rcases hp : t.parent with _ | p
        · have he : getPlaceholderInAncestors (f + 1) c k = (c, false) := by
            simp [getPlaceholderInAncestors, hlk, hld, hp]
          rw [he]
        · have he : getPlaceholderInAncestors (f + 1) c k
              = getPlaceholderInAncestors f c p := by
            simp [getPlaceholderInAncestors, hlk, hld, hp]
          rw [he]
          exact ih c p

theorem gpic_persist (fuel : Nat) :
    ∀ (c : Cache) (k : TileIndex),
      (getPlaceholderInChildren fuel c k).map Tile.persist = c.map Tile.persist := by
  induction fuel with
  | zero =>
    intro c k
    rw [gpic_zero]
  | succ f ih =>
    intro c k
    rw [gpic_succ]
    rcases hlk : lookupTile c k with _ | t
    · rfl
    · refine foldl_pres (fun x => x.map Tile.persist = c.map Tile.persist)
        (gpicStep f) ?_ t.children c rfl
      intro c' ck hc'
      unfold gpicStep
      split
      next => exact hc'
      next ch hlk' =>
        by_cases hld : (ch.isLoaded || ch.hasContent) = true
        · rw [if_pos hld, persist_markVisible]
          exact hc'
        · rw [if_neg hld, ih]
          exact hc'

theorem replaceStep_persist (fuel : Nat) (c : Cache) (k : TileIndex) :
    (replaceStep fuel c k).map Tile.persist = c.map Tile.persist := by
  unfold replaceStep
  split
  next => rfl
  next t hlk =>
    have h1 := @proj_updateTile _ Tile.persist c k
      (fun u => { u with isVisible := decide (t.state &&& 2 ≠ 0) }) (fun u => rfl)
    split
    · refine foldl_pres (fun x => x.map Tile.persist = c.map Tile.persist)
        (fun c ck => updateTile c ck (fun u => { u with state := 1 })) ?_ t.children _ h1
      intro c' ck hc'
      show (updateTile c' ck (fun u => { u with state := 1 })).map Tile.persist
        = c.map Tile.persist
      rw [@proj_updateTile _ Tile.persist c' ck (fun u => { u with state := 1 })
        (fun u => rfl)]
      exact hc'
    · split
      · rw [gpic_persist]
        exact h1
      · exact h1

theorem replaceAncStep_persist (fuel : Nat) (c : Cache) (k : TileIndex) :
    (replaceAncStep fuel c k).map Tile.persist = c.map Tile.persist := by
  unfold replaceAncStep
  split
  next => rfl
  next t hlk =>
    split
    · exact gpa_persist fuel c k
    · rfl

theorem defaultStep_persist (fuel : Nat) (c : Cache) (k : TileIndex) :
    (defaultStep fuel c k).map Tile.persist = c.map Tile.persist := by
  unfold defaultStep
  split
  next => rfl
  next t hlk =>
    split
    · split
      · exact gpa_persist fuel c k
      · rw [gpic_persist, gpa_persist]
    · rfl

theorem runStrategy_persist (st : Strategy) (c : Cache) :
    (runStrategy st c).map Tile.persist = c.map Tile.persist := by
  cases st with
  | never => rfl
  | noOverlap =>
    show (updateTileStateReplace c).map Tile.persist = c.map Tile.persist
    unfold updateTileStateReplace
    have h0 : (c.map (fun t => { t with state := 0 })).map Tile.persist
        = c.map Tile.persist := by
      simp only [List.map_map]
      exact List.map_congr_left fun t _ => rfl
    have h1 := foldl_pres (fun x => x.map Tile.persist = c.map Tile.persist)
      (replaceAncStep (List.length (c.map fun t => { t with state := 0 }) + 1))
      (fun c' k hc' => by
        show (replaceAncStep _ c' k).map Tile.persist = c.map Tile.persist
        rw [replaceAncStep_persist]
        exact hc')
      ((c.map (fun t => { t with state := 0 })).map (·.index))
      (c.map (fun t => { t with state := 0 })) h0
    exact foldl_pres (fun x => x.map Tile.persist = c.map Tile.persist)
      (replaceStep (List.length (c.map fun t => { t with state := 0 }) + 1))
      (fun c' k hc' => by
        show (replaceStep _ c' k).map Tile.persist = c.map Tile.persist
        rw [replaceStep_persist]
        exact hc')
      _ _ h1
  | bestAvailable =>
    show (updateTileStateDefault c).map Tile.persist = c.map Tile.persist
    unfold updateTileStateDefault
    have h0 : (c.map (fun t => { t with state := 0 })).map Tile.persist
        = c.map Tile.persist := by
      simp only [List.map_map]
      exact List.map_congr_left fun t _ => rfl
    have h1 := foldl_pres (fun x => x.map Tile.persist = c.map Tile.persist)
      (defaultStep (List.length (c.map fun t => { t with state := 0 }) + 1))
      (fun c' k hc' => by
        show (defaultStep _ c' k).map Tile.persist = c.map Tile.persist
        rw [defaultStep_persist]
        exact hc')
      ((c.map (fun t => { t with state := 0 })).map (·.index))
      (c.map (fun t => { t with state := 0 })) h0
    rw [List.map_map]
    have : (Tile.persist ∘ fun t => { t with isVisible := decide (t.state &&& 2 ≠ 0) })
        = Tile.persist := by
      funext t
      rfl
    rw [this]
    exact h1

theorem updateTileStatesCore_cache (st : Strategy) (sel : List TileIndex) (c : Cache) :
    (updateTileStatesCore st sel c).1
      = runStrategy st
          (sel.foldl
            (fun c k =>
              updateTile c k (fun t => { t with isSelected := true, isVisible := true }))
            (c.map (fun t => { t with isSelected := false, isVisible := false }))) := rfl

theorem keysOf_selectPhase (sel : List TileIndex) (c : Cache) :
    keysOf
      (sel.foldl
        (fun c k =>
          updateTile c k (fun t => { t with isSelected := true, isVisible := true }))
        (c.map (fun t => { t with isSelected := false, isVisible := false })))
      = keysOf c := by
  rw [selectFold_eq]
  simp only [keysOf, List.map_map]
  refine List.map_congr_left fun t _ => ?_
  by_cases h : t.index ∈ sel <;> simp [Function.comp, h]

theorem updateTileStatesCore_keys (st : Strategy) (sel : List TileIndex) (c : Cache) :
    keysOf (updateTileStatesCore st sel c).1 = keysOf c := by
  rw [updateTileStatesCore_cache,
    keysOf_eq_of_persist_eq (runStrategy_persist st _), keysOf_selectPhase]

theorem pruneLoop_keys (m : Int) :
    ∀ (cands : List TileIndex) (count : Int) (c : Cache),
      keysOf (pruneLoop m cands count c).1 = keysOf c := by
  intro cands
  induction cands with
  | nil => intro count c; rfl
  | cons k rest ih =>
    intro count c
    unfold pruneLoop
    by_cases h : m > 0 ∧ count > m
    · rw [if_pos h]
      show keysOf (pruneLoop m rest (count - 1) (updateTile c k abortTile)).1 = keysOf c
      rw [ih, keysOf_updateTile abortTile_index]
    · rw [if_neg h]

theorem pruneRequests_keys (m : Int) (c : Cache) :
    keysOf (pruneRequests m c).1 = keysOf c :=
  pruneLoop_keys m (abortCandidates c) (ongoingCount c) c

theorem getTileCreate_not_dirty {c : Cache} {d : Bool} {i : TileIndex}
    (h : (getTileCreate c d i).2 = false) :
    keysOf (getTileCreate c d i).1 = keysOf c ∧ d = false := by
  unfold getTileCreate at h ⊢
  rcases hl : lookupTile c i with _ | t
  · rw [hl] at h
    exact absurd h (by simp)
  · simp only [hl] at h ⊢
    by_cases hnr : t.needsReload = true
    · rw [if_pos hnr] at h ⊢
      exact ⟨keysOf_updateTile (fun t => rfl), h⟩
    · rw [if_neg hnr] at h ⊢
      exact ⟨rfl, h⟩

theorem createTiles_not_dirty :
    ∀ (indices : List TileIndex) (c : Cache) (d : Bool),
      (createTiles c d indices).2 = false →
      keysOf (createTiles c d indices).1 = keysOf c ∧ d = false := by
  intro indices
  induction indices with
  | nil => exact fun c d h => ⟨rfl, h⟩
  | cons i rest ih =>
    intro c d h
    have hstep : createTiles c d (i :: rest)
        = createTiles (getTileCreate c d i).1 (getTileCreate c d i).2 rest := by
      unfold createTiles
      rw [List.foldl_cons]
    rw [hstep] at h ⊢
    obtain ⟨hk, hd⟩ := ih _ _ h
    obtain ⟨hk2, hd2⟩ := getTileCreate_not_dirty hd
    exact ⟨hk.trans hk2, hd2⟩

theorem getTileLookup_keys (c : Cache) (i : TileIndex) :
    keysOf (getTileLookup c i).1 = keysOf c := by
  unfold getTileLookup
  rcases hl : lookupTile c i with _ | t
  · rfl
  · simp only [hl]
    by_cases hnr : t.needsReload = true
    · rw [if_pos hnr]
      exact keysOf_updateTile (fun t => rfl)
    · rw [if_neg hnr]

theorem reloadFoldLookup_keys (sel : List TileIndex) :
    ∀ c : Cache, keysOf (sel.foldl (fun c k => (getTileLookup c k).1) c) = keysOf c := by
  induction sel with
  | nil => exact fun c => rfl
  | cons k rest ih =>
    intro c
    rw [List.foldl_cons, ih, getTileLookup_keys]

theorem updateSelect_not_dirty (gti : GetTileIndices) (s0 : Tileset2D)
    (viewport modelMatrix : Nat) (h0 : s0.dirty = false)
    (h : (updateSelect gti s0 viewport modelMatrix).dirty = false) :
    keysOf (updateSelect gti s0 viewport modelMatrix).cache = keysOf s0.cache := by
  unfold updateSelect at h ⊢
  by_cases hcond : s0.viewport = none ∨ some viewport ≠ s0.viewport
      ∨ modelMatrix ≠ s0.modelMatrix
  · rw [if_pos hcond] at h ⊢
    unfold updateSelectChanged at h ⊢
    by_cases hcr : (createTiles s0.cache s0.dirty
        (gti viewport s0.maxZoom s0.minZoom modelMatrix)).2 = true
    · rw [if_pos hcr] at h
      exact absurd h (by simp)
    · rw [if_neg hcr]
      exact (createTiles_not_dirty _ _ _ (by simpa using hcr)).1
  · rw [if_neg hcond] at h ⊢
    by_cases hnr : needsReloadB s0 = true
    · rw [if_pos hnr]
      exact reloadFoldLookup_keys _ _
    · rw [if_neg hnr]

theorem resizeCache_opts (s : Tileset2D) :
    (resizeCache s).1.opts = s.opts
    ∧ (resizeCache s).1.selectedTiles = s.selectedTiles
    ∧ (resizeCache s).1.frameNumber = s.frameNumber := by
  unfold resizeCache
  by_cases hov : resizeOverflown s = true
  · rw [if_pos hov]
    exact ⟨rfl, rfl, rfl⟩
  · rw [if_neg hov]
    by_cases hd : s.dirty = true
    · rw [if_pos hd]
      exact ⟨rfl, rfl, rfl⟩
    · rw [if_neg hd]
      exact ⟨rfl, rfl, rfl⟩

theorem cache_length_eq_of_keys {c c' : Cache} (h : keysOf c = keysOf c') :
    c.length = c'.length := by
  have h1 : c.length = (keysOf c).length := (List.length_map c (·.index)).symm
  have h2 : c'.length = (keysOf c').length := (List.length_map c' (·.index)).symm
  rw [h1, h2, h]

/-- C2 (amended): after an `update()` call (from a clean state, as every
update leaves behind), either both effective budgets are met, or every
resident tile is visible (the eviction scan removes only invisible tiles,
so enough visible tiles can exceed the budgets), or the call added no tile
to the cache (the resize pass only runs when the cache gained tiles, so
such a call removes nothing and leaves the cache membership unchanged). -/
theorem update_cache_budget (gti : GetTileIndices) (s0 : Tileset2D)
    (viewport modelMatrix : Nat) (h0 : s0.dirty = false) :
    (leLim (update gti s0 viewport modelMatrix).1.cache.length
        (effMaxOf (update gti s0 viewport modelMatrix).1) = true
      ∧ leLim (update gti s0 viewport modelMatrix).1.cacheByteSize
        (byteLimOf (update gti s0 viewport modelMatrix).1) = true)
    ∨ (∀ t ∈ (update gti s0 viewport modelMatrix).1.cache, t.isVisible = true)
    ∨ keysOf (update gti s0 viewport modelMatrix).1.cache = keysOf s0.cache := by
  have hupd : (update gti s0 viewport modelMatrix).1
      = (if (updateTileStates (updateSelect gti s0 viewport modelMatrix)).2 then
          { (if ({ (updateTileStates (updateSelect gti s0 viewport modelMatrix)).1 with
                cache := (pruneRequests
                  (updateTileStates (updateSelect gti s0 viewport modelMatrix)).1.opts.maxRequests
                  (updateTileStates (updateSelect gti s0 viewport modelMatrix)).1.cache).1 }).dirty
              then resizeCache
                { (updateTileStates (updateSelect gti s0 viewport modelMatrix)).1 with
                  cache := (pruneRequests
                    (updateTileStates (updateSelect gti s0 viewport modelMatrix)).1.opts.maxRequests
                    (updateTileStates (updateSelect gti s0 viewport modelMatrix)).1.cache).1 }
              else ({ (updateTileStates (updateSelect gti s0 viewport modelMatrix)).1 with
                cache := (pruneRequests
                  (updateTileStates (updateSelect gti s0 viewport modelMatrix)).1.opts.maxRequests
                  (updateTileStates (updateSelect gti s0 viewport modelMatrix)).1.cache).1 }, [])).1
            with frameNumber :=
              (if ({ (updateTileStates (updateSelect gti s0 viewport modelMatrix)).1 with
                cache := (pruneRequests
                  (updateTileStates (updateSelect gti s0 viewport modelMatrix)).1.opts.maxRequests
                  (updateTileStates (updateSelect gti s0 viewport modelMatrix)).1.cache).1 }).dirty
              then resizeCache
                { (updateTileStates (updateSelect gti s0 viewport modelMatrix)).1 with
                  cache := (pruneRequests
                    (updateTileStates (updateSelect gti s0 viewport modelMatrix)).1.opts.maxRequests
                    (updateTileStates (updateSelect gti s0 viewport modelMatrix)).1.cache).1 }
              else ({ (updateTileStates (updateSelect gti s0 viewport modelMatrix)).1 with
                cache := (pruneRequests
                  (updateTileStates (updateSelect gti s0 viewport modelMatrix)).1.opts.maxRequests
                  (updateTileStates (updateSelect gti s0 viewport modelMatrix)).1.cache).1 },
                [])).1.frameNumber + 1 }
        else (if ({ (updateTileStates (updateSelect gti s0 viewport modelMatrix)).1 with
                cache := (pruneRequests
                  (updateTileStates (updateSelect gti s0 viewport modelMatrix)).1.opts.maxRequests
                  (updateTileStates (updateSelect gti s0 viewport modelMatrix)).1.cache).1 }).dirty
              then resizeCache
                { (updateTileStates (updateSelect gti s0 viewport modelMatrix)).1 with
                  cache := (pruneRequests
                    (updateTileStates (updateSelect gti s0 viewport modelMatrix)).1.opts.maxRequests
                    (updateTileStates (updateSelect gti s0 viewport modelMatrix)).1.cache).1 }
              else ({ (updateTileStates (updateSelect gti s0 viewport modelMatrix)).1 with
                cache := (pruneRequests
                  (updateTileStates (updateSelect gti s0 viewport modelMatrix)).1.opts.maxRequests
                  (updateTileStates (updateSelect gti s0 viewport modelMatrix)).1.cache).1 },
                [])).1) := rfl
  set s1 := updateSelect gti s0 viewport modelMatrix with hs1
  set r2 := updateTileStates s1 with hr2
  set s3 := { r2.1 with
    cache := (pruneRequests r2.1.opts.maxRequests r2.1.cache).1 } with hs3
  set x4 := (if s3.dirty then resizeCache s3 else (s3, [])).1 with hx4
  have hfields : (update gti s0 viewport modelMatrix).1.cache = x4.cache
      ∧ (update gti s0 viewport modelMatrix).1.cacheByteSize = x4.cacheByteSize
      ∧ (update gti s0 viewport modelMatrix).1.opts = x4.opts
      ∧ (update gti s0 viewport modelMatrix).1.selectedTiles = x4.selectedTiles := by
    rw [hupd]
    by_cases hch : r2.2 = true
    · rw [if_pos hch]
      exact ⟨rfl, rfl, rfl, rfl⟩
    · rw [if_neg hch]
      exact ⟨rfl, rfl, rfl, rfl⟩
  have heff : effMaxOf (update gti s0 viewport modelMatrix).1 = effMaxOf x4 := by
    unfold effMaxOf
    rw [hfields.2.2.1, hfields.2.2.2]
  have hbl : byteLimOf (update gti s0 viewport modelMatrix).1 = byteLimOf x4 := by
    unfold byteLimOf
    rw [hfields.2.2.1]
  rw [hfields.1, hfields.2.1, heff, hbl]
  have hkeys3 : keysOf s3.cache = keysOf s1.cache := by
    show keysOf (pruneRequests r2.1.opts.maxRequests r2.1.cache).1 = keysOf s1.cache
    rw [pruneRequests_keys]
    show keysOf (updateTileStatesCore s1.opts.refinementStrategy
      (s1.selectedTiles.getD []) s1.cache).1 = keysOf s1.cache
    exact updateTileStatesCore_keys _ _ _
  by_cases hd3 : s3.dirty = true
  · rw [hx4, if_pos hd3]
    have hopts3 : (resizeCache s3).1.opts = s3.opts := (resizeCache_opts s3).1
    have hsel3 : (resizeCache s3).1.selectedTiles = s3.selectedTiles :=
      (resizeCache_opts s3).2.1
    have heff3 : effMaxOf (resizeCache s3).1 = effMaxOf s3 := by
      unfold effMaxOf
      rw [hopts3, hsel3]
    have hbl3 : byteLimOf (resizeCache s3).1 = byteLimOf s3 := by
      unfold byteLimOf
      rw [hopts3]
    rw [heff3, hbl3]
    by_cases hov : resizeOverflown s3 = true
    · have heq : resizeCache s3
          = ({ s3 with
                cache := rebuildTree (s3.minZoom.getD 0) (resizeEvict s3).1,
                cacheByteSize := (resizeEvict s3).2.1,
                tilesList := (sortByZoom (rebuildTree (s3.minZoom.getD 0)
                  (resizeEvict s3).1)).map (·.index),
                dirty := false }, (resizeEvict s3).2.2) := by
        simp only [resizeCache, hov, if_true]
      have hiv := rebuildTree_iv (s3.minZoom.getD 0) (resizeEvict s3).1
      rcases evictScan_post (effMaxOf s3) (byteLimOf s3)
          (byteTruthy s3.opts.maxCacheByteSize) s3.cache [] s3.cacheByteSize []
          (fun t ht => absurd ht (by simp)) with ⟨hlen, hbytes⟩ | hall
      · left
        rw [heq]
        constructor
        · have hlq : (rebuildTree (s3.minZoom.getD 0) (resizeEvict s3).1).length
              = (resizeEvict s3).1.length :=
            cache_length_eq_of_keys (keysOf_eq_of_ivFields_eq hiv)
        
          show leLim (rebuildTree (s3.minZoom.getD 0) (resizeEvict s3).1).length
            (effMaxOf s3) = true
          rw [hlq]
          exact hlen
        · exact hbytes
      · right
        left
        rw [heq]
        intro t ht
        obtain ⟨u, hu, hiveq⟩ := proj_mem_transfer Tile.ivFields hiv.symm t ht
        have := hall u hu
        have hv : u.isVisible = t.isVisible := congrArg (·.2) hiveq
        rw [← hv]
        exact this
    · have heq : resizeCache s3
          = if s3.dirty = true then
              ({ s3 with tilesList := (sortByZoom s3.cache).map (·.index), dirty := false },
                [])
            else (s3, []) := by
        simp [resizeCache, hov]
      rw [heq, if_pos hd3]
      left
      have hov' : (!leLim s3.cache.length (effMaxOf s3)
          || !leLim s3.cacheByteSize (byteLimOf s3)) = false := by
        simpa [resizeOverflown] using hov
      rw [Bool.or_eq_false_iff] at hov'
      constructor
      · have := hov'.1
        cases h : leLim s3.cache.length (effMaxOf s3)
        · rw [h] at this
          exact absurd this (by simp)
        · rfl
      · have := hov'.2
        cases h : leLim s3.cacheByteSize (byteLimOf s3)
        · rw [h] at this
          exact absurd this (by simp)
        · rfl
  · right
    right
    rw [hx4, if_neg hd3]
    show keysOf s3.cache = keysOf s0.cache
    rw [hkeys3]
    have hd1 : s1.dirty = false := by
      have : s3.dirty = r2.1.dirty := rfl
      have h2 : r2.1.dirty = s1.dirty := rfl
      rw [this, h2] at hd3
      simpa using hd3
    exact updateSelect_not_dirty gti s0 viewport modelMatrix h0 hd1

/-- Options with an item budget of one tile and the `never` strategy. -/
def optsNever1 : TilesetOpts :=
  { maxCacheSize := some 1, maxCacheByteSize := none, refinementStrategy := .never
    maxZoom := .nan, minZoom := .nan, maxRequests := 0 }

/-- An index generator that always requests the two sibling tiles `iA`, `iB`. -/
def gtiPair : GetTileIndices := fun _ _ _ _ => [iA, iB]

/-- C2 counterexample: with `maxCacheSize = 1` and two selected tiles under
the `never` strategy, an `update()` call completes with two resident tiles —
the cache size strictly exceeds the effective item limit, because the
eviction scan refuses to remove visible tiles. -/
theorem update_budget_counterexample :
    leLim (update gtiPair (initialTileset optsNever1) 1 0).1.cache.length
      (effMaxOf (update gtiPair (initialTileset optsNever1) 1 0).1) = false := by
  decide

theorem update_cache_budget_witness :
    (initialTileset optsNever1).dirty = false
    ∧ ((leLim (update gtiPair (initialTileset optsNever1) 1 0).1.cache.length
          (effMaxOf (update gtiPair (initialTileset optsNever1) 1 0).1) = true
        ∧ leLim (update gtiPair (initialTileset optsNever1) 1 0).1.cacheByteSize
          (byteLimOf (update gtiPair (initialTileset optsNever1) 1 0).1) = true)
      ∨ (∀ t ∈ (update gtiPair (initialTileset optsNever1) 1 0).1.cache, t.isVisible = true)
      ∨ keysOf (update gtiPair (initialTileset optsNever1) 1 0).1.cache
          = keysOf (initialTileset optsNever1).cache) :=
  ⟨rfl, update_cache_budget gtiPair (initialTileset optsNever1) 1 0 rfl⟩

/-- The intermediate state of `update()` after the tile-state refresh and
the request pruning (the state the resize step is applied to). -/
def midState (gti : GetTileIndices) (s0 : Tileset2D) (viewport modelMatrix : Nat) :
    Tileset2D :=
  { (updateTileStates (updateSelect gti s0 viewport modelMatrix)).1 with
    cache := (pruneRequests
      (updateTileStates (updateSelect gti s0 viewport modelMatrix)).1.opts.maxRequests
      (updateTileStates (updateSelect gti s0 viewport modelMatrix)).1.cache).1 }

theorem update_eq_branches (gti : GetTileIndices) (s0 : Tileset2D) (V M : Nat) :
    (update gti s0 V M).1
      = if (updateTileStates (updateSelect gti s0 V M)).2 then
          { (if (midState gti s0 V M).dirty then resizeCache (midState gti s0 V M)
              else (midState gti s0 V M, [])).1 with
            frameNumber :=
              (if (midState gti s0 V M).dirty then resizeCache (midState gti s0 V M)
                else (midState gti s0 V M, [])).1.frameNumber + 1 }
        else (if (midState gti s0 V M).dirty then resizeCache (midState gti s0 V M)
            else (midState gti s0 V M, [])).1 := rfl

theorem update_ret_frame (gti : GetTileIndices) (s0 : Tileset2D) (V M : Nat) :
    (update gti s0 V M).2.1 = (update gti s0 V M).1.frameNumber := rfl

theorem pruneLoop_no_abort (m : Int) (ks : List TileIndex) (count : Int) (c : Cache)
    (h : (pruneLoop m ks count c).2 = []) : (pruneLoop m ks count c).1 = c := by
  cases ks with
  | nil => rfl
  | cons k rest =>
    unfold pruneLoop at h ⊢
    by_cases hc : m > 0 ∧ count > m
    · rw [if_pos hc] at h
      exact absurd h (by simp)
    · rw [if_neg hc]

theorem pruneRequests_no_abort (m : Int) (c : Cache)
    (h : (pruneRequests m c).2 = []) : (pruneRequests m c).1 = c :=
  pruneLoop_no_abort m (abortCandidates c) (ongoingCount c) c h

theorem resizeCache_view (s : Tileset2D) :
    (resizeCache s).1.viewport = s.viewport
    ∧ (resizeCache s).1.modelMatrix = s.modelMatrix := by
  unfold resizeCache
  by_cases hov : resizeOverflown s = true
  · rw [if_pos hov]
    exact ⟨rfl, rfl⟩
  · rw [if_neg hov]
    by_cases hd : s.dirty = true
    · rw [if_pos hd]
      exact ⟨rfl, rfl⟩
    · rw [if_neg hd]
      exact ⟨rfl, rfl⟩

theorem resizeCache_not_overflown {s : Tileset2D} (hov : resizeOverflown s = false) :
    (resizeCache s).1.cache = s.cache ∧ (resizeCache s).2 = [] := by
  unfold resizeCache
  rw [if_neg (by simp [hov])]
  by_cases hd : s.dirty = true
  · rw [if_pos hd]
    exact ⟨rfl, rfl⟩
  · rw [if_neg hd]
    exact ⟨rfl, rfl⟩

theorem resizeCache_dirty (s : Tileset2D) (hd : s.dirty = true) :
    (resizeCache s).1.dirty = false := by
  unfold resizeCache
  by_cases hov : resizeOverflown s = true
  · rw [if_pos hov]
  · rw [if_neg hov, if_pos hd]

theorem update_fields (gti : GetTileIndices) (s0 : Tileset2D) (V M : Nat) :
    (update gti s0 V M).1.cache
        = (if (midState gti s0 V M).dirty then resizeCache (midState gti s0 V M)
            else (midState gti s0 V M, [])).1.cache
    ∧ (update gti s0 V M).1.opts
        = (if (midState gti s0 V M).dirty then resizeCache (midState gti s0 V M)
            else (midState gti s0 V M, [])).1.opts
    ∧ (update gti s0 V M).1.selectedTiles
        = (if (midState gti s0 V M).dirty then resizeCache (midState gti s0 V M)
            else (midState gti s0 V M, [])).1.selectedTiles
    ∧ (update gti s0 V M).1.viewport
        = (if (midState gti s0 V M).dirty then resizeCache (midState gti s0 V M)
            else (midState gti s0 V M, [])).1.viewport
    ∧ (update gti s0 V M).1.modelMatrix
        = (if (midState gti s0 V M).dirty then resizeCache (midState gti s0 V M)
            else (midState gti s0 V M, [])).1.modelMatrix := by
  rw [update_eq_branches]
  by_cases hch : (updateTileStates (updateSelect gti s0 V M)).2 = true
  · rw [if_pos hch]
    exact ⟨rfl, rfl, rfl, rfl, rfl⟩
  · rw [if_neg hch]
    exact ⟨rfl, rfl, rfl, rfl, rfl⟩

theorem update_dirty_false (gti : GetTileIndices) (s0 : Tileset2D) (V M : Nat) :
    (update gti s0 V M).1.dirty = false := by
  rw [update_eq_branches]
  have hbase : (if (midState gti s0 V M).dirty then resizeCache (midState gti s0 V M)
      else (midState gti s0 V M, [])).1.dirty = false := by
    by_cases hd : (midState gti s0 V M).dirty = true
    · rw [if_pos hd]
      exact resizeCache_dirty _ hd
    · rw [if_neg hd]
      simpa using hd
  by_cases hch : (updateTileStates (updateSelect gti s0 V M)).2 = true
  · rw [if_pos hch]
    exact hbase
  · rw [if_neg hch]
    exact hbase

theorem update_viewmat (gti : GetTileIndices) (s0 : Tileset2D) (V M : Nat) :
    (update gti s0 V M).1.viewport = some V
    ∧ (update gti s0 V M).1.modelMatrix = M := by
  have hsel : (updateSelect gti s0 V M).viewport = some V
      ∧ (updateSelect gti s0 V M).modelMatrix = M := by
    unfold updateSelect
    by_cases hc : s0.viewport = none ∨ some V ≠ s0.viewport ∨ M ≠ s0.modelMatrix
    · rw [if_pos hc]
      unfold updateSelectChanged
      by_cases hcr : (createTiles s0.cache s0.dirty (gti V s0.maxZoom s0.minZoom M)).2 = true
      · rw [if_pos hcr]
        exact ⟨rfl, rfl⟩
      · rw [if_neg hcr]
        exact ⟨rfl, rfl⟩
    · rw [if_neg hc]
      push_neg at hc
      obtain ⟨h1, h2, h3⟩ := hc
      by_cases hrl : needsReloadB s0 = true
      · rw [if_pos hrl]
        exact ⟨h2.symm, h3.symm⟩
      · rw [if_neg hrl]
        exact ⟨h2.symm, h3.symm⟩
  have hf := update_fields gti s0 V M
  constructor
  · rw [hf.2.2.2.1]
    by_cases hd : (midState gti s0 V M).dirty = true
    · rw [if_pos hd, (resizeCache_view (midState gti s0 V M)).1]
      exact hsel.1
    · rw [if_neg hd]
      exact hsel.1
  · rw [hf.2.2.2.2]
    by_cases hd : (midState gti s0 V M).dirty = true
    · rw [if_pos hd, (resizeCache_view (midState gti s0 V M)).2]
      exact hsel.2
    · rw [if_neg hd]
      exact hsel.2

/-- The fields of a tile that the tile-state phase never writes: everything
except `state`, `isSelected` and `isVisible`. -/
def Tile.coreObs (t : Tile) :
    TileIndex × Int × LoadState × Bool × Bool × Nat × Option TileIndex
      × List TileIndex :=
  (t.index, t.zoom, t.loadState, t.needsReload, t.hasContent, t.byteLength,
    t.parent, t.children)

/-- Forget the `isSelected` component of a `Tile.persist` tuple. -/
def dropSelected
    (p : TileIndex × Int × LoadState × Bool × Bool × Nat × Bool × Option TileIndex
      × List TileIndex) :
    TileIndex × Int × LoadState × Bool × Bool × Nat × Option TileIndex
      × List TileIndex :=
  (p.1, p.2.1, p.2.2.1, p.2.2.2.1, p.2.2.2.2.1, p.2.2.2.2.2.1, p.2.2.2.2.2.2.2)

theorem map_coreObs_eq (x : Cache) :
    x.map Tile.coreObs = (x.map Tile.persist).map dropSelected := by
  rw [List.map_map]
  exact List.map_congr_left fun t _ => rfl

theorem runStrategy_coreObs (st : Strategy) (c : Cache) :
    (runStrategy st c).map Tile.coreObs = c.map Tile.coreObs := by
  rw [map_coreObs_eq, map_coreObs_eq, runStrategy_persist]

/-- Rebuild the tile the selection phase produces (with its `state` zeroed)
from the phase-invariant fields and the selection. -/
def coreRebuild (sel : List TileIndex)
    (p : TileIndex × Int × LoadState × Bool × Bool × Nat × Option TileIndex
      × List TileIndex) : Tile :=
  { index := p.1, zoom := p.2.1, loadState := p.2.2.1, needsReload := p.2.2.2.1
    hasContent := p.2.2.2.2.1, byteLength := p.2.2.2.2.2.1
    isSelected := decide (p.1 ∈ sel), isVisible := decide (p.1 ∈ sel), state := 0
    parent := p.2.2.2.2.2.2.1, children := p.2.2.2.2.2.2.2 }

theorem selectPhase_stz_eq (sel : List TileIndex) (c : Cache) :
    (sel.foldl
        (fun c k =>
          updateTile c k (fun t => { t with isSelected := true, isVisible := true }))
        (c.map (fun t => { t with isSelected := false, isVisible := false }))).map
      (fun t => { t with state := 0 })
    = (c.map Tile.coreObs).map (coreRebuild sel) := by
  simp only [selectFold_eq, List.map_map]
  refine List.map_congr_left fun t _ => ?_
  simp only [Function.comp]
  by_cases h : t.index ∈ sel
  · simp [h, coreRebuild, Tile.coreObs]
  · simp [h, coreRebuild, Tile.coreObs]

theorem selectPhase_coreObs (sel : List TileIndex) (c : Cache) :
    (sel.foldl
        (fun c k =>
          updateTile c k (fun t => { t with isSelected := true, isVisible := true }))
        (c.map (fun t => { t with isSelected := false, isVisible := false }))).map
      Tile.coreObs
    = c.map Tile.coreObs := by
  simp only [selectFold_eq, List.map_map]
  refine List.map_congr_left fun t _ => ?_
  simp only [Function.comp]
  by_cases h : t.index ∈ sel
  · simp [h, Tile.coreObs]
  · simp [h, Tile.coreObs]

theorem core_coreObs (st : Strategy) (sel : List TileIndex) (c : Cache) :
    (updateTileStatesCore st sel c).1.map Tile.coreObs = c.map Tile.coreObs := by
  rw [updateTileStatesCore_cache, runStrategy_coreObs, selectPhase_coreObs]

theorem strategy_vis_congr (st : Strategy) {x y : Cache}
    (h : x.map (fun t => { t with state := 0 }) = y.map (fun t => { t with state := 0 })) :
    (runStrategy st x).map (·.isVisible) = (runStrategy st y).map (·.isVisible) := by
  cases st with
  | never =>
    show x.map (·.isVisible) = y.map (·.isVisible)
    have hx : x.map (·.isVisible)
        = (x.map (fun t => { t with state := 0 })).map (·.isVisible) := by
      rw [List.map_map]
      exact List.map_congr_left fun t _ => rfl
    have hy : y.map (·.isVisible)
        = (y.map (fun t => { t with state := 0 })).map (·.isVisible) := by
      rw [List.map_map]
      exact List.map_congr_left fun t _ => rfl
    rw [hx, hy, h]
  | bestAvailable =>
    show (updateTileStateDefault x).map (·.isVisible)
        = (updateTileStateDefault y).map (·.isVisible)
    have hx : updateTileStateDefault x
        = (((x.map (fun t => { t with state := 0 })).map (·.index)).foldl
            (defaultStep ((x.map (fun t => { t with state := 0 })).length + 1))
            (x.map (fun t => { t with state := 0 }))).map
            (fun t => { t with isVisible := decide (t.state &&& 2 ≠ 0) }) := rfl
    have hy : updateTileStateDefault y
        = (((y.map (fun t => { t with state := 0 })).map (·.index)).foldl
            (defaultStep ((y.map (fun t => { t with state := 0 })).length + 1))
            (y.map (fun t => { t with state := 0 }))).map
            (fun t => { t with isVisible := decide (t.state &&& 2 ≠ 0) }) := rfl
    rw [hx, hy, h]
  | noOverlap =>
    show (updateTileStateReplace x).map (·.isVisible)
        = (updateTileStateReplace y).map (·.isVisible)
    have hx : updateTileStateReplace x
        = ((sortByZoom (((x.map (fun t => { t with state := 0 })).map (·.index)).foldl
              (replaceAncStep ((x.map (fun t => { t with state := 0 })).length + 1))
              (x.map (fun t => { t with state := 0 })))).map (·.index)).foldl
            (replaceStep ((x.map (fun t => { t with state := 0 })).length + 1))
            (((x.map (fun t => { t with state := 0 })).map (·.index)).foldl
              (replaceAncStep ((x.map (fun t => { t with state := 0 })).length + 1))
              (x.map (fun t => { t with state := 0 }))) := rfl
    have hy : updateTileStateReplace y
        = ((sortByZoom (((y.map (fun t => { t with state := 0 })).map (·.index)).foldl
              (replaceAncStep ((y.map (fun t => { t with state := 0 })).length + 1))
              (y.map (fun t => { t with state := 0 })))).map (·.index)).foldl
            (replaceStep ((y.map (fun t => { t with state := 0 })).length + 1))
            (((y.map (fun t => { t with state := 0 })).map (·.index)).foldl
              (replaceAncStep ((y.map (fun t => { t with state := 0 })).length + 1))
              (y.map (fun t => { t with state := 0 }))) := rfl
    rw [hx, hy, h]

theorem core_idem (st : Strategy) (sel : List TileIndex) (c : Cache) :
    (updateTileStatesCore st sel (updateTileStatesCore st sel c).1).2 = false := by
  have hvis : (updateTileStatesCore st sel (updateTileStatesCore st sel c).1).1.map
        (·.isVisible)
      = (updateTileStatesCore st sel c).1.map (·.isVisible) := by
    rw [updateTileStatesCore_cache st sel (updateTileStatesCore st sel c).1]
    have hobs := core_coreObs st sel c
    have hstz : (sel.foldl
          (fun c k =>
            updateTile c k (fun t => { t with isSelected := true, isVisible := true }))
          ((updateTileStatesCore st sel c).1.map
            (fun t => { t with isSelected := false, isVisible := false }))).map
        (fun t => { t with state := 0 })
        = (sel.foldl
            (fun c k =>
              updateTile c k (fun t => { t with isSelected := true, isVisible := true }))
            (c.map (fun t => { t with isSelected := false, isVisible := false }))).map
          (fun t => { t with state := 0 }) := by
      rw [selectPhase_stz_eq, selectPhase_stz_eq, hobs]
    rw [strategy_vis_congr st hstz, ← updateTileStatesCore_cache st sel c]
  have hd : (updateTileStatesCore st sel (updateTileStatesCore st sel c).1).2
      = !((updateTileStatesCore st sel c).1.map (·.isVisible)
          == (updateTileStatesCore st sel
            (updateTileStatesCore st sel c).1).1.map (·.isVisible)) := rfl
  rw [hd, hvis]
  simp

/-- Collapse a tile's load state to the only bit the tile-state phase reads
(`isLoaded`): `loading` and `errored` behave there exactly like `unloaded`.
Aborting a request (`loading` to `unloaded`) is invisible through this lens. -/
def nrm (t : Tile) : Tile :=
  { t with loadState := if t.isLoaded then LoadState.loaded else LoadState.unloaded }

theorem nrm_isLoaded (t : Tile) : (nrm t).isLoaded = t.isLoaded := by
  show ((if t.isLoaded = true then LoadState.loaded else LoadState.unloaded)
      == LoadState.loaded) = t.isLoaded
  by_cases h : t.isLoaded = true
  · rw [if_pos h, h]
    rfl
  · rw [if_neg h]
    have hf : t.isLoaded = false := by simpa using h
    rw [hf]
    rfl

theorem nrm_hasContent (t : Tile) : (nrm t).hasContent = t.hasContent := rfl

theorem nrm_parent (t : Tile) : (nrm t).parent = t.parent := rfl

theorem nrm_index (t : Tile) : (nrm t).index = t.index := rfl

theorem lookupTile_map_nrm (c : Cache) (k : TileIndex) :
    lookupTile (c.map nrm) k = (lookupTile c k).map nrm := by
  unfold lookupTile
  rw [List.find?_map]
  have hp : ((fun t : Tile => t.index == k) ∘ nrm) = (fun t : Tile => t.index == k) :=
    funext fun t => rfl
  rw [hp]

theorem updateTile_map_nrm (f : Tile → Tile) (hf : ∀ t, nrm (f t) = f (nrm t))
    (c : Cache) (k : TileIndex) :
    updateTile (c.map nrm) k f = (updateTile c k f).map nrm := by
  unfold updateTile
  rw [List.map_map, List.map_map]
  refine List.map_congr_left fun t _ => ?_
  show (if (nrm t).index == k then f (nrm t) else nrm t)
      = nrm (if t.index == k then f t else t)
  rw [nrm_index]
  by_cases h : t.index = k
  · simp [h, hf t]
  · simp [h]

theorem markVisible_map_nrm (c : Cache) (k : TileIndex) :
    markVisible (c.map nrm) k = (markVisible c k).map nrm :=
  updateTile_map_nrm (fun t => { t with state := t.state ||| 2 }) (fun t => rfl) c k

theorem gpa_map_nrm (fuel : Nat) :
    ∀ (c : Cache) (k : TileIndex),
      getPlaceholderInAncestors fuel (c.map nrm) k
        = ((getPlaceholderInAncestors fuel c k).1.map nrm,
            (getPlaceholderInAncestors fuel c k).2) := by
  induction fuel with
  | zero =>
    intro c k
    rfl
  | succ f ih =>
    intro c k
    rcases hlk : lookupTile c k with _ | t
    · have hlk2 : lookupTile (c.map nrm) k = none := by
        rw [lookupTile_map_nrm, hlk]
        rfl
      have e1 : getPlaceholderInAncestors (f + 1) c k = (c, false) := by
        simp [getPlaceholderInAncestors, hlk]
      have e2 : getPlaceholderInAncestors (f + 1) (c.map nrm) k = (c.map nrm, false) := by
        simp [getPlaceholderInAncestors, hlk2]
      rw [e1, e2]
    · have hlk2 : lookupTile (c.map nrm) k = some (nrm t) := by
        rw [lookupTile_map_nrm, hlk]
        rfl
      by_cases hld : (t.isLoaded || t.hasContent) = true
      · have hld2 : ((nrm t).isLoaded || (nrm t).hasContent) = true := by
          rw [nrm_isLoaded, nrm_hasContent]
          exact hld
        have e1 : getPlaceholderInAncestors (f + 1) c k = (markVisible c k, true) := by
          simp [getPlaceholderInAncestors, hlk, hld]
        have e2 : getPlaceholderInAncestors (f + 1) (c.map nrm) k
            = (markVisible (c.map nrm) k, true) := by
          simp [getPlaceholderInAncestors, hlk2, hld2]
        rw [e1, e2, markVisible_map_nrm]
      · have hld2 : ¬ ((nrm t).isLoaded || (nrm t).hasContent) = true := by
          rw [nrm_isLoaded, nrm_hasContent]
          exact hld
        rcases hp : t.parent with _ | p
        · have hp2 : (nrm t).parent = none := by
            rw [nrm_parent]
            exact hp
          have e1 : getPlaceholderInAncestors (f + 1) c k = (c, false) := by
            simp [getPlaceholderInAncestors, hlk, hld, hp]
          have e2 : getPlaceholderInAncestors (f + 1) (c.map nrm) k
              = (c.map nrm, false) := by
            simp [getPlaceholderInAncestors, hlk2, hld2, hp2]
          rw [e1, e2]
        · have hp2 : (nrm t).parent = some p := by
            rw [nrm_parent]
            exact hp
          have e1 : getPlaceholderInAncestors (f + 1) c k
              = getPlaceholderInAncestors f c p := by
            simp [getPlaceholderInAncestors, hlk, hld, hp]
          have e2 : getPlaceholderInAncestors (f + 1) (c.map nrm) k
              = getPlaceholderInAncestors f (c.map nrm) p := by
            simp [getPlaceholderInAncestors, hlk2, hld2, hp2]
          rw [e1, e2, ih]

theorem gpic_map_nrm (fuel : Nat) :
    ∀ (c : Cache) (k : TileIndex),
      getPlaceholderInChildren fuel (c.map nrm) k
        = (getPlaceholderInChildren fuel c k).map nrm := by
  induction fuel with
  | zero =>
    intro c k
    rw [gpic_zero, gpic_zero]
  | succ f ih =>
    intro c k
    rw [gpic_succ, gpic_succ]
    rcases hlk : lookupTile c k with _ | t
    · have hlk2 : lookupTile (c.map nrm) k = none := by
        rw [lookupTile_map_nrm, hlk]
        rfl
      simp only [hlk, hlk2]
    · have hlk2 : lookupTile (c.map nrm) k = some (nrm t) := by
        rw [lookupTile_map_nrm, hlk]
        rfl
      simp only [hlk, hlk2]
      show t.children.foldl (gpicStep f) (c.map nrm)
          = (t.children.foldl (gpicStep f) c).map nrm
      have hfold : ∀ (l : List TileIndex) (acc : Cache),
          l.foldl (gpicStep f) (acc.map nrm) = (l.foldl (gpicStep f) acc).map nrm := by
        intro l
        induction l with
        | nil =>
          intro acc
          rfl
        | cons ck rest ihl =>
          intro acc
          rw [List.foldl_cons, List.foldl_cons]
          have hstep : gpicStep f (acc.map nrm) ck = (gpicStep f acc ck).map nrm := by
            unfold gpicStep
            rcases hl2 : lookupTile acc ck with _ | ch
            · have hl3 : lookupTile (acc.map nrm) ck = none := by
                rw [lookupTile_map_nrm, hl2]
                rfl
              simp only [hl2, hl3]
            · have hl3 : lookupTile (acc.map nrm) ck = some (nrm ch) := by
                rw [lookupTile_map_nrm, hl2]
                rfl
              simp only [hl2, hl3]
              by_cases hld : (ch.isLoaded || ch.hasContent) = true
              · have hld2 : ((nrm ch).isLoaded || (nrm ch).hasContent) = true := by
                  rw [nrm_isLoaded, nrm_hasContent]
                  exact hld
                rw [if_pos hld2, if_pos hld, markVisible_map_nrm]
              · have hld2 : ¬ ((nrm ch).isLoaded || (nrm ch).hasContent) = true := by
                  rw [nrm_isLoaded, nrm_hasContent]
                  exact hld
                rw [if_neg hld2, if_neg hld, ih]
          rw [hstep, ihl (gpicStep f acc ck)]
      exact hfold t.children c

theorem defaultStep_map_nrm (fuel : Nat) (c : Cache) (k : TileIndex) :
    defaultStep fuel (c.map nrm) k = (defaultStep fuel c k).map nrm := by
  unfold defaultStep
  rcases hlk : lookupTile c k with _ | t
  · have hlk2 : lookupTile (c.map nrm) k = none := by
      rw [lookupTile_map_nrm, hlk]
      rfl
    simp only [hlk, hlk2]
  · have hlk2 : lookupTile (c.map nrm) k = some (nrm t) := by
      rw [lookupTile_map_nrm, hlk]
      rfl
    simp only [hlk, hlk2]
    by_cases hs : t.isSelected = true
    · have hs2 : (nrm t).isSelected = true := hs
      rw [if_pos hs2, if_pos hs, gpa_map_nrm fuel c k]
      show (if (getPlaceholderInAncestors fuel c k).2 = true
            then (getPlaceholderInAncestors fuel c k).1.map nrm
            else getPlaceholderInChildren fuel
              ((getPlaceholderInAncestors fuel c k).1.map nrm) k)
          = (if (getPlaceholderInAncestors fuel c k).2 = true
              then (getPlaceholderInAncestors fuel c k).1
              else getPlaceholderInChildren fuel
                (getPlaceholderInAncestors fuel c k).1 k).map nrm
      by_cases hb : (getPlaceholderInAncestors fuel c k).2 = true
      · rw [if_pos hb, if_pos hb]
      · rw [if_neg hb, if_neg hb, gpic_map_nrm]
    · have hs2 : ¬ (nrm t).isSelected = true := hs
      rw [if_neg hs2, if_neg hs]

theorem replaceAncStep_map_nrm (fuel : Nat) (c : Cache) (k : TileIndex) :
    replaceAncStep fuel (c.map nrm) k = (replaceAncStep fuel c k).map nrm := by
  unfold replaceAncStep
  rcases hlk : lookupTile c k with _ | t
  · have hlk2 : lookupTile (c.map nrm) k = none := by
      rw [lookupTile_map_nrm, hlk]
      rfl
    simp only [hlk, hlk2]
  · have hlk2 : lookupTile (c.map nrm) k = some (nrm t) := by
      rw [lookupTile_map_nrm, hlk]
      rfl
    simp only [hlk, hlk2]
    by_cases hs : t.isSelected = true
    · have hs2 : (nrm t).isSelected = true := hs
      rw [if_pos hs2, if_pos hs, gpa_map_nrm fuel c k]
    · have hs2 : ¬ (nrm t).isSelected = true := hs
      rw [if_neg hs2, if_neg hs]

theorem replaceStep_map_nrm (fuel : Nat) (c : Cache) (k : TileIndex) :
    replaceStep fuel (c.map nrm) k = (replaceStep fuel c k).map nrm := by
  unfold replaceStep
  rcases hlk : lookupTile c k with _ | t
  · have hlk2 : lookupTile (c.map nrm) k = none := by
      rw [lookupTile_map_nrm, hlk]
      rfl
    simp only [hlk, hlk2]
  · have hlk2 : lookupTile (c.map nrm) k = some (nrm t) := by
      rw [lookupTile_map_nrm, hlk]
      rfl
    simp only [hlk, hlk2]
    by_cases hc1 : (decide (t.state &&& 2 ≠ 0) || decide (t.state &&& 1 ≠ 0)) = true
    · have hc2 : (decide ((nrm t).state &&& 2 ≠ 0)
          || decide ((nrm t).state &&& 1 ≠ 0)) = true := hc1
      rw [if_pos hc2, if_pos hc1]
      show t.children.foldl
            (fun c ck => updateTile c ck (fun u => { u with state := 1 }))
            (updateTile (c.map nrm) k
              (fun u => { u with isVisible := decide (t.state &&& 2 ≠ 0) }))
          = (t.children.foldl
              (fun c ck => updateTile c ck (fun u => { u with state := 1 }))
              (updateTile c k
                (fun u => { u with isVisible := decide (t.state &&& 2 ≠ 0) }))).map nrm
      rw [updateTile_map_nrm
        (fun u => { u with isVisible := decide (t.state &&& 2 ≠ 0) }) (fun u => rfl) c k]
      have hfold : ∀ (l : List TileIndex) (acc : Cache),
          l.foldl (fun c ck => updateTile c ck (fun u => { u with state := 1 }))
            (acc.map nrm)
          = (l.foldl (fun c ck => updateTile c ck (fun u => { u with state := 1 }))
              acc).map nrm := by
        intro l
        induction l with
        | nil =>
          intro acc
          rfl
        | cons ck rest ihl =>
          intro acc
          rw [List.foldl_cons, List.foldl_cons,
            updateTile_map_nrm (fun u => { u with state := 1 }) (fun u => rfl) acc ck,
            ihl (updateTile acc ck (fun u => { u with state := 1 }))]
      exact hfold t.children _
    · have hc2 : ¬ (decide ((nrm t).state &&& 2 ≠ 0)
          || decide ((nrm t).state &&& 1 ≠ 0)) = true := hc1
      rw [if_neg hc2, if_neg hc1]
      by_cases hs : t.isSelected = true
      · have hs2 : (nrm t).isSelected = true := hs
        rw [if_pos hs2, if_pos hs]
        show getPlaceholderInChildren fuel
              (updateTile (c.map nrm) k
                (fun u => { u with isVisible := decide (t.state &&& 2 ≠ 0) })) k
            = (getPlaceholderInChildren fuel
                (updateTile c k
                  (fun u => { u with isVisible := decide (t.state &&& 2 ≠ 0) })) k).map nrm
        rw [updateTile_map_nrm
          (fun u => { u with isVisible := decide (t.state &&& 2 ≠ 0) }) (fun u => rfl) c k,
          gpic_map_nrm]
      · have hs2 : ¬ (nrm t).isSelected = true := hs
        rw [if_neg hs2, if_neg hs]
        show updateTile (c.map nrm) k
              (fun u => { u with isVisible := decide (t.state &&& 2 ≠ 0) })
            = (updateTile c k
                (fun u => { u with isVisible := decide (t.state &&& 2 ≠ 0) })).map nrm
        exact updateTile_map_nrm
          (fun u => { u with isVisible := decide (t.state &&& 2 ≠ 0) }) (fun u => rfl) c k

theorem insertByZoom_map_nrm (t : Tile) :
    ∀ c : Cache, insertByZoom (nrm t) (c.map nrm) = (insertByZoom t c).map nrm := by
  intro c
  induction c with
  | nil => rfl
  | cons u rest ih =>
    show (if (nrm u).zoom < (nrm t).zoom
          then nrm u :: insertByZoom (nrm t) (rest.map nrm)
          else nrm t :: nrm u :: rest.map nrm)
        = (if u.zoom < t.zoom then u :: insertByZoom t rest else t :: u :: rest).map nrm
    by_cases h : u.zoom < t.zoom
    · have h2 : (nrm u).zoom < (nrm t).zoom := h
      rw [if_pos h2, if_pos h, List.map_cons, ih]
    · have h2 : ¬ (nrm u).zoom < (nrm t).zoom := h
      rw [if_neg h2, if_neg h, List.map_cons, List.map_cons]

theorem sortByZoom_map_nrm :
    ∀ c : Cache, sortByZoom (c.map nrm) = (sortByZoom c).map nrm := by
  intro c
  induction c with
  | nil => rfl
  | cons t rest ih =>
    show insertByZoom (nrm t) (sortByZoom (rest.map nrm))
        = (insertByZoom t (sortByZoom rest)).map nrm
    rw [ih, insertByZoom_map_nrm]

theorem map_comm_nrm (g : Tile → Tile) (hg : ∀ t, nrm (g t) = g (nrm t)) (c : Cache) :
    (c.map nrm).map g = (c.map g).map nrm := by
  rw [List.map_map, List.map_map]
  exact List.map_congr_left fun t _ => (hg t).symm

theorem mapIndex_map_nrm (c : Cache) : (c.map nrm).map (·.index) = c.map (·.index) := by
  rw [List.map_map]
  exact List.map_congr_left fun t _ => rfl

theorem vis_map_nrm (c : Cache) :
    (c.map nrm).map (·.isVisible) = c.map (·.isVisible) := by
  rw [List.map_map]
  exact List.map_congr_left fun t _ => rfl

theorem foldl_map_nrm (step : Cache → TileIndex → Cache)
    (hstep : ∀ c k, step (c.map nrm) k = (step c k).map nrm) :
    ∀ (l : List TileIndex) (acc : Cache),
      l.foldl step (acc.map nrm) = (l.foldl step acc).map nrm := by
  intro l
  induction l with
  | nil =>
    intro acc
    rfl
  | cons k rest ih =>
    intro acc
    rw [List.foldl_cons, List.foldl_cons, hstep acc k, ih (step acc k)]

theorem updateTileStateDefault_map_nrm (c : Cache) :
    updateTileStateDefault (c.map nrm) = (updateTileStateDefault c).map nrm := by
  have e1 : updateTileStateDefault (c.map nrm)
      = ((((c.map nrm).map (fun t => { t with state := 0 })).map (·.index)).foldl
          (defaultStep (((c.map nrm).map (fun t => { t with state := 0 })).length + 1))
          ((c.map nrm).map (fun t => { t with state := 0 }))).map
          (fun t => { t with isVisible := decide (t.state &&& 2 ≠ 0) }) := rfl
  have e2 : updateTileStateDefault c
      = (((c.map (fun t => { t with state := 0 })).map (·.index)).foldl
          (defaultStep ((c.map (fun t => { t with state := 0 })).length + 1))
          (c.map (fun t => { t with state := 0 }))).map
          (fun t => { t with isVisible := decide (t.state &&& 2 ≠ 0) }) := rfl
  rw [e1, e2]
  have hz : (c.map nrm).map (fun t => { t with state := 0 })
      = (c.map (fun t => { t with state := 0 })).map nrm :=
    map_comm_nrm (fun t => { t with state := 0 }) (fun t => rfl) c
  rw [hz]
  generalize c.map (fun t => { t with state := 0 }) = z
  rw [mapIndex_map_nrm z, List.length_map,
    foldl_map_nrm (defaultStep (z.length + 1)) (defaultStep_map_nrm (z.length + 1))
      (z.map (·.index)) z,
    map_comm_nrm (fun t => { t with isVisible := decide (t.state &&& 2 ≠ 0) })
      (fun t => rfl) ((z.map (·.index)).foldl (defaultStep (z.length + 1)) z)]

theorem updateTileStateReplace_map_nrm (c : Cache) :
    updateTileStateReplace (c.map nrm) = (updateTileStateReplace c).map nrm := by
  have e1 : updateTileStateReplace (c.map nrm)
      = ((sortByZoom ((((c.map nrm).map (fun t => { t with state := 0 })).map
              (·.index)).foldl
            (replaceAncStep (((c.map nrm).map (fun t => { t with state := 0 })).length + 1))
            ((c.map nrm).map (fun t => { t with state := 0 })))).map (·.index)).foldl
          (replaceStep (((c.map nrm).map (fun t => { t with state := 0 })).length + 1))
          ((((c.map nrm).map (fun t => { t with state := 0 })).map (·.index)).foldl
            (replaceAncStep (((c.map nrm).map (fun t => { t with state := 0 })).length + 1))
            ((c.map nrm).map (fun t => { t with state := 0 }))) := rfl
  have e2 : updateTileStateReplace c
      = ((sortByZoom (((c.map (fun t => { t with state := 0 })).map (·.index)).foldl
            (replaceAncStep ((c.map (fun t => { t with state := 0 })).length + 1))
            (c.map (fun t => { t with state := 0 })))).map (·.index)).foldl
          (replaceStep ((c.map (fun t => { t with state := 0 })).length + 1))
          (((c.map (fun t => { t with state := 0 })).map (·.index)).foldl
            (replaceAncStep ((c.map (fun t => { t with state := 0 })).length + 1))
            (c.map (fun t => { t with state := 0 }))) := rfl
  rw [e1, e2]
  have hz : (c.map nrm).map (fun t => { t with state := 0 })
      = (c.map (fun t => { t with state := 0 })).map nrm :=
    map_comm_nrm (fun t => { t with state := 0 }) (fun t => rfl) c
  rw [hz]
  generalize c.map (fun t => { t with state := 0 }) = z
  rw [mapIndex_map_nrm z, List.length_map,
    foldl_map_nrm (replaceAncStep (z.length + 1)) (replaceAncStep_map_nrm (z.length + 1))
      (z.map (·.index)) z]
  generalize (z.map (·.index)).foldl (replaceAncStep (z.length + 1)) z = a
  rw [sortByZoom_map_nrm a, mapIndex_map_nrm (sortByZoom a),
    foldl_map_nrm (replaceStep (z.length + 1)) (replaceStep_map_nrm (z.length + 1))
      ((sortByZoom a).map (·.index)) a]

theorem runStrategy_map_nrm (st : Strategy) (c : Cache) :
    runStrategy st (c.map nrm) = (runStrategy st c).map nrm := by
  cases st with
  | never => rfl
  | noOverlap => exact updateTileStateReplace_map_nrm c
  | bestAvailable => exact updateTileStateDefault_map_nrm c

theorem core_map_nrm (st : Strategy) (sel : List TileIndex) (c : Cache) :
    (updateTileStatesCore st sel (c.map nrm)).1
      = (updateTileStatesCore st sel c).1.map nrm := by
  rw [updateTileStatesCore_cache, updateTileStatesCore_cache]
  have h1 : (c.map nrm).map (fun t => { t with isSelected := false, isVisible := false })
      = (c.map (fun t => { t with isSelected := false, isVisible := false })).map nrm :=
    map_comm_nrm (fun t => { t with isSelected := false, isVisible := false })
      (fun t => rfl) c
  rw [h1,
    foldl_map_nrm
      (fun c k =>
        updateTile c k (fun t => { t with isSelected := true, isVisible := true }))
      (fun c2 k => updateTile_map_nrm
        (fun t => { t with isSelected := true, isVisible := true }) (fun t => rfl) c2 k)
      sel (c.map (fun t => { t with isSelected := false, isVisible := false })),
    runStrategy_map_nrm]

theorem core_vis_stable (st : Strategy) (sel : List TileIndex) (c : Cache) :
    (updateTileStatesCore st sel (updateTileStatesCore st sel c).1).1.map (·.isVisible)
      = (updateTileStatesCore st sel c).1.map (·.isVisible) := by
  rw [updateTileStatesCore_cache st sel (updateTileStatesCore st sel c).1]
  have hobs := core_coreObs st sel c
  have hstz : (sel.foldl
        (fun c k =>
          updateTile c k (fun t => { t with isSelected := true, isVisible := true }))
        ((updateTileStatesCore st sel c).1.map
          (fun t => { t with isSelected := false, isVisible := false }))).map
      (fun t => { t with state := 0 })
      = (sel.foldl
          (fun c k =>
            updateTile c k (fun t => { t with isSelected := true, isVisible := true }))
          (c.map (fun t => { t with isSelected := false, isVisible := false }))).map
        (fun t => { t with state := 0 }) := by
    rw [selectPhase_stz_eq, selectPhase_stz_eq, hobs]
  rw [strategy_vis_congr st hstz, ← updateTileStatesCore_cache st sel c]

theorem abortTile_nrm (t : Tile) : nrm (abortTile t) = nrm t := by
  unfold abortTile
  by_cases h : t.isLoading = true
  · rw [if_pos h]
    have hl : t.loadState = LoadState.loading := by
      simpa [Tile.isLoading] using h
    simp [nrm, Tile.isLoaded, hl]
  · rw [if_neg h]

theorem pruneLoop_nrm (m : Int) :
    ∀ (ks : List TileIndex) (count : Int) (c : Cache),
      (pruneLoop m ks count c).1.map nrm = c.map nrm := by
  intro ks
  induction ks with
  | nil =>
    intro count c
    rfl
  | cons k rest ih =>
    intro count c
    unfold pruneLoop
    by_cases h : m > 0 ∧ count > m
    · rw [if_pos h]
      show (pruneLoop m rest (count - 1) (updateTile c k abortTile)).1.map nrm = c.map nrm
      rw [ih, @proj_updateTile _ nrm c k abortTile abortTile_nrm]
    · rw [if_neg h]

/-- The tile-state phase is stable even across request pruning: aborting a
load only turns a `loading` tile into an `unloaded` one, which the phase
cannot distinguish, so re-running it on the pruned output of its own output
reports no visibility change. -/
theorem core_prune_stable (st : Strategy) (sel : List TileIndex) (m : Int) (c : Cache) :
    (updateTileStatesCore st sel
      (pruneRequests m (updateTileStatesCore st sel c).1).1).2 = false := by
  have hnrm : (pruneRequests m (updateTileStatesCore st sel c).1).1.map nrm
      = (updateTileStatesCore st sel c).1.map nrm :=
    pruneLoop_nrm m (abortCandidates (updateTileStatesCore st sel c).1)
      (ongoingCount (updateTileStatesCore st sel c).1) (updateTileStatesCore st sel c).1
  have hviseq : (pruneRequests m (updateTileStatesCore st sel c).1).1.map (·.isVisible)
      = (updateTileStatesCore st sel c).1.map (·.isVisible) := by
    rw [← vis_map_nrm (pruneRequests m (updateTileStatesCore st sel c).1).1,
      ← vis_map_nrm (updateTileStatesCore st sel c).1, hnrm]
  have hviscore : (updateTileStatesCore st sel
        (pruneRequests m (updateTileStatesCore st sel c).1).1).1.map (·.isVisible)
      = (pruneRequests m (updateTileStatesCore st sel c).1).1.map (·.isVisible) := by
    rw [← vis_map_nrm (updateTileStatesCore st sel
        (pruneRequests m (updateTileStatesCore st sel c).1).1).1,
      ← core_map_nrm st sel (pruneRequests m (updateTileStatesCore st sel c).1).1,
      hnrm,
      core_map_nrm st sel (updateTileStatesCore st sel c).1,
      vis_map_nrm ((updateTileStatesCore st sel (updateTileStatesCore st sel c).1).1),
      core_vis_stable st sel c, hviseq]
  have hd : (updateTileStatesCore st sel
        (pruneRequests m (updateTileStatesCore st sel c).1).1).2
      = !((pruneRequests m (updateTileStatesCore st sel c).1).1.map (·.isVisible)
          == (updateTileStatesCore st sel
            (pruneRequests m (updateTileStatesCore st sel c).1).1).1.map (·.isVisible))
      := rfl
  rw [hd, hviscore]
  simp

/-- C7 (amended): a second consecutive `update()` call (same viewport, same
model matrix inputs — which the first call has recorded) returns the same
frame counter as the first, provided no selected tile is flagged
needs-reload and the first call's resize pass found no budget overflow.
Request pruning in between is harmless: aborting a load only turns a
`loading` tile into an `unloaded` one, and the tile-state phase reads load
states only through `isLoaded`, so the recomputed visibilities are
unchanged. Without the no-overflow side condition the claim fails: the
first call's eviction can remove a selected-but-invisible tile, which
changes the visibilities the second call computes even though viewport,
matrix and load states are unchanged. -/
theorem update_frame_idempotent (gti : GetTileIndices) (s0 : Tileset2D) (V M : Nat)
    (hr : needsReloadB (update gti s0 V M).1 = false)
    (hov : resizeOverflown (midState gti s0 V M) = false) :
    (update gti (update gti s0 V M).1 V M).2.1 = (update gti s0 V M).2.1 := by
  have hv := (update_viewmat gti s0 V M).1
  have hm := (update_viewmat gti s0 V M).2
  have husel : updateSelect gti (update gti s0 V M).1 V M = (update gti s0 V M).1 := by
    have hc1 : ¬((update gti s0 V M).1.viewport = none
        ∨ some V ≠ (update gti s0 V M).1.viewport
        ∨ M ≠ (update gti s0 V M).1.modelMatrix) := by
      rw [hv, hm]
      simp
    have hc2 : ¬(needsReloadB (update gti s0 V M).1 = true) := by
      simp [hr]
    unfold updateSelect
    rw [if_neg hc1, if_neg hc2]
  have hf := update_fields gti s0 V M
  have hbcache : (if (midState gti s0 V M).dirty then resizeCache (midState gti s0 V M)
      else (midState gti s0 V M, [])).1.cache = (midState gti s0 V M).cache := by
    by_cases hd : (midState gti s0 V M).dirty = true
    · rw [if_pos hd]
      exact (resizeCache_not_overflown hov).1
    · rw [if_neg hd]
  have hbopts : (if (midState gti s0 V M).dirty then resizeCache (midState gti s0 V M)
      else (midState gti s0 V M, [])).1.opts = (midState gti s0 V M).opts := by
    by_cases hd : (midState gti s0 V M).dirty = true
    · rw [if_pos hd]
      exact (resizeCache_opts (midState gti s0 V M)).1
    · rw [if_neg hd]
  have hbsel : (if (midState gti s0 V M).dirty then resizeCache (midState gti s0 V M)
      else (midState gti s0 V M, [])).1.selectedTiles
      = (midState gti s0 V M).selectedTiles := by
    by_cases hd : (midState gti s0 V M).dirty = true
    · rw [if_pos hd]
      exact (resizeCache_opts (midState gti s0 V M)).2.1
    · rw [if_neg hd]
  have h1opts : (update gti s0 V M).1.opts = (updateSelect gti s0 V M).opts := by
    rw [hf.2.1, hbopts]
    rfl
  have h1sel : (update gti s0 V M).1.selectedTiles
      = (updateSelect gti s0 V M).selectedTiles := by
    rw [hf.2.2.1, hbsel]
    rfl
  have h1cache : (update gti s0 V M).1.cache
      = (pruneRequests (updateTileStates (updateSelect gti s0 V M)).1.opts.maxRequests
          (updateTileStates (updateSelect gti s0 V M)).1.cache).1 := by
    rw [hf.1, hbcache]
    rfl
  have hch2 : (updateTileStates (updateSelect gti (update gti s0 V M).1 V M)).2 = false := by
    rw [husel]
    show (updateTileStatesCore (update gti s0 V M).1.opts.refinementStrategy
        ((update gti s0 V M).1.selectedTiles.getD [])
        (update gti s0 V M).1.cache).2 = false
    rw [h1opts, h1sel, h1cache]
    exact core_prune_stable (updateSelect gti s0 V M).opts.refinementStrategy
      ((updateSelect gti s0 V M).selectedTiles.getD [])
      (updateTileStates (updateSelect gti s0 V M)).1.opts.maxRequests
      (updateSelect gti s0 V M).cache
  have hd2 : (midState gti (update gti s0 V M).1 V M).dirty = false := by
    show (updateTileStates (updateSelect gti (update gti s0 V M).1 V M)).1.dirty = false
    rw [husel]
    show (update gti s0 V M).1.dirty = false
    exact update_dirty_false gti s0 V M
  rw [update_ret_frame gti (update gti s0 V M).1 V M,
    update_eq_branches gti (update gti s0 V M).1 V M,
    if_neg (by simp [hch2]), if_neg (by simp [hd2])]
  show (updateTileStates (updateSelect gti (update gti s0 V M).1 V M)).1.frameNumber
      = (update gti s0 V M).2.1
  rw [husel]
  show (update gti s0 V M).1.frameNumber = (update gti s0 V M).2.1
  rw [update_ret_frame gti s0 V M]

/-- Options with an item budget of one tile under the best-available
strategy. -/
def optsA : TilesetOpts :=
  { maxCacheSize := some 1, maxCacheByteSize := none
    refinementStrategy := .bestAvailable, maxZoom := .nan, minZoom := .nan
    maxRequests := 0 }

/-- An index generator selecting the level-2 tile on viewport `1` and its
level-1 parent on every other viewport. -/
def gtiA : GetTileIndices := fun v _ _ _ =>
  if v == 1 then [⟨0, 0, 2⟩] else [⟨0, 0, 1⟩]

/-- The state after a first `update` on viewport 1 (creates and selects the
level-2 tile) followed by that tile's load completing. -/
def sB1 : Tileset2D :=
  applyTileLoad (update gtiA (initialTileset optsA) 1 0).1 ⟨0, 0, 2⟩ 7

/-- The state after a further `update` on viewport 2, which selects the
unloaded level-1 parent, surfaces the loaded level-2 child as placeholder,
and then evicts the selected-but-invisible parent (budget 1). -/
def sB2 : Tileset2D := (update gtiA sB1 2 0).1

theorem update_frame_counterexample :
    (update gtiA sB1 2 0).2.1 = 1
    ∧ needsReloadB sB2 = false
    ∧ (∀ t ∈ sB2.cache, t.needsReload = false)
    ∧ sB2.viewport = some 2
    ∧ sB2.modelMatrix = 0
    ∧ (update gtiA sB2 2 0).2.1 = 2 := by
  decide

theorem update_frame_idempotent_witness :
    needsReloadB (update gtiPair (initialTileset optsNanZoom) 1 0).1 = false
    ∧ resizeOverflown (midState gtiPair (initialTileset optsNanZoom) 1 0) = false
    ∧ (update gtiPair (update gtiPair (initialTileset optsNanZoom) 1 0).1 1 0).2.1
        = (update gtiPair (initialTileset optsNanZoom) 1 0).2.1 :=
  ⟨by decide, by decide,
    update_frame_idempotent gtiPair (initialTileset optsNanZoom) 1 0 (by decide)
      (by decide)⟩

/-! ## C5: the `no-overlap` strategy hides the subtree of every visible tile -/

theorem insertByZoom_perm (t : Tile) :
    ∀ c : Cache, List.Perm (insertByZoom t c) (t :: c) := by
  intro c
  induction c with
  | nil => exact List.Perm.refl _
  | cons u rest ih =>
    unfold insertByZoom
    by_cases h : u.zoom < t.zoom
    · rw [if_pos h]
      exact (ih.cons u).trans (List.Perm.swap t u rest)
    · rw [if_neg h]

theorem sortByZoom_perm : ∀ c : Cache, List.Perm (sortByZoom c) c := by
  intro c
  induction c with
  | nil => exact List.Perm.refl _
  | cons t rest ih =>
    exact (insertByZoom_perm t (sortByZoom rest)).trans (ih.cons t)

theorem insertByZoom_sorted (t : Tile) :
    ∀ {c : Cache}, List.Pairwise (fun a b : Tile => a.zoom ≤ b.zoom) c →
      List.Pairwise (fun a b : Tile => a.zoom ≤ b.zoom) (insertByZoom t c) := by
  intro c
  induction c with
  | nil =>
    intro _
    exact List.pairwise_singleton _ _
  | cons u rest ih =>
    intro hp
    rcases List.pairwise_cons.mp hp with ⟨hu, hrest⟩
    unfold insertByZoom
    by_cases h : u.zoom < t.zoom
    · rw [if_pos h]
      refine List.pairwise_cons.mpr ⟨?_, ih hrest⟩
      intro b hb
      rcases List.mem_cons.mp ((insertByZoom_perm t rest).mem_iff.mp hb) with rfl | hb'
      · exact le_of_lt h
      · exact hu b hb'
    · rw [if_neg h]
      refine List.pairwise_cons.mpr ⟨?_, hp⟩
      intro b hb
      rcases List.mem_cons.mp hb with rfl | hb'
      · exact le_of_not_lt h
      · exact le_trans (le_of_not_lt h) (hu b hb')

theorem sortByZoom_sorted :
    ∀ c : Cache, List.Pairwise (fun a b : Tile => a.zoom ≤ b.zoom) (sortByZoom c) := by
  intro c
  induction c with
  | nil => exact List.Pairwise.nil
  | cons t rest ih => exact insertByZoom_sorted t ih

/-- `a`'s tile is at most as deep as `b`'s, read off the base cache. -/
def zoomLe (c0 : Cache) (a b : TileIndex) : Prop :=
  ∀ ta tb, lookupTile c0 a = some ta → lookupTile c0 b = some tb → ta.zoom ≤ tb.zoom

theorem persist_zoom {t u : Tile} (h : t.persist = u.persist) : t.zoom = u.zoom :=
  congrArg (fun p => p.2.1) h

theorem persist_children {t u : Tile} (h : t.persist = u.persist) :
    t.children = u.children :=
  congrArg (fun p => p.2.2.2.2.2.2.2.2) h

theorem lookup_persist_transfer {c c' : Cache}
    (h : c.map Tile.persist = c'.map Tile.persist) {k : TileIndex} {w : Tile}
    (hw : lookupTile c k = some w) :
    ∃ w', lookupTile c' k = some w' ∧ w'.persist = w.persist := by
  have hc := lookup_persist_congr h k
  rw [hw] at hc
  cases hl : lookupTile c' k with
  | none =>
    rw [hl] at hc
    exact absurd hc (by simp)
  | some w' =>
    rw [hl] at hc
    exact ⟨w', rfl, by simpa using hc.symm⟩

theorem lookup_proj_congr {β : Type} (π : Tile → β)
    (hind : ∀ t u : Tile, π t = π u → t.index = u.index) :
    ∀ {c c' : Cache}, c.map π = c'.map π →
      ∀ i, (lookupTile c i).map π = (lookupTile c' i).map π := by
  intro c
  induction c with
  | nil =>
    intro c' h i
    cases c' with
    | nil => rfl
    | cons u rest => simp at h
  | cons t rest ih =>
    intro c' h i
    cases c' with
    | nil => simp at h
    | cons u rest' =>
      simp only [List.map_cons, List.cons.injEq] at h
      have hidx : t.index = u.index := hind t u h.1
      simp only [lookupTile, List.find?]
      by_cases hi : t.index = i
      · have h1 : (t.index == i) = true := by simpa using hi
        have h2 : (u.index == i) = true := by simpa using (hidx ▸ hi)
        simp [h1, h2, h.1]
      · have h1 : (t.index == i) = false := by simpa using hi
        have h2 : (u.index == i) = false := by simpa using (hidx ▸ hi)
        simp only [h1, h2]
        exact ih h.2 i

theorem ivFields_index (t u : Tile) (h : t.ivFields = u.ivFields) : t.index = u.index :=
  congrArg Prod.fst h

theorem gpic_iv (fuel : Nat) :
    ∀ (c : Cache) (k : TileIndex),
      (getPlaceholderInChildren fuel c k).map Tile.ivFields = c.map Tile.ivFields := by
  induction fuel with
  | zero =>
    intro c k
    rw [gpic_zero]
  | succ f ih =>
    intro c k
    rw [gpic_succ]
    rcases hlk : lookupTile c k with _ | t
    · rfl
    · refine foldl_pres (fun x => x.map Tile.ivFields = c.map Tile.ivFields)
        (gpicStep f) ?_ t.children c rfl
      intro c' ck hc'
      unfold gpicStep
      split
      next => exact hc'
      next ch hlk' =>
        by_cases hld : (ch.isLoaded || ch.hasContent) = true
        · rw [if_pos hld]
          show (updateTile c' ck (fun t => { t with state := t.state ||| 2 })).map
            Tile.ivFields = c.map Tile.ivFields
          rw [@proj_updateTile _ Tile.ivFields c' ck
            (fun t => { t with state := t.state ||| 2 }) (fun t => rfl)]
          exact hc'
        · rw [if_neg hld, ih]
          exact hc'

theorem desc_zoom (c0 : Cache)
    (hzoom : ∀ t ∈ c0, ∀ u ∈ c0, u.index ∈ t.children → t.zoom < u.zoom) :
    ∀ {a b : TileIndex}, Relation.TransGen (childLink c0) a b →
      ∀ {ta tb : Tile}, lookupTile c0 a = some ta → lookupTile c0 b = some tb →
        ta.zoom < tb.zoom := by
  intro a b h
  induction h with
  | single hr =>
    intro ta tb hla hlb
    obtain ⟨t, hlt, hmem⟩ := hr
    rw [hla] at hlt
    injection hlt with he
    subst he
    refine hzoom ta (lookupTile_mem hla).1 tb (lookupTile_mem hlb).1 ?_
    rw [(lookupTile_mem hlb).2]
    exact hmem
  | tail hab hr ih =>
    intro ta tb hla hlb
    obtain ⟨tm, hlm, hmem⟩ := hr
    refine lt_trans (ih hla hlm) ?_
    refine hzoom tm (lookupTile_mem hlm).1 tb (lookupTile_mem hlb).1 ?_
    rw [(lookupTile_mem hlb).2]
    exact hmem

theorem desc_irrefl (c0 : Cache)
    (hzoom : ∀ t ∈ c0, ∀ u ∈ c0, u.index ∈ t.children → t.zoom < u.zoom)
    {a : TileIndex} (h : Relation.TransGen (childLink c0) a a) : False := by
  obtain ⟨m, hr1, _⟩ := (Relation.TransGen.head'_iff).mp h
  obtain ⟨ta, hla, _⟩ := hr1
  exact lt_irrefl ta.zoom (desc_zoom c0 hzoom h hla hla)

theorem ancestor_of_child (c0 : Cache)
    (huniq : ∀ t ∈ c0, ∀ u ∈ c0, ∀ k, k ∈ t.children → k ∈ u.children →
      t.index = u.index)
    {k k' a : TileIndex} (hck : childLink c0 k k')
    (ha : Relation.TransGen (childLink c0) a k') :
    a = k ∨ Relation.TransGen (childLink c0) a k := by
  obtain ⟨p, hap, hpk'⟩ := (Relation.TransGen.tail'_iff).mp ha
  obtain ⟨tp, hlp, hmp⟩ := hpk'
  obtain ⟨tk, hlk, hmk⟩ := hck
  have hpk : p = k := by
    have := huniq tp (lookupTile_mem hlp).1 tk (lookupTile_mem hlk).1 k' hmp hmk
    rw [(lookupTile_mem hlp).2, (lookupTile_mem hlk).2] at this
    exact this
  subst hpk
  clear hlp hmp hlk hmk
  induction hap with
  | refl => exact Or.inl rfl
  | tail h1 h2 ih =>
    rcases ih with rfl | ht
    · exact Or.inr (Relation.TransGen.single h2)
    · exact Or.inr (ht.tail h2)

theorem gpic_touch (c0 : Cache) (fuel : Nat) :
    ∀ (c : Cache) (k d : TileIndex),
      c.map Tile.persist = c0.map Tile.persist →
      ¬ Relation.TransGen (childLink c0) k d →
      lookupTile (getPlaceholderInChildren fuel c k) d = lookupTile c d := by
  induction fuel with
  | zero =>
    intro c k d _ _
    rw [gpic_zero]
  | succ f ih =>
    intro c k d hpers hnd
    rw [gpic_succ]
    rcases hlk : lookupTile c k with _ | t
    · rfl
    · obtain ⟨t0, hl0, hp0⟩ := lookup_persist_transfer hpers hlk
      have hch : ∀ ck ∈ t.children, childLink c0 k ck := by
        intro ck hck
        exact ⟨t0, hl0, by rw [persist_children hp0]; exact hck⟩
      have hfold : ∀ (l : List TileIndex), (∀ ck ∈ l, childLink c0 k ck) →
          ∀ acc : Cache, acc.map Tile.persist = c0.map Tile.persist →
            lookupTile (l.foldl (gpicStep f) acc) d = lookupTile acc d := by
        intro l
        induction l with
        | nil =>
          intro _ acc _
          rfl
        | cons ck rest ihl =>
          intro hl acc hacc
          rw [List.foldl_cons]
          have hckl : childLink c0 k ck := hl ck (by simp)
          have hdck : d ≠ ck := by
            intro he
            exact hnd (he ▸ Relation.TransGen.single hckl)
          have hstep_pers : (gpicStep f acc ck).map Tile.persist
              = c0.map Tile.persist := by
            unfold gpicStep
            split
            next => exact hacc
            next ch hlk' =>
              by_cases hld : (ch.isLoaded || ch.hasContent) = true
              · rw [if_pos hld, persist_markVisible]
                exact hacc
              · rw [if_neg hld, gpic_persist]
                exact hacc
          have hstep_lookup : lookupTile (gpicStep f acc ck) d = lookupTile acc d := by
            unfold gpicStep
            split
            next => rfl
            next ch hlk' =>
              by_cases hld : (ch.isLoaded || ch.hasContent) = true
              · rw [if_pos hld]
                show lookupTile (updateTile acc ck
                  (fun t => { t with state := t.state ||| 2 })) d = lookupTile acc d
                rw [@lookupTile_updateTile acc ck d
                  (fun t => { t with state := t.state ||| 2 }) (fun t => rfl),
                  if_neg (fun he => hdck he.symm)]
              · rw [if_neg hld]
                refine ih acc ck d hacc ?_
                intro htr
                exact hnd (Relation.TransGen.head hckl htr)
          rw [ihl (fun x hx => hl x (by simp [hx])) (gpicStep f acc ck) hstep_pers,
            hstep_lookup]
      exact hfold t.children hch c hpers

theorem foldState1_lookup_other (d : TileIndex) :
    ∀ (l : List TileIndex), (∀ ck ∈ l, d ≠ ck) →
      ∀ acc : Cache,
        lookupTile
          (l.foldl (fun c ck => updateTile c ck (fun u => { u with state := 1 })) acc) d
        = lookupTile acc d := by
  intro l
  induction l with
  | nil =>
    intro _ acc
    rfl
  | cons ck rest ih =>
    intro hl acc
    rw [List.foldl_cons,
      ih (fun x hx => hl x (by simp [hx])) _,
      @lookupTile_updateTile acc ck d (fun u => { u with state := 1 }) (fun t => rfl),
      if_neg (fun he => hl ck (by simp) he.symm)]

theorem foldState1_iv :
    ∀ (l : List TileIndex) (acc : Cache),
      (l.foldl (fun c ck => updateTile c ck (fun u => { u with state := 1 })) acc).map
        Tile.ivFields
      = acc.map Tile.ivFields := by
  intro l acc
  refine foldl_pres (fun x => x.map Tile.ivFields = acc.map Tile.ivFields)
    (fun c ck => updateTile c ck (fun u => { u with state := 1 })) ?_ l acc rfl
  intro c' ck hc'
  show (updateTile c' ck (fun u => { u with state := 1 })).map Tile.ivFields
    = acc.map Tile.ivFields
  rw [@proj_updateTile _ Tile.ivFields c' ck (fun u => { u with state := 1 })
    (fun u => rfl)]
  exact hc'

theorem foldState1_sets (k' : TileIndex) :
    ∀ (l : List TileIndex) (acc : Cache),
      ((k' ∈ l ∧ k' ∈ keysOf acc) ∨ (∃ u, lookupTile acc k' = some u ∧ u.state = 1)) →
      ∃ u, lookupTile
          (l.foldl (fun c ck => updateTile c ck (fun u => { u with state := 1 })) acc) k'
        = some u ∧ u.state = 1 := by
  intro l
  induction l with
  | nil =>
    intro acc h
    rcases h with ⟨hin, _⟩ | h
    · exact absurd hin (by simp)
    · exact h
  | cons ck rest ih =>
    intro acc h
    rw [List.foldl_cons]
    have hstep : ∀ u, lookupTile acc k' = some u →
        ∃ v, lookupTile (updateTile acc ck (fun u => { u with state := 1 })) k' = some v
          ∧ (v.state = 1 ∨ (ck ≠ k' ∧ v = u)) := by
      intro u hu
      rw [@lookupTile_updateTile acc ck k' (fun u => { u with state := 1 })
        (fun t => rfl)]
      by_cases he : ck = k'
      · rw [if_pos he, hu]
        exact ⟨_, rfl, Or.inl rfl⟩
      · rw [if_neg he, hu]
        exact ⟨u, rfl, Or.inr ⟨he, rfl⟩⟩
    rcases h with ⟨hin, hres⟩ | ⟨u, hu, hs⟩
    · have hsome : ∃ u, lookupTile acc k' = some u := by
        have := lookupTile_isSome_iff.mpr hres
        cases hl : lookupTile acc k' with
        | none => rw [hl] at this; exact absurd this (by simp)
        | some u => exact ⟨u, rfl⟩
      obtain ⟨u, hu⟩ := hsome
      by_cases he : ck = k'
      · obtain ⟨v, hv, hd⟩ := hstep u hu
        rcases hd with hs1 | ⟨hne, _⟩
        · exact ih _ (Or.inr ⟨v, hv, hs1⟩)
        · exact absurd he hne
      · rcases List.mem_cons.mp hin with rfl | hin'
        · exact absurd rfl he
        · refine ih _ (Or.inl ⟨hin', ?_⟩)
          rw [@keysOf_updateTile acc ck (fun u => { u with state := 1 }) (fun t => rfl)]
          exact hres
    · obtain ⟨v, hv, hd⟩ := hstep u hu
      rcases hd with hs1 | ⟨_, rfl⟩
      · exact ih _ (Or.inr ⟨v, hv, hs1⟩)
      · exact ih _ (Or.inr ⟨v, hv, hs⟩)

theorem replaceStep_touch (c0 : Cache) (fuel : Nat) (c : Cache) (k d : TileIndex)
    (hpers : c.map Tile.persist = c0.map Tile.persist)
    (hdk : d ≠ k)
    (hndesc : ¬ Relation.TransGen (childLink c0) k d) :
    lookupTile (replaceStep fuel c k) d = lookupTile c d := by
  unfold replaceStep
  split
  next => rfl
  next t hlk =>
    obtain ⟨t0, hl0, hp0⟩ := lookup_persist_transfer hpers hlk
    have hupd : lookupTile (updateTile c k
        (fun u => { u with isVisible := decide (t.state &&& 2 ≠ 0) })) d
        = lookupTile c d := by
      rw [@lookupTile_updateTile c k d
        (fun u => { u with isVisible := decide (t.state &&& 2 ≠ 0) }) (fun t => rfl),
        if_neg (fun he => hdk he.symm)]
    have hupd_pers : (updateTile c k
        (fun u => { u with isVisible := decide (t.state &&& 2 ≠ 0) })).map Tile.persist
        = c0.map Tile.persist := by
      rw [@persist_updateTile c k
        (fun u => { u with isVisible := decide (t.state &&& 2 ≠ 0) }) (fun u => rfl)]
      exact hpers
    split
    · rw [foldState1_lookup_other d t.children ?_, hupd]
      intro ck hck he
      refine hndesc (Relation.TransGen.single ⟨t0, hl0, ?_⟩)
      rw [persist_children hp0]
      exact he ▸ hck
    · split
      · rw [gpic_touch c0 fuel _ k d hupd_pers hndesc, hupd]
      · exact hupd

theorem replaceStep_iv_other (c0 : Cache) (fuel : Nat) (c : Cache) (k d : TileIndex)
    (hdk : d ≠ k) :
    (lookupTile (replaceStep fuel c k) d).map Tile.ivFields
      = (lookupTile c d).map Tile.ivFields := by
  unfold replaceStep
  split
  next => rfl
  next t hlk =>
    have hupd : lookupTile (updateTile c k
        (fun u => { u with isVisible := decide (t.state &&& 2 ≠ 0) })) d
        = lookupTile c d := by
      rw [@lookupTile_updateTile c k d
        (fun u => { u with isVisible := decide (t.state &&& 2 ≠ 0) }) (fun t => rfl),
        if_neg (fun he => hdk he.symm)]
    split
    · have hiv := foldState1_iv t.children
        (updateTile c k (fun u => { u with isVisible := decide (t.state &&& 2 ≠ 0) }))
      rw [lookup_proj_congr Tile.ivFields ivFields_index hiv d, hupd]
    · split
      · have hiv := gpic_iv fuel
          (updateTile c k (fun u => { u with isVisible := decide (t.state &&& 2 ≠ 0) })) k
        rw [lookup_proj_congr Tile.ivFields ivFields_index hiv d, hupd]
      · rw [hupd]

/-- A key sealed by the sorted `no-overlap` marking loop: either it is still
pending with its state set to exactly VISITED and every ancestor already
processed (so nothing can resurrect it), or it has been processed invisible
with all of its resident children sealed in turn. -/
inductive Doomed (c0 : Cache) : Cache → List TileIndex → TileIndex → Prop where
  | pending : ∀ (c : Cache) (todo : List TileIndex) (k : TileIndex) (w : Tile),
      lookupTile c k = some w → k ∈ todo → w.state = 1 →
      (∀ a, Relation.TransGen (childLink c0) a k → a ∉ todo) →
      Doomed c0 c todo k
  | finished : ∀ (c : Cache) (todo : List TileIndex) (k : TileIndex) (w : Tile),
      lookupTile c k = some w → k ∉ todo → w.isVisible = false →
      (∀ k', childLink c0 k k' → k' ∈ keysOf c0 → Doomed c0 c todo k') →
      Doomed c0 c todo k


theorem doomed_step (c0 : Cache) (fuel : Nat)
    (hzoom : ∀ t ∈ c0, ∀ u ∈ c0, u.index ∈ t.children → t.zoom < u.zoom)
    (huniq : ∀ t ∈ c0, ∀ u ∈ c0, ∀ j, j ∈ t.children → j ∈ u.children →
      t.index = u.index)
    (k : TileIndex) (rest : List TileIndex)
    (hknr : k ∉ rest)
    (hcl : ∀ j, Relation.TransGen (childLink c0) k j → j ∈ keysOf c0 → j ∈ rest) :
    ∀ (c : Cache) (todo : List TileIndex) (d : TileIndex),
      Doomed c0 c todo d →
      todo = k :: rest →
      c.map Tile.persist = c0.map Tile.persist →
      Doomed c0 (replaceStep fuel c k) rest d := by
  intro c todo d hd
  induction hd with
  | pending d' w hlw hdin hst hanc =>
    intro htodo hpers
    subst htodo
    by_cases hdk : d' = k
    · subst hdk
      obtain ⟨w0, hl0, hp0⟩ := lookup_persist_transfer hpers hlw
      have hcond : (decide (w.state &&& 2 ≠ 0) || decide (w.state &&& 1 ≠ 0)) = true := by
        rw [hst]
        decide
      have hstep : replaceStep fuel c d'
          = w.children.foldl (fun c ck => updateTile c ck (fun u => { u with state := 1 }))
              (updateTile c d'
                (fun u => { u with isVisible := decide (w.state &&& 2 ≠ 0) })) := by
        simp only [replaceStep, hlw]
        rw [if_pos hcond]
      have hdnotchild : ∀ ck ∈ w.children, d' ≠ ck := by
        intro ck hck he
        refine @desc_irrefl c0 hzoom d' (Relation.TransGen.single ?_)
        refine ⟨w0, hl0, ?_⟩
        rw [persist_children hp0]
        exact he ▸ hck
      have hlw' : lookupTile (replaceStep fuel c d') d'
          = some { w with isVisible := decide (w.state &&& 2 ≠ 0) } := by
        rw [hstep, foldState1_lookup_other d' w.children hdnotchild,
          @lookupTile_updateTile c d' d'
            (fun u => { u with isVisible := decide (w.state &&& 2 ≠ 0) }) (fun t => rfl),
          if_pos rfl, hlw]
        rfl
      refine Doomed.finished _ rest d' _ hlw' hknr ?_ ?_
      · show decide (w.state &&& 2 ≠ 0) = false
        rw [hst]
        decide
      · intro k' hck' hres'
        obtain ⟨tk, hltk, hmemk⟩ := hck'
        have htk : tk = w0 := by
          rw [hl0] at hltk
          injection hltk with he
          exact he.symm
        subst htk
        have hmemw : k' ∈ w.children := by
          rw [← persist_children hp0]
          exact hmemk
        have hpers' : (updateTile c d'
            (fun u => { u with isVisible := decide (w.state &&& 2 ≠ 0) })).map Tile.persist
            = c0.map Tile.persist := by
          rw [@persist_updateTile c d'
            (fun u => { u with isVisible := decide (w.state &&& 2 ≠ 0) }) (fun u => rfl)]
          exact hpers
        have hreskeys : k' ∈ keysOf (updateTile c d'
            (fun u => { u with isVisible := decide (w.state &&& 2 ≠ 0) })) := by
          rw [keysOf_eq_of_persist_eq hpers']
          exact hres'
        obtain ⟨u', hlu', hsu'⟩ := foldState1_sets k' w.children _
          (Or.inl ⟨hmemw, hreskeys⟩)
        rw [← hstep] at hlu'
        refine Doomed.pending _ rest k' u' hlu' ?_ hsu' ?_
        · exact hcl k' (Relation.TransGen.single ⟨tk, hl0, hmemk⟩) hres'
        · intro a ha
          rcases ancestor_of_child c0 huniq ⟨tk, hl0, hmemk⟩ ha with rfl | hta
          · exact hknr
          · intro hain
            exact hanc a hta (by simp [hain])
    · have hndesc : ¬ Relation.TransGen (childLink c0) k d' := by
        intro htr
        exact hanc k htr (by simp)
      have hlw' : lookupTile (replaceStep fuel c k) d' = some w := by
        rw [replaceStep_touch c0 fuel c k d' hpers hdk hndesc]
        exact hlw
      refine Doomed.pending _ rest d' w hlw' ?_ hst ?_
      · rcases List.mem_cons.mp hdin with he | hm
        · exact absurd he hdk
        · exact hm
      · intro a ha hain
        exact hanc a ha (by simp [hain])
  | finished d' w hlw hdnin hvis hch ih =>
    intro htodo hpers
    subst htodo
    have hdk : d' ≠ k := by
      intro he
      exact hdnin (by simp [he])
    have hiv := replaceStep_iv_other c0 fuel c k d' hdk
    rw [hlw] at hiv
    cases hl' : lookupTile (replaceStep fuel c k) d' with
    | none =>
      rw [hl'] at hiv
      exact absurd hiv (by simp)
    | some w' =>
      rw [hl'] at hiv
      have hivw : w'.ivFields = w.ivFields := by simpa using hiv
      refine Doomed.finished _ rest d' w' hl' (fun hm => hdnin (by simp [hm])) ?_ ?_
      · have hv : w'.isVisible = w.isVisible := congrArg (fun p => p.2) hivw
        rw [hv]
        exact hvis
      · intro k' hck' hres'
        exact ih k' hck' hres' rfl hpers

theorem rtg_eq_or_tg {α : Type} {r : α → α → Prop} {a b : α}
    (h : Relation.ReflTransGen r a b) : a = b ∨ Relation.TransGen r a b := by
  induction h with
  | refl => exact Or.inl rfl
  | tail h1 h2 ih =>
    rcases ih with rfl | ht
    · exact Or.inr (Relation.TransGen.single h2)
    · exact Or.inr (ht.tail h2)

/-- Invariant of the sorted marking loop: every already-processed visible
tile has all of its resident children sealed. -/
def SealInv (c0 c : Cache) (todo : List TileIndex) : Prop :=
  ∀ j w, lookupTile c j = some w → j ∉ todo → w.isVisible = true →
    ∀ k', childLink c0 j k' → k' ∈ keysOf c0 → Doomed c0 c todo k'

theorem replace_fold_master (c0 : Cache) (fuel : Nat)
    (hzoom : ∀ t ∈ c0, ∀ u ∈ c0, u.index ∈ t.children → t.zoom < u.zoom)
    (huniq : ∀ t ∈ c0, ∀ u ∈ c0, ∀ j, j ∈ t.children → j ∈ u.children →
      t.index = u.index) :
    ∀ (todo : List TileIndex) (c : Cache),
      c.map Tile.persist = c0.map Tile.persist →
      todo.Nodup →
      (∀ j ∈ todo, ∀ j', Relation.TransGen (childLink c0) j j' → j' ∈ keysOf c0 →
        j' ∈ todo) →
      List.Pairwise (zoomLe c0) todo →
      SealInv c0 c todo →
      (todo.foldl (replaceStep fuel) c).map Tile.persist = c0.map Tile.persist
      ∧ SealInv c0 (todo.foldl (replaceStep fuel) c) [] := by
  intro todo
  induction todo with
  | nil =>
    intro c hpers _ _ _ hinv
    exact ⟨hpers, hinv⟩
  | cons k rest ih =>
    intro c hpers hnodup hclosed hsorted hinv
    rw [List.foldl_cons]
    have hknr : k ∉ rest := (List.nodup_cons.mp hnodup).1
    have hndrest : rest.Nodup := (List.nodup_cons.mp hnodup).2
    have hsorthead : ∀ a ∈ rest, zoomLe c0 k a := (List.pairwise_cons.mp hsorted).1
    have hsortrest : List.Pairwise (zoomLe c0) rest := (List.pairwise_cons.mp hsorted).2
    have hclk : ∀ j, Relation.TransGen (childLink c0) k j → j ∈ keysOf c0 →
        j ∈ rest := by
      intro j hdesc hres
      have hj := hclosed k (by simp) j hdesc hres
      rcases List.mem_cons.mp hj with rfl | hm
      · exact absurd hdesc (fun h => desc_irrefl c0 hzoom h)
      · exact hm
    have hpers' : (replaceStep fuel c k).map Tile.persist = c0.map Tile.persist := by
      rw [replaceStep_persist]
      exact hpers
    refine ih (replaceStep fuel c k) hpers' hndrest ?_ hsortrest ?_
    · intro j hj j' hdesc hres
      have hj2 := hclosed j (by simp [hj]) j' hdesc hres
      rcases List.mem_cons.mp hj2 with rfl | hm
      · exfalso
        obtain ⟨m, hr1, _⟩ := (Relation.TransGen.head'_iff).mp hdesc
        obtain ⟨tj, hlj, _⟩ := hr1
        have hreskk : (lookupTile c0 j').isSome = true := lookupTile_isSome_iff.mpr hres
        cases hlk : lookupTile c0 j' with
        | none =>
          rw [hlk] at hreskk
          exact absurd hreskk (by simp)
        | some tk0 =>
          have hlt := desc_zoom c0 hzoom hdesc hlj hlk
          have hle := hsorthead j hj tk0 tj hlk hlj
          exact absurd hlt (not_lt_of_le hle)
      · exact hm
    · intro j w hlw hjn hvisw k' hck' hres'
      by_cases hjk : j = k
      · subst hjk
        cases hlk : lookupTile c j with
        | none =>
          have hid : replaceStep fuel c j = c := by
            simp only [replaceStep, hlk]
          rw [hid, hlk] at hlw
          exact absurd hlw (by simp)
        | some t =>
          obtain ⟨t0, hl0, hp0⟩ := lookup_persist_transfer hpers hlk
          by_cases hcond : (decide (t.state &&& 2 ≠ 0) || decide (t.state &&& 1 ≠ 0))
              = true
          · have hstep : replaceStep fuel c j
                = t.children.foldl
                    (fun c ck => updateTile c ck (fun u => { u with state := 1 }))
                    (updateTile c j
                      (fun u => { u with isVisible := decide (t.state &&& 2 ≠ 0) })) := by
              simp only [replaceStep, hlk]
              rw [if_pos hcond]
            have hjnotchild : ∀ ck ∈ t.children, j ≠ ck := by
              intro ck hck he
              refine @desc_irrefl c0 hzoom j (Relation.TransGen.single ?_)
              refine ⟨t0, hl0, ?_⟩
              rw [persist_children hp0]
              exact he ▸ hck
            have hlwv : lookupTile (replaceStep fuel c j) j
                = some { t with isVisible := decide (t.state &&& 2 ≠ 0) } := by
              rw [hstep, foldState1_lookup_other j t.children hjnotchild,
                @lookupTile_updateTile c j j
                  (fun u => { u with isVisible := decide (t.state &&& 2 ≠ 0) })
                  (fun t => rfl),
                if_pos rfl, hlk]
              rfl
            rw [hlw] at hlwv
            injection hlwv with hw
            obtain ⟨tj2, hlj2, hmem2⟩ := hck'
            have htj2 : tj2 = t0 := by
              rw [hl0] at hlj2
              injection hlj2 with he
              exact he.symm
            subst htj2
            have hmemt : k' ∈ t.children := by
              rw [← persist_children hp0]
              exact hmem2
            have hpersV : (updateTile c j
                (fun u => { u with isVisible := decide (t.state &&& 2 ≠ 0) })).map
                Tile.persist = c0.map Tile.persist := by
              rw [@persist_updateTile c j
                (fun u => { u with isVisible := decide (t.state &&& 2 ≠ 0) })
                (fun u => rfl)]
              exact hpers
            have hreskeys : k' ∈ keysOf (updateTile c j
                (fun u => { u with isVisible := decide (t.state &&& 2 ≠ 0) })) := by
              rw [keysOf_eq_of_persist_eq hpersV]
              exact hres'
            obtain ⟨u', hlu', hsu'⟩ := foldState1_sets k' t.children _
              (Or.inl ⟨hmemt, hreskeys⟩)
            rw [← hstep] at hlu'
            refine Doomed.pending _ rest k' u' hlu' ?_ hsu' ?_
            · exact hclk k' (Relation.TransGen.single ⟨tj2, hl0, hmem2⟩) hres'
            · intro a ha
              rcases ancestor_of_child c0 huniq ⟨tj2, hl0, hmem2⟩ ha with rfl | hta
              · exact hknr
              · intro hain
                obtain ⟨m, hr1, _⟩ := (Relation.TransGen.head'_iff).mp hta
                obtain ⟨ta0, hla0, _⟩ := hr1
                have hlt := desc_zoom c0 hzoom hta hla0 hl0
                have hle := hsorthead a hain tj2 ta0 hl0 hla0
                exact absurd hlt (not_lt_of_le hle)
          · exfalso
            have hife : replaceStep fuel c j
                = if t.isSelected = true then
                    getPlaceholderInChildren fuel
                      (updateTile c j
                        (fun u => { u with isVisible := decide (t.state &&& 2 ≠ 0) })) j
                  else updateTile c j
                    (fun u => { u with isVisible := decide (t.state &&& 2 ≠ 0) }) := by
              simp only [replaceStep, hlk]
              rw [if_neg hcond]
            have hbit0 : decide (t.state &&& 2 ≠ 0) = false := by
              have hor : (decide (t.state &&& 2 ≠ 0) || decide (t.state &&& 1 ≠ 0))
                  = false := by
                cases hb : (decide (t.state &&& 2 ≠ 0) || decide (t.state &&& 1 ≠ 0))
                · rfl
                · exact absurd hb hcond
              exact (Bool.or_eq_false_iff.mp hor).1
            have hlV : lookupTile (updateTile c j
                (fun u => { u with isVisible := decide (t.state &&& 2 ≠ 0) })) j
                = some { t with isVisible := decide (t.state &&& 2 ≠ 0) } := by
              rw [@lookupTile_updateTile c j j
                (fun u => { u with isVisible := decide (t.state &&& 2 ≠ 0) })
                (fun t => rfl), if_pos rfl, hlk]
              rfl
            have hivj : (lookupTile (replaceStep fuel c j) j).map Tile.ivFields
                = some (Tile.ivFields { t with isVisible := decide (t.state &&& 2 ≠ 0) })
                := by
              rw [hife]
              by_cases hs : t.isSelected = true
              · rw [if_pos hs]
                rw [lookup_proj_congr Tile.ivFields ivFields_index
                  (gpic_iv fuel (updateTile c j
                    (fun u => { u with isVisible := decide (t.state &&& 2 ≠ 0) })) j) j,
                  hlV]
                rfl
              · rw [if_neg hs, hlV]
                rfl
            rw [hlw] at hivj
            have hwvis : w.isVisible = decide (t.state &&& 2 ≠ 0) := by
              have := congrArg (fun p => Option.map (fun q => q.2) p) hivj
              simpa [Tile.ivFields] using this
            rw [hvisw, hbit0] at hwvis
            exact absurd hwvis (by simp)
      · have hiv := replaceStep_iv_other c0 fuel c k j hjk
        rw [hlw] at hiv
        cases hl2 : lookupTile c j with
        | none =>
          rw [hl2] at hiv
          exact absurd hiv (by simp)
        | some w2 =>
          rw [hl2] at hiv
          have hivw : w.ivFields = w2.ivFields := by simpa using hiv
          have hvis2 : w2.isVisible = true := by
            have h2 := congrArg (fun p => p.2) hivw
            simp only [Tile.ivFields] at h2
            rw [← h2]
            exact hvisw
          have hjn2 : j ∉ k :: rest := by
            simp only [List.mem_cons]
            rintro (he | hm)
            · exact hjk he
            · exact hjn hm
          have hdoomed := hinv j w2 hl2 hjn2 hvis2 k' hck' hres'
          exact doomed_step c0 fuel hzoom huniq k rest hknr hclk c (k :: rest) k'
            hdoomed rfl hpers

theorem doomed_nil (c0 : Cache) :
    ∀ {cf : Cache} {k : TileIndex}, Doomed c0 cf [] k →
      (∀ w, lookupTile cf k = some w → w.isVisible = false)
      ∧ (∀ k', Relation.TransGen (childLink c0) k k' → k' ∈ keysOf c0 →
          ∀ w', lookupTile cf k' = some w' → w'.isVisible = false) := by
  intro cf k hd
  induction hd with
  | pending d' w hlw hdin hst hanc => exact absurd hdin (by simp)
  | finished d' w hlw hdnin hvis hch ih =>
    constructor
    · intro w2 hw2
      rw [hlw] at hw2
      injection hw2 with he
      rw [← he]
      exact hvis
    · intro k' htg hres' w' hlw'
      obtain ⟨m, hr1, hrt⟩ := (Relation.TransGen.head'_iff).mp htg
      rcases rtg_eq_or_tg hrt with he | ht
      · have hmres : m ∈ keysOf c0 := by
          rw [he]
          exact hres'
        refine (ih m hr1 hmres).1 w' ?_
        rw [he]
        exact hlw'
      · have hmres : m ∈ keysOf c0 := by
          obtain ⟨m2, hr2, _⟩ := (Relation.TransGen.head'_iff).mp ht
          obtain ⟨tm, hltm, _⟩ := hr2
          refine lookupTile_isSome_iff.mp ?_
          rw [hltm]
          rfl
        exact (ih m hr1 hmres).2 k' ht hres' w' hlw'

/-- C5: under the `no-overlap` strategy on a well-formed tile forest
(duplicate-free keys, resident children strictly deeper than their parent,
at most one resident parent per key), the sorted loop processes tiles in
ascending zoom order, and after the strategy runs no tile of the descendant
subtree of a visible tile is itself visible: a rendered tile suppresses its
whole subtree. -/
theorem noOverlap_subtree_hidden (c0 : Cache)
    (hnd : (keysOf c0).Nodup)
    (hzoom : ∀ t ∈ c0, ∀ u ∈ c0, u.index ∈ t.children → t.zoom < u.zoom)
    (huniq : ∀ t ∈ c0, ∀ u ∈ c0, ∀ j, j ∈ t.children → j ∈ u.children →
      t.index = u.index) :
    (∀ x : Cache, List.Pairwise (fun a b : Tile => a.zoom ≤ b.zoom) (sortByZoom x))
    ∧ ∀ t' ∈ updateTileStateReplace c0, t'.isVisible = true →
      ∀ u' ∈ updateTileStateReplace c0,
        Relation.TransGen (childLink c0) t'.index u'.index → u'.isVisible = false := by
  refine ⟨sortByZoom_sorted, ?_⟩
  have hc1 : (c0.map (fun t => { t with state := 0 })).map Tile.persist
      = c0.map Tile.persist := by
    rw [List.map_map]
    exact List.map_congr_left fun t _ => rfl
  have hc2 : (((c0.map (fun t => { t with state := 0 })).map (·.index)).foldl
      (replaceAncStep ((c0.map (fun t => { t with state := 0 })).length + 1))
      (c0.map (fun t => { t with state := 0 }))).map Tile.persist
      = c0.map Tile.persist := by
    refine foldl_pres (fun x => x.map Tile.persist = c0.map Tile.persist)
      (replaceAncStep ((c0.map (fun t => { t with state := 0 })).length + 1)) ?_ _ _ hc1
    intro c' a hc'
    rw [replaceAncStep_persist]
    exact hc'
  have heq : updateTileStateReplace c0
      = ((sortByZoom (((c0.map (fun t => { t with state := 0 })).map (·.index)).foldl
            (replaceAncStep ((c0.map (fun t => { t with state := 0 })).length + 1))
            (c0.map (fun t => { t with state := 0 })))).map (·.index)).foldl
          (replaceStep ((c0.map (fun t => { t with state := 0 })).length + 1))
          (((c0.map (fun t => { t with state := 0 })).map (·.index)).foldl
            (replaceAncStep ((c0.map (fun t => { t with state := 0 })).length + 1))
            (c0.map (fun t => { t with state := 0 }))) := rfl
  set fuel := (c0.map (fun t => { t with state := 0 })).length + 1 with hfuel
  set c2 := ((c0.map (fun t => { t with state := 0 })).map (·.index)).foldl
    (replaceAncStep fuel) (c0.map (fun t => { t with state := 0 })) with hc2def
  set sk := (sortByZoom c2).map (·.index) with hskdef
  have hperm : List.Perm (sortByZoom c2) c2 := sortByZoom_perm c2
  have hskperm : List.Perm sk (keysOf c2) := hperm.map (·.index)
  have hkeys2 : keysOf c2 = keysOf c0 := keysOf_eq_of_persist_eq hc2
  have hnd2 : (keysOf c2).Nodup := by
    rw [hkeys2]
    exact hnd
  have hsknodup : sk.Nodup := hskperm.nodup_iff.mpr hnd2
  have hclosure : ∀ j ∈ sk, ∀ j', Relation.TransGen (childLink c0) j j' →
      j' ∈ keysOf c0 → j' ∈ sk := by
    intro j _ j' _ hres
    refine hskperm.mem_iff.mpr ?_
    rw [hkeys2]
    exact hres
  have hsorted : List.Pairwise (zoomLe c0) sk := by
    rw [hskdef, List.pairwise_map]
    refine List.Pairwise.imp_of_mem ?_ (sortByZoom_sorted c2)
    intro t u hmt hmu hle ta tb hla hlb
    have hmt2 : t ∈ c2 := hperm.mem_iff.mp hmt
    have hmu2 : u ∈ c2 := hperm.mem_iff.mp hmu
    have hlt2 : lookupTile c2 t.index = some t := mem_lookupTile hnd2 hmt2
    have hlu2 : lookupTile c2 u.index = some u := mem_lookupTile hnd2 hmu2
    obtain ⟨ta2, hla2, hpa2⟩ := lookup_persist_transfer hc2 hlt2
    obtain ⟨tb2, hlb2, hpb2⟩ := lookup_persist_transfer hc2 hlu2
    rw [hla] at hla2
    injection hla2 with hea
    rw [hlb] at hlb2
    injection hlb2 with heb
    rw [← hea] at hpa2
    rw [← heb] at hpb2
    rw [persist_zoom hpa2, persist_zoom hpb2]
    exact hle
  have hinv0 : SealInv c0 c2 sk := by
    intro j w hlw hjn hvis k' hck hres
    exfalso
    apply hjn
    refine hskperm.mem_iff.mpr ?_
    refine lookupTile_isSome_iff.mp ?_
    rw [hlw]
    rfl
  obtain ⟨hcfpers, hseal⟩ := replace_fold_master c0 fuel hzoom huniq sk c2 hc2
    hsknodup hclosure hsorted hinv0
  have hkeyscf : keysOf (sk.foldl (replaceStep fuel) c2) = keysOf c0 :=
    keysOf_eq_of_persist_eq hcfpers
  have hndcf : (keysOf (sk.foldl (replaceStep fuel) c2)).Nodup := by
    rw [hkeyscf]
    exact hnd
  intro t' ht' hvist' u' hu' htg
  rw [heq] at ht' hu'
  have hlt' : lookupTile (sk.foldl (replaceStep fuel) c2) t'.index = some t' :=
    mem_lookupTile hndcf ht'
  have hlu' : lookupTile (sk.foldl (replaceStep fuel) c2) u'.index = some u' :=
    mem_lookupTile hndcf hu'
  obtain ⟨m, hr1, hrt⟩ := (Relation.TransGen.head'_iff).mp htg
  have hu'res : u'.index ∈ keysOf c0 := by
    rw [← hkeyscf]
    refine lookupTile_isSome_iff.mp ?_
    rw [hlu']
    rfl
  have hmres : m ∈ keysOf c0 := by
    rcases rtg_eq_or_tg hrt with he | ht
    · rw [he]
      exact hu'res
    · obtain ⟨m2, hr2, _⟩ := (Relation.TransGen.head'_iff).mp ht
      obtain ⟨tm, hltm, _⟩ := hr2
      refine lookupTile_isSome_iff.mp ?_
      rw [hltm]
      rfl
  have hdm : Doomed c0 (sk.foldl (replaceStep fuel) c2) [] m :=
    hseal t'.index t' hlt' (by simp) hvist' m hr1 hmres
  rcases rtg_eq_or_tg hrt with he | ht
  · refine (doomed_nil c0 hdm).1 u' ?_
    rw [he]
    exact hlu'
  · exact (doomed_nil c0 hdm).2 u'.index ht hu'res u' hlu'

/-- A loaded, selected root tile at level 0 whose only child is `tW1`. -/
def tW0 : Tile :=
  { index := ⟨0, 0, 0⟩, zoom := 0, loadState := .loaded, needsReload := false
    hasContent := true, byteLength := 0, isSelected := true, isVisible := false
    state := 0, parent := none, children := [⟨0, 0, 1⟩] }

/-- A loaded but unselected child tile at level 1. -/
def tW1 : Tile :=
  { index := ⟨0, 0, 1⟩, zoom := 1, loadState := .loaded, needsReload := false
    hasContent := true, byteLength := 0, isSelected := false, isVisible := false
    state := 0, parent := some ⟨0, 0, 0⟩, children := [] }

/-- A two-tile forest: a selected loaded root and its loaded child. -/
def cW5 : Cache := [tW0, tW1]

/-- The root after the `no-overlap` strategy: visible. -/
def tF0 : Tile := { tW0 with state := 2, isVisible := true }

/-- The child after the `no-overlap` strategy: hidden by its parent. -/
def tF1 : Tile := { tW1 with state := 1, isVisible := false }

theorem noOverlap_subtree_hidden_witness :
    (keysOf cW5).Nodup
    ∧ tF0 ∈ updateTileStateReplace cW5
    ∧ tF1 ∈ updateTileStateReplace cW5
    ∧ tF0.isVisible = true
    ∧ tF1.isVisible = false :=
  ⟨by decide, by decide, by decide, rfl,
    (noOverlap_subtree_hidden cW5 (by decide) (by decide) (by decide)).2 tF0 (by decide)
      rfl tF1 (by decide) (Relation.TransGen.single ⟨tW0, by decide, by decide⟩)⟩

end Tileset
